import Mathlib

/-!
Verification development for the concordat-vale text-artifact merge engine.

The Python modules `concordat_vale/tengo_map.py` and
`concordat_vale/stilyagi_install.py` are shallowly embedded here.  Text is
modelled as `List Char` (the decoded content of a file after Python's
universal-newline translation, so the only line-break characters that can
occur are `'\n'` and `'\r'`); file systems are modelled as `Option (List
Char)` (`none` = file absent); Python exceptions become an explicit error
type; Python `dict`s become association lists with insertion-order
semantics (`dictSet` replaces in place or appends, exactly like a Python
dict assignment).

Python numbers are modelled exactly: `int` as `Int` and `float` as `ℚ`.
This is exact for every value the program actually manipulates (decimal
literals of modest size); IEEE-754 rounding of enormous values is outside
the model.
-/

/-- Characters Python's `str.strip` / `\s` treat as whitespace (ASCII part;
exotic Unicode whitespace is outside the model). -/
def isPySpace (c : Char) : Bool :=
  c = ' ' || c = '\t' || c = '\n' || c = '\r' || c = Char.ofNat 11 || c = Char.ofNat 12

/-- A line (or any piece) of decoded text. -/
abbrev Line := List Char

/-- The left brace character, `Char.ofNat 123`. -/
def lbrace : Char := Char.ofNat 123

/-- The right brace character, `Char.ofNat 125`. -/
def rbrace : Char := Char.ofNat 125

/-- The double-quote character. -/
def dquote : Char := '"'

/-- Python `str.lstrip()`. -/
def pyLstrip (l : Line) : Line := l.dropWhile isPySpace

/-- Python `str.rstrip()`. -/
def pyRstrip (l : Line) : Line := (l.reverse.dropWhile isPySpace).reverse

/-- Python `str.strip()`. -/
def pyStrip (l : Line) : Line := pyRstrip (pyLstrip l)

/-- Replace a Windows line ending `\r\n` by `\n` (first step of
`str.splitlines`, which treats `\r\n` as a single break). -/
def translateCRLF : Line → Line
  | [] => []
  | [c] => [c]
  | c :: d :: cs =>
    if c = '\r' ∧ d = '\n' then '\n' :: translateCRLF cs
    else c :: translateCRLF (d :: cs)

/-- Split on the remaining single-character breaks `\n` and `\r`.
`acc` holds the current line reversed. -/
def splitNLAux (acc : Line) : Line → List Line
  | [] => if acc.isEmpty then [] else [acc.reverse]
  | c :: cs =>
    if c = '\n' || c = '\r' then acc.reverse :: splitNLAux [] cs
    else splitNLAux (c :: acc) cs

/-- Python `str.splitlines()` restricted to the breaks `\n`, `\r`, `\r\n`
(the exotic break characters like form-feed or NEL are outside the
model; no claim involves them). -/
def pySplitlines (l : Line) : List Line := splitNLAux [] (translateCRLF l)

/-- `"\n".join(lines) + "\n"`, the normal form `update_tengo_map` writes. -/
def joinNL (ls : List Line) : Line := List.intercalate ['\n'] ls ++ ['\n']

/-- Python `list.insert(i, x)`: the index is clamped to the list length. -/
def pyInsert {α : Type} (l : List α) (i : Nat) (a : α) : List α :=
  l.take i ++ a :: l.drop i

/-- Python dict assignment `d[k] = v`: replace the value in place when the
key is present, append otherwise. -/
def dictSet {β : Type} (d : List (Line × β)) (k : Line) (v : β) : List (Line × β) :=
  match d with
  | [] => [(k, v)]
  | (k', v') :: rest => if k' = k then (k, v) :: rest else (k', v') :: dictSet rest k v

/-- Python dict lookup `d.get(k)` / `k in d`. -/
def dictLookup {β : Type} (d : List (Line × β)) (k : Line) : Option β :=
  match d with
  | [] => none
  | (k', v') :: rest => if k' = k then some v' else dictLookup rest k

/-- Split a list at the first occurrence of `c` (Python
`s.split(c, 1)` / `s.partition(c)` when `c` occurs): returns the parts
before and after the separator. -/
def splitFirst (l : Line) (c : Char) : Line × Line :=
  match l with
  | [] => ([], [])
  | x :: xs =>
    if x = c then ([], xs)
    else
      let p := splitFirst xs c
      (x :: p.1, p.2)

/-- Numeric value of a run of decimal digits. -/
def digitsVal (l : Line) : Nat :=
  l.foldl (fun acc c => 10 * acc + (c.toNat - 48)) 0

/-- Python `int(s)` on the literal forms the program meets: optional sign
followed by decimal digits (digit-group underscores are outside the
model). -/
def pyIntParse (l : Line) : Option Int :=
  let t := pyStrip l
  let p : Int × Line :=
    match t with
    | '+' :: r => (1, r)
    | '-' :: r => (-1, r)
    | r => (1, r)
  if p.2 ≠ [] ∧ p.2.all Char.isDigit then some (p.1 * (digitsVal p.2 : Int)) else none

/-- Unsigned decimal mantissa with optional fraction and exponent:
returns the rational value, or `none` when the shape is wrong. -/
def pyFloatBody (l : Line) : Option ℚ :=
  let ipart := l.takeWhile Char.isDigit
  let r1 := l.dropWhile Char.isDigit
  let fp : Option (Line × Line) :=
    match r1 with
    | '.' :: r2 => some (r2.takeWhile Char.isDigit, r2.dropWhile Char.isDigit)
    | _ => some ([], r1)
  match fp with
  | none => none
  | some (fpart, r3) =>
    if ipart = [] ∧ fpart = [] then none
    else
      let base : ℚ :=
        (digitsVal ipart : ℚ) + (digitsVal fpart : ℚ) / ((10 : ℚ) ^ fpart.length)
      match r3 with
      | [] => some base
      | e :: r4 =>
        if e = 'e' ∨ e = 'E' then
          let q : Int × Line :=
            match r4 with
            | '+' :: r5 => (1, r5)
            | '-' :: r5 => (-1, r5)
            | r5 => (1, r5)
          if q.2 ≠ [] ∧ q.2.all Char.isDigit then
            some (base * (10 : ℚ) ^ (q.1 * (digitsVal q.2 : Int)))
          else none
        else none

/-- Python `float(s)` on finite decimal literals (`inf`/`nan` spellings and
digit-group underscores are outside the model). -/
def pyFloatParse (l : Line) : Option ℚ :=
  let t := pyStrip l
  match t with
  | '+' :: r => (pyFloatBody r)
  | '-' :: r => (pyFloatBody r).map (fun q => -q)
  | r => pyFloatBody r

/-- Python `repr` of a string, modelled for quote-and-backslash-free text
(the only place it is used is inside error messages). -/
def pyRepr (l : Line) : Line := '\'' :: l ++ ['\'']

/-- Hex value of one hexadecimal digit character. -/
def hexVal (c : Char) : Option Nat :=
  if c.isDigit then some (c.toNat - 48)
  else if 'a' ≤ c ∧ c ≤ 'f' then some (c.toNat - 87)
  else if 'A' ≤ c ∧ c ≤ 'F' then some (c.toNat - 55)
  else none

/-- Lowercase hex digit character of a value below 16. -/
def hexDigit (n : Nat) : Char :=
  if n < 10 then Char.ofNat (48 + n) else Char.ofNat (87 + n)

/-- Whitespace as the JSON grammar knows it. -/
def jsonWs (c : Char) : Bool :=
  c = ' ' || c = '\t' || c = '\n' || c = '\r'

/-- Scan the body of a JSON string (after the opening quote): decode
escapes, reject raw control characters, stop at the closing quote.
Returns the decoded content and the input remaining after the closing
quote. -/
def jsonStrScan (acc : Line) : Line → Option (Line × Line)
  | [] => none
  | c :: cs =>
    if c = dquote then some (acc.reverse, cs)
    else if c = '\\' then
      match cs with
      | [] => none
      | d :: ds =>
        if d = dquote then jsonStrScan (dquote :: acc) ds
        else if d = '\\' then jsonStrScan ('\\' :: acc) ds
        else if d = '/' then jsonStrScan ('/' :: acc) ds
        else if d = 'b' then jsonStrScan (Char.ofNat 8 :: acc) ds
        else if d = 'f' then jsonStrScan (Char.ofNat 12 :: acc) ds
        else if d = 'n' then jsonStrScan ('\n' :: acc) ds
        else if d = 'r' then jsonStrScan ('\r' :: acc) ds
        else if d = 't' then jsonStrScan ('\t' :: acc) ds
        else if d = 'u' then
          match ds with
          | h1 :: h2 :: h3 :: h4 :: ds2 =>
            match hexVal h1, hexVal h2, hexVal h3, hexVal h4 with
            | some a, some b, some x, some y =>
              jsonStrScan (Char.ofNat (((a * 16 + b) * 16 + x) * 16 + y) :: acc) ds2
            | _, _, _, _ => none
          | _ => none
        else none
    else if c.toNat < 32 then none
    else jsonStrScan (c :: acc) cs

/-- Python `json.loads` applied to input expected to be one JSON string:
the whole input must be that string (up to trailing JSON whitespace), else
the parse fails.  Surrogate-pair recombination is outside the model. -/
def jsonLoadsStr (l : Line) : Option Line :=
  match l with
  | [] => none
  | c :: cs =>
    if c = dquote then
      match jsonStrScan [] cs with
      | some (s, rest) => if (rest.dropWhile jsonWs).isEmpty then some s else none
      | none => none
    else none

/-- Python `s.strip(Char)` for the quote character: drop every leading and
trailing `"`. -/
def stripQuotes (l : Line) : Line :=
  ((l.dropWhile (· = dquote)).reverse.dropWhile (· = dquote)).reverse

/-- One JSON escape of `json.dumps` with `ensure_ascii=True` (characters
beyond the Basic Multilingual Plane, which need surrogate pairs, are
outside the model). -/
def jsonEsc (c : Char) : Line :=
  if c = dquote then ['\\', dquote]
  else if c = '\\' then ['\\', '\\']
  else if c = '\n' then ['\\', 'n']
  else if c = '\r' then ['\\', 'r']
  else if c = '\t' then ['\\', 't']
  else if c = Char.ofNat 8 then ['\\', 'b']
  else if c = Char.ofNat 12 then ['\\', 'f']
  else if c.toNat < 32 ∨ 127 ≤ c.toNat then
    ['\\', 'u', hexDigit (c.toNat / 4096 % 16), hexDigit (c.toNat / 256 % 16),
      hexDigit (c.toNat / 16 % 16), hexDigit (c.toNat % 16)]
  else [c]

/-- Python `json.dumps(s)` for a string `s`. -/
def jsonDumpsStr (s : Line) : Line :=
  dquote :: s.flatMap jsonEsc ++ [dquote]

/-! ## `concordat_vale/tengo_map.py` -/

/-- The value union handled by `tengo_map.py`: Python
`bool | int | float | str`. -/
inductive TValue where
  | bool (b : Bool)
  | int (n : Int)
  | float (q : ℚ)
  | str (s : Line)
deriving DecidableEq, Repr

/-- Python `isinstance(x, (int, float))`.  `True`/`False` satisfy it too:
`bool` is a subclass of `int` in Python. -/
def pyIsNumeric : TValue → Bool
  | .bool _ => true
  | .int _ => true
  | .float _ => true
  | .str _ => false

/-- Python `float(x)` on a numeric value (`float(True) == 1.0`,
`float(False) == 0.0`); the `str` case is never reached. -/
def pyNumVal : TValue → ℚ
  | .bool b => if b then 1 else 0
  | .int n => (n : ℚ)
  | .float q => q
  | .str _ => 0

/-- Python `==` on the value union: numeric values compare by value
(including booleans), strings compare by content, and a string never
equals a numeric value. -/
def pyValueEq (a b : TValue) : Bool :=
  if pyIsNumeric a && pyIsNumeric b then decide (pyNumVal a = pyNumVal b)
  else
    match a, b with
    | .str s, .str t => decide (s = t)
    | _, _ => false

/-- `tengo_map._values_equal`. -/
def values_equal (existing new_value : TValue) : Bool :=
  if pyIsNumeric existing && pyIsNumeric new_value then
    decide (pyNumVal existing = pyNumVal new_value)
  else pyValueEq existing new_value

/-- The two Python exception classes `update_tengo_map` can raise:
`FileNotFoundError` and `TengoMapError`, each carrying its message. -/
inductive TengoError where
  | fileNotFound (msg : Line)
  | mapError (msg : Line)
deriving DecidableEq, Repr

/-- `tengo_map.MapValueType`. -/
inductive MapValueType where
  | TRUE
  | STRING
  | BOOLEAN
  | NUMBER
deriving DecidableEq, Repr

/-- `tengo_map.MapUpdateResult`. -/
structure MapUpdateResult where
  updated : Nat
  wrote_file : Bool
deriving DecidableEq, Repr

/-- `tengo_map._Entry`. -/
structure TEntry where
  index : Nat
  indent : Line
  comment : Line
  raw_value : Line
  value : TValue
deriving DecidableEq, Repr

/-- `tengo_map._parse_existing_value`. -/
def parse_existing_value (raw : Line) : TValue :=
  let stripped := pyStrip raw
  let lowered := stripped.map Char.toLower
  if lowered = "true".data then .bool true
  else if lowered = "false".data then .bool false
  else if 2 ≤ stripped.length ∧ stripped.head? = some dquote ∧
      stripped.getLast? = some dquote then
    match jsonLoadsStr stripped with
    | some s => .str s
    | none => .str (stripQuotes stripped)
  else
    match pyIntParse stripped with
    | some n => .int n
    | none =>
      match pyFloatParse stripped with
      | some q => .float q
      | none => .str stripped

/-- Smallest number of decimal fraction digits that writes `q` exactly,
when at most 60 suffice. -/
def decExp (q : ℚ) : Option Nat :=
  (List.range 61).find? (fun k => (q * (10 : ℚ) ^ k).den = 1)

/-- Python `str(x)` on a float, modelled for values with an exact short
decimal form (every float this program renders); scientific notation and
shortest-round-trip digit selection for other values are outside the
model. -/
def pyFloatRepr (q : ℚ) : Line :=
  let sign : Line := if q < 0 then ['-'] else []
  let a : ℚ := |q|
  match decExp a with
  | some 0 => sign ++ (toString a.num).data ++ ".0".data
  | some (k + 1) =>
    let digits := (toString (a * (10 : ℚ) ^ (k + 1)).num).data
    let padded :=
      if digits.length ≤ k + 1 then
        List.replicate (k + 2 - digits.length) '0' ++ digits
      else digits
    sign ++ padded.take (padded.length - (k + 1)) ++
      '.' :: padded.drop (padded.length - (k + 1))
  | none => sign ++ (toString a.num).data ++ "/".data ++ (toString a.den).data

/-- `tengo_map._render_value`. -/
def render_value : TValue → Line
  | .bool b => if b then "true".data else "false".data
  | .int n => (toString n).data
  | .float q => pyFloatRepr q
  | .str s => jsonDumpsStr s

/-- `tengo_map._render_entry`:
`f(indent)"(key)": (rendered),(comment)`. -/
def render_entry (key : Line) (value : TValue) (indent : Line) (comment : Line) : Line :=
  indent ++ dquote :: key ++ dquote :: ':' :: ' ' :: render_value value ++ ',' :: comment

/-- Scan the key group of `ENTRY_PATTERN`, the regex
`(?:[^"\x5c]|\x5c.)+` followed by the closing quote: a raw (undecoded)
run of non-quote characters and backslash escapes, at least one item
long, ended by an unescaped quote.  Returns the raw key text and the
input after the closing quote. -/
def scanKey (acc : Line) : Line → Option (Line × Line)
  | [] => none
  | c :: cs =>
    if c = dquote then if acc.isEmpty then none else some (acc.reverse, cs)
    else if c = '\\' then
      match cs with
      | [] => none
      | d :: ds => scanKey (d :: '\\' :: acc) ds
    else scanKey (c :: acc) cs

/-- Does a line suffix match the `ENTRY_PATTERN` tail
`(?P<comment>\s*//.*)?\s*$`: all whitespace, or whitespace then `//`. -/
def commentSuffixOk (s : Line) : Bool :=
  let t := s.dropWhile isPySpace
  t.isEmpty || "//".data.isPrefixOf t

/-- Split `rest` at the last comma whose suffix matches the pattern tail
(the greedy `(?P<value>.*),` of `ENTRY_PATTERN`): returns the value text
before that comma and the suffix after it. -/
def splitLastCommaAux (suffix : Line) : Line → Option (Line × Line)
  | [] => none
  | c :: rev =>
    if c = ',' ∧ commentSuffixOk suffix then some (rev.reverse, suffix)
    else splitLastCommaAux (c :: suffix) rev

/-- Value/comment split of the text following the colon of an entry. -/
def splitLastComma (r : Line) : Option (Line × Line) :=
  splitLastCommaAux [] r.reverse

/-- `tengo_map.ENTRY_PATTERN` as a deterministic matcher: on success
returns the `indent`, raw `key`, raw `value` and `comment` groups
(`comment` is `""` when the group did not participate, matching
`match.group("comment") or ""`). -/
def matchEntry (l : Line) : Option (Line × Line × Line × Line) :=
  let indent := l.takeWhile isPySpace
  match l.dropWhile isPySpace with
  | [] => none
  | c :: cs =>
    if c = dquote then
      match scanKey [] cs with
      | none => none
      | some (key, r2) =>
        match r2.dropWhile isPySpace with
        | ':' :: r4 =>
          match splitLastComma (r4.dropWhile isPySpace) with
          | some (v, suf) =>
            some (indent, key, v,
              if "//".data.isPrefixOf (suf.dropWhile isPySpace) then suf else [])
          | none => none
        | _ => none
    else none

/-- Trailing part of the map-header regex after the map name:
`\s*:=\s*\x7b\s*$`. -/
def headerAfterName (r : Line) : Bool :=
  match r.dropWhile isPySpace with
  | ':' :: '=' :: r2 =>
    match r2.dropWhile isPySpace with
    | c :: r4 => c = lbrace ∧ (r4.dropWhile isPySpace).isEmpty
    | [] => false
  | _ => false

/-- Match one line against `_find_map_header`'s regex
`^(?P<indent>\s*)NAME\s*:=\s*\x7b\s*$`: on success returns the (greedy,
hence longest) indent group. -/
def matchMapHeader (map_name : Line) (l : Line) : Option Line :=
  let ws := l.takeWhile isPySpace
  (List.range (ws.length + 1)).reverse.findSome? (fun i =>
    let rest := l.drop i
    if map_name.isPrefixOf rest ∧ headerAfterName (rest.drop map_name.length) then
      some (l.take i)
    else none)

/-- `tengo_map._find_map_header`. -/
def find_map_header (lines : List Line) (map_name : Line) :
    Except TengoError (Nat × Line) :=
  match lines.enum.findSome? (fun p => (matchMapHeader map_name p.2).map (p.1, ·)) with
  | some r => .ok r
  | none =>
    .error (.mapError ("Could not find map ".data ++ pyRepr map_name ++
      " in Tengo script.".data))

/-- Depth-tracking loop of `_find_map_end` over the indexed lines after
the header. -/
def findEndLoop (depth : Int) : List (Nat × Line) → Option Nat
  | [] => none
  | (i, l) :: rest =>
    let d := depth + (l.count lbrace : Int) - (l.count rbrace : Int)
    if d = 0 then some i else findEndLoop d rest

/-- `tengo_map._find_map_end`. -/
def find_map_end (lines : List Line) (start_idx : Nat) : Except TengoError Nat :=
  match findEndLoop 1 (lines.enum.drop (start_idx + 1)) with
  | some i => .ok i
  | none => .error (.mapError "Failed to locate closing brace for map.".data)

/-- One step of `_collect_entries`'s loop: state is the entry dict so far
and the detected indent (set at the first matching line). -/
def collectStep (st : List (Line × TEntry) × Option Line) (p : Nat × Line) :
    List (Line × TEntry) × Option Line :=
  match matchEntry p.2 with
  | none => st
  | some (ind, key, rawv, com) =>
    (dictSet st.1 key
      ⟨p.1, ind, com, pyStrip rawv, parse_existing_value (pyStrip rawv)⟩,
      if st.2.isSome then st.2 else some ind)

/-- `tengo_map._collect_entries`. -/
def collect_entries (lines : List Line) (start stop : Nat) (map_indent : Line) :
    List (Line × TEntry) × Line :=
  let rows := (lines.enum.drop start).take (stop - start)
  let r := rows.foldl collectStep ([], none)
  (r.1, r.2.getD (map_indent ++ "  ".data))

/-- `tengo_map._EntryUpdateContext`. -/
structure EntryUpdateContext where
  lines : List Line
  existing : List (Line × TEntry)
  entry_indent : Line

/-- One step of `_apply_entries`'s loop: state is
`(updated, lines, current_closing_idx)`. -/
def applyStep (existing : List (Line × TEntry)) (entry_indent : Line)
    (st : Nat × List Line × Nat) (kv : Line × TValue) : Nat × List Line × Nat :=
  match dictLookup existing kv.1 with
  | some entry =>
    if values_equal entry.value kv.2 then st
    else
      (st.1 + 1,
        st.2.1.set entry.index (render_entry kv.1 kv.2 entry.indent entry.comment),
        st.2.2)
  | none =>
    (st.1 + 1, pyInsert st.2.1 st.2.2 (render_entry kv.1 kv.2 entry_indent []),
      st.2.2 + 1)

/-- `tengo_map._apply_entries`. -/
def apply_entries (ctx : EntryUpdateContext) (entries : List (Line × TValue))
    (closing_idx : Nat) : Nat × List Line :=
  let r := entries.foldl (applyStep ctx.existing ctx.entry_indent)
    (0, ctx.lines, closing_idx)
  (r.1, r.2.1)

/-- `tengo_map.update_tengo_map`, as a pure function from the target
file's state (`none` = missing) to the result and the file's final
content. -/
def update_tengo_map (tengo_path : Line) (file : Option Line) (map_name : Line)
    (entries : List (Line × TValue)) : Except TengoError (MapUpdateResult × Line) := do
  let text ← match file with
    | none => Except.error (.fileNotFound ("Missing Tengo script: ".data ++ tengo_path))
    | some t => Except.ok t
  if map_name.isEmpty then
    Except.error (.mapError "Map name must be provided.".data)
  else do
    let lines := pySplitlines text
    let hdr ← find_map_header lines map_name
    let end_idx ← find_map_end lines hdr.1
    let ce := collect_entries lines (hdr.1 + 1) end_idx hdr.2
    let ap := apply_entries ⟨lines, ce.1, ce.2⟩ entries end_idx
    let new_text := joinNL ap.2
    let wrote_file := decide (new_text ≠ text)
    Except.ok (⟨ap.1, wrote_file⟩, if wrote_file then new_text else text)

/-- `update_tengo_map` observed at the file-system level: on an error no
write has happened and the file keeps its previous state. -/
def update_tengo_map_fs (tengo_path : Line) (file : Option Line) (map_name : Line)
    (entries : List (Line × TValue)) :
    Except TengoError MapUpdateResult × Option Line :=
  match update_tengo_map tengo_path file map_name entries with
  | .ok (r, t) => (.ok r, some t)
  | .error e => (.error e, file)

/-- The `re.sub(r"\s+(#.*)?$", "", raw_line)` step of
`parse_source_entries`: truncate at the leftmost whitespace character
whose maximal whitespace run extends to a `#` or to the end of the
line. -/
def stripTrailingComment : Line → Line
  | [] => []
  | c :: cs =>
    if isPySpace c ∧
        ((c :: cs).dropWhile isPySpace = [] ∨
          ((c :: cs).dropWhile isPySpace).head? = some '#') then []
    else c :: stripTrailingComment cs

/-- `tengo_map._parse_string_value`. -/
def parse_string_value (value : Line) : Line :=
  let v := pyStrip value
  if 2 ≤ v.length ∧ v.head? = some dquote ∧ v.getLast? = some dquote then
    match jsonLoadsStr v with
    | some s => s
    | none => stripQuotes v
  else v

/-- `tengo_map._parse_boolean_value`. -/
def parse_boolean_value (value : Line) : Except TengoError Bool :=
  let lowered := (pyStrip value).map Char.toLower
  if lowered = "true".data then .ok true
  else if lowered = "false".data then .ok false
  else .error (.mapError ("Expected true or false, got ".data ++ pyRepr value))

/-- `tengo_map._parse_numeric_value`. -/
def parse_numeric_value (value : Line) : Except TengoError TValue :=
  let trimmed := pyStrip value
  match pyIntParse trimmed with
  | some n => .ok (.int n)
  | none =>
    match pyFloatParse trimmed with
    | some q => .ok (.float q)
    | none =>
      .error (.mapError ("Could not parse numeric value ".data ++ pyRepr trimmed))

/-- `tengo_map._parse_token`. -/
def parse_token (token : Line) (value_type : MapValueType) :
    Except TengoError (Line × TValue) :=
  match value_type with
  | .TRUE => .ok (token, .bool true)
  | vt =>
    if ¬ token.contains '=' then
      .error (.mapError "Source lines must include '=' when using typed modes.".data)
    else
      let p := splitFirst token '='
      let key := pyStrip p.1
      let value := pyStrip p.2
      if key.isEmpty then .error (.mapError "Map keys may not be empty.".data)
      else
        match vt with
        | .STRING => .ok (key, .str (parse_string_value value))
        | .BOOLEAN => (parse_boolean_value value).map (fun b => (key, .bool b))
        | .NUMBER => (parse_numeric_value value).map (fun n => (key, n))
        | .TRUE => .ok (token, .bool true)

/-- One iteration of `parse_source_entries`'s loop: skip blank lines and
lines whose first non-space character is `#`; otherwise strip the
trailing comment, count the line and parse the token into the dict. -/
def sourceStep (value_type : MapValueType) (st : Nat × List (Line × TValue))
    (raw_line : Line) : Except TengoError (Nat × List (Line × TValue)) :=
  if (pyStrip raw_line).isEmpty then .ok st
  else if (raw_line.dropWhile isPySpace).head? = some '#' then .ok st
  else
    let token := pyStrip (stripTrailingComment raw_line)
    if token.isEmpty then .ok st
    else do
      let kv ← parse_token token value_type
      pure (st.1 + 1, dictSet st.2 kv.1 kv.2)

/-- `tengo_map.parse_source_entries`, as a pure function of the source
file's state (`none` = missing). -/
def parse_source_entries (source_path : Line) (file : Option Line)
    (value_type : MapValueType) : Except TengoError (Nat × List (Line × TValue)) := do
  let text ← match file with
    | none => Except.error (.fileNotFound ("Missing input file: ".data ++ source_path))
    | some t => Except.ok t
  (pySplitlines text).foldlM (sourceStep value_type) (0, [])

deriving instance DecidableEq for Except

/-! ## Helper lemmas about text normalisation -/

theorem translateCRLF_of_no_cr (l : Line) (h : '\r' ∉ l) : translateCRLF l = l := by
  induction l with
  | nil => rfl
  | cons c cs ih =>
    cases cs with
    | nil => rfl
    | cons d ds =>
      have hc : c ≠ '\r' := fun hc => h (hc ▸ List.mem_cons_self c _)
      have hd : '\r' ∉ d :: ds := fun hm => h (List.mem_cons_of_mem c hm)
      rw [translateCRLF]
      rw [if_neg (fun hcd => hc hcd.1)]
      rw [ih hd]

theorem splitNLAux_ne_nil (acc : Line) (l : Line) (h : l ≠ []) :
    splitNLAux acc l ≠ [] := by
  induction l generalizing acc with
  | nil => exact absurd rfl h
  | cons c cs ih =>
    rw [splitNLAux]
    split
    · exact List.cons_ne_nil _ _
    · cases cs with
      | nil => simp [splitNLAux]
      | cons d ds => exact ih _ (List.cons_ne_nil _ _)

theorem joinNL_cons_of_ne_nil (x : Line) (ls : List Line) (h : ls ≠ []) :
    joinNL (x :: ls) = x ++ '\n' :: joinNL ls := by
  cases ls with
  | nil => exact absurd rfl h
  | cons y t =>
    simp [joinNL, List.intercalate, List.intersperse_cons_cons]

theorem joinNL_splitNLAux (l : Line) (acc : Line) (hcr : '\r' ∉ l)
    (hlast : l.getLast? = some '\n') :
    joinNL (splitNLAux acc l) = acc.reverse ++ l := by
  induction l generalizing acc with
  | nil => simp at hlast
  | cons c cs ih =>
    have hcr1 : c ≠ '\r' := fun h1 => hcr (h1 ▸ List.mem_cons_self _ _)
    have hcr2 : '\r' ∉ cs := fun hm => hcr (List.mem_cons_of_mem _ hm)
    by_cases hc : c = '\n'
    · subst hc
      have hsplit : splitNLAux acc ('\n' :: cs) = acc.reverse :: splitNLAux [] cs := by
        rw [splitNLAux]
        simp
      rw [hsplit]
      cases cs with
      | nil =>
        simp [splitNLAux, joinNL, List.intercalate, List.intersperse]
      | cons d ds =>
        have hne : splitNLAux ([] : Line) (d :: ds) ≠ [] :=
          splitNLAux_ne_nil _ _ (List.cons_ne_nil _ _)
        rw [joinNL_cons_of_ne_nil _ _ hne]
        have hlast2 : (d :: ds).getLast? = some '\n' := by
          rwa [List.getLast?_cons_cons] at hlast
        rw [ih [] hcr2 hlast2]
        simp
    · have hsplit : splitNLAux acc (c :: cs) = splitNLAux (c :: acc) cs := by
        rw [splitNLAux]
        rw [if_neg]
        simp [hc, hcr1]
      rw [hsplit]
      cases cs with
      | nil =>
        simp [List.getLast?] at hlast
        exact absurd hlast hc
      | cons d ds =>
        have hlast2 : (d :: ds).getLast? = some '\n' := by
          rwa [List.getLast?_cons_cons] at hlast
        rw [ih (c :: acc) hcr2 hlast2]
        simp

theorem joinNL_pySplitlines (text : Line) (hcr : '\r' ∉ text)
    (hlast : text.getLast? = some '\n') :
    joinNL (pySplitlines text) = text := by
  rw [pySplitlines, translateCRLF_of_no_cr _ hcr]
  have := joinNL_splitNLAux text [] hcr hlast
  simpa using this

theorem joinNL_getLast (ls : List Line) : (joinNL ls).getLast? = some '\n' := by
  rw [joinNL]
  rw [List.getLast?_append]
  simp

/-! ## Claims C3 and C8 -/

/-- Claim C3, counterexample: the semantic-equality relation does equate
the boolean `true` with the integer `1` (in Python `bool` is a subclass
of `int`, so both sides take the numeric branch), and merging
`X: true` into a block where `X` holds the literal `1` is NOT counted
as a change: the update reports 0 updates and leaves the file alone. -/
theorem c3_bool_int_counterexample :
    values_equal (TValue.int 1) (TValue.bool true) = true ∧
    update_tengo_map_fs "script.tengo".data
        (some "allow := \x7b\n  \"X\": 1,\n\x7d\n".data) "allow".data
        [("X".data, TValue.bool true)] =
      (.ok ⟨0, false⟩, some "allow := \x7b\n  \"X\": 1,\n\x7d\n".data) :=
  ⟨by decide, by decide⟩

/-- Claim C3, amended: `_values_equal` equates an integer and a float
exactly when their numeric values are equal, and equates strings by
content only with other strings; but booleans are numeric in Python
(`bool` subclasses `int`), so a boolean `b` is semantically equal to a
numeric value exactly when that value equals 1 (for `true`) or 0 (for
`false`) — merging `X: true` into a block where `X` holds the literal
`1` is therefore not a change. -/
theorem c3_values_equal_amended :
    (∀ m n : Int, values_equal (.int m) (.int n) = decide (m = n)) ∧
    (∀ m : Int, ∀ q : ℚ, values_equal (.int m) (.float q) = decide ((m : ℚ) = q)) ∧
    (∀ q : ℚ, ∀ m : Int, values_equal (.float q) (.int m) = decide (q = (m : ℚ))) ∧
    (∀ q r : ℚ, values_equal (.float q) (.float r) = decide (q = r)) ∧
    (∀ s t : Line, values_equal (.str s) (.str t) = decide (s = t)) ∧
    (∀ b₁ b₂ : Bool, values_equal (.bool b₁) (.bool b₂) = decide (b₁ = b₂)) ∧
    (∀ b : Bool, ∀ n : Int,
      values_equal (.bool b) (.int n) = decide (((if b then 1 else 0) : Int) = n) ∧
      values_equal (.int n) (.bool b) = decide (n = ((if b then 1 else 0) : Int))) ∧
    (∀ b : Bool, ∀ q : ℚ,
      values_equal (.bool b) (.float q) = decide (((if b then 1 else 0) : ℚ) = q) ∧
      values_equal (.float q) (.bool b) = decide (q = ((if b then 1 else 0) : ℚ))) ∧
    (∀ s : Line, ∀ n : Int,
      values_equal (.str s) (.int n) = false ∧ values_equal (.int n) (.str s) = false) ∧
    (∀ s : Line, ∀ q : ℚ,
      values_equal (.str s) (.float q) = false ∧
      values_equal (.float q) (.str s) = false) ∧
    (∀ s : Line, ∀ b : Bool,
      values_equal (.str s) (.bool b) = false ∧
      values_equal (.bool b) (.str s) = false) := by
  refine ⟨?_, ?_, ?_, ?_, ?_, ?_, ?_, ?_, ?_, ?_, ?_⟩
  · intro m n
    simp [values_equal, pyIsNumeric, pyNumVal, decide_eq_decide, Int.cast_inj]
  · intro m q
    simp [values_equal, pyIsNumeric, pyNumVal]
  · intro q m
    simp [values_equal, pyIsNumeric, pyNumVal]
  · intro q r
    simp [values_equal, pyIsNumeric, pyNumVal]
  · intro s t
    simp [values_equal, pyIsNumeric, pyValueEq]
  · intro b₁ b₂
    cases b₁ <;> cases b₂ <;> simp [values_equal, pyIsNumeric, pyNumVal]
  · intro b n
    cases b <;>
      simp [values_equal, pyIsNumeric, pyNumVal, decide_eq_decide, Int.cast_inj,
        eq_comm]
  · intro b q
    cases b <;> simp [values_equal, pyIsNumeric, pyNumVal]
  · intro s n
    simp [values_equal, pyIsNumeric, pyValueEq]
  · intro s q
    simp [values_equal, pyIsNumeric, pyValueEq]
  · intro s b
    simp [values_equal, pyIsNumeric, pyValueEq]

/-- Claim C8: the end-to-end scenario.  A list file with lines `ALPHA`,
`BETA   # trailing`, `ALPHA` in boolean-default mode yields a
provided-count of 3 and the two-entry mapping `ALPHA := true, BETA :=
true` (the later duplicate overwrote the earlier one, so the count
exceeds the mapping size); merging that mapping into the empty block
`allow := \x7b / \x7d` writes exactly the two entry lines with an
update count of 2. -/
theorem c8_end_to_end :
    parse_source_entries "acronyms.txt".data
        (some "ALPHA\nBETA   # trailing\nALPHA".data) .TRUE =
      .ok (3, [("ALPHA".data, TValue.bool true), ("BETA".data, TValue.bool true)]) ∧
    update_tengo_map_fs "script.tengo".data (some "allow := \x7b\n\x7d\n".data)
        "allow".data
        [("ALPHA".data, TValue.bool true), ("BETA".data, TValue.bool true)] =
      (.ok ⟨2, true⟩,
        some "allow := \x7b\n  \"ALPHA\": true,\n  \"BETA\": true,\n\x7d\n".data) :=
  ⟨by decide, by decide⟩

/-! ## Inversion of a successful `update_tengo_map` run -/

theorem update_some_ok_inv (path text name : Line) (entries : List (Line × TValue))
    (r : MapUpdateResult) (t' : Line)
    (h : update_tengo_map path (some text) name entries = .ok (r, t')) :
    ∃ s ind e,
      find_map_header (pySplitlines text) name = .ok (s, ind) ∧
      find_map_end (pySplitlines text) s = .ok e ∧
      r = ⟨(apply_entries ⟨pySplitlines text,
              (collect_entries (pySplitlines text) (s + 1) e ind).1,
              (collect_entries (pySplitlines text) (s + 1) e ind).2⟩ entries e).1,
            decide (joinNL (apply_entries ⟨pySplitlines text,
              (collect_entries (pySplitlines text) (s + 1) e ind).1,
              (collect_entries (pySplitlines text) (s + 1) e ind).2⟩ entries e).2 ≠ text)⟩ ∧
      t' = (if decide (joinNL (apply_entries ⟨pySplitlines text,
              (collect_entries (pySplitlines text) (s + 1) e ind).1,
              (collect_entries (pySplitlines text) (s + 1) e ind).2⟩ entries e).2 ≠ text) = true
            then joinNL (apply_entries ⟨pySplitlines text,
              (collect_entries (pySplitlines text) (s + 1) e ind).1,
              (collect_entries (pySplitlines text) (s + 1) e ind).2⟩ entries e).2
            else text) := by
  rw [update_tengo_map] at h
  simp only [bind, Except.bind] at h
  by_cases hne : name.isEmpty
  · rw [if_pos hne] at h
    cases h
  · rw [if_neg hne] at h
    cases h1 : find_map_header (pySplitlines text) name with
    | error e1 =>
      rw [h1] at h
      cases h
    | ok p =>
      rw [h1] at h
      dsimp only at h
      cases h2 : find_map_end (pySplitlines text) p.1 with
      | error e2 =>
        rw [h2] at h
        cases h
      | ok e =>
        rw [h2] at h
        dsimp only at h
        refine ⟨p.1, p.2, e, ?_, h2, ?_, ?_⟩
        · rfl
        · cases h
          rfl
        · cases h
          rfl

/-! ## Claim C9 -/

/-- Claim C9, amended: a successful `update_tengo_map` returns the file
unchanged when `wrote_file` is false; when it writes, the written text
ends with a newline; and for an input file that does not end with a
trailing newline at all it always writes, whatever `updated` is —
`wrote_file = true` does not imply `updated > 0`. -/
theorem c9_write_vs_trailing_newline (path text name : Line)
    (entries : List (Line × TValue)) (r : MapUpdateResult) (t' : Line)
    (h : update_tengo_map path (some text) name entries = .ok (r, t')) :
    (r.wrote_file = false → t' = text) ∧
    (r.wrote_file = true → t'.getLast? = some '\n') ∧
    (text.getLast? ≠ some '\n' → r.wrote_file = true) := by
  obtain ⟨s, ind, e, h1, h2, hr, ht⟩ := update_some_ok_inv path text name entries r t' h
  subst hr
  subst ht
  refine ⟨?_, ?_, ?_⟩
  · intro hw
    simp only [decide_eq_false_iff_not, not_not] at hw
    simp [hw]
  · intro hw
    simp only [decide_eq_true_eq] at hw
    rw [if_pos (by simpa using hw)]
    exact joinNL_getLast _
  · intro hl
    have hne : joinNL (apply_entries ⟨pySplitlines text,
        (collect_entries (pySplitlines text) (s + 1) e ind).1,
        (collect_entries (pySplitlines text) (s + 1) e ind).2⟩ entries e).2 ≠ text := by
      intro heq
      exact hl (heq ▸ joinNL_getLast _)
    simp [hne]

/-- Claim C9, counterexample to the claim as stated: a file that ends in
TWO trailing newlines (so not "exactly one trailing newline") is not
rewritten when nothing changes — `wrote_file` is false. -/
theorem c9_two_newlines_counterexample :
    update_tengo_map_fs "p".data (some "allow := \x7b\n\x7d\n\n".data) "allow".data [] =
      (.ok ⟨0, false⟩, some "allow := \x7b\n\x7d\n\n".data) ∧
    "allow := \x7b\n\x7d\n\n".data.getLast? = some '\n' ∧
    "allow := \x7b\n\x7d\n\n".data.dropLast.getLast? = some '\n' :=
  ⟨by decide, by decide, by decide⟩

/-! ## Claim C2 -/

theorem apply_fold_no_change (existing : List (Line × TEntry)) (entry_indent : Line)
    (entries : List (Line × TValue)) (st : Nat × List Line × Nat)
    (hall : ∀ kv ∈ entries, ∃ ent, dictLookup existing kv.1 = some ent ∧
      values_equal ent.value kv.2 = true) :
    entries.foldl (applyStep existing entry_indent) st = st := by
  induction entries generalizing st with
  | nil => rfl
  | cons kv t ih =>
    obtain ⟨ent, hl, hv⟩ := hall kv (List.mem_cons_self _ _)
    have hstep : applyStep existing entry_indent st kv = st := by
      rw [applyStep, hl]
      simp [hv]
    rw [List.foldl_cons, hstep]
    exact ih _ (fun kv2 hm => hall kv2 (List.mem_cons_of_mem _ hm))

/-- Claim C2, amended: when the named block already contains every entry
to be merged with a semantically equal value (for instance `X` holding
the literal `10` while merging `X := 10.0`, equal numerically), the
update reports 0 updates unconditionally; and provided the file content
is newline-normalised (no carriage return and a trailing newline), no
write happens and the file is byte-identical afterwards.  (Without that
proviso the no-change run still rewrites the file into normalised
form.) -/
theorem c2_no_op_no_write (path text name : Line) (entries : List (Line × TValue))
    (s : Nat) (ind : Line) (e : Nat)
    (hname : name ≠ [])
    (hhdr : find_map_header (pySplitlines text) name = .ok (s, ind))
    (hend : find_map_end (pySplitlines text) s = .ok e)
    (hall : ∀ kv ∈ entries, ∃ ent,
      dictLookup (collect_entries (pySplitlines text) (s + 1) e ind).1 kv.1 = some ent ∧
      values_equal ent.value kv.2 = true) :
    update_tengo_map path (some text) name entries =
      .ok (⟨0, decide (joinNL (pySplitlines text) ≠ text)⟩,
        if decide (joinNL (pySplitlines text) ≠ text) = true
        then joinNL (pySplitlines text) else text) ∧
    ('\r' ∉ text → text.getLast? = some '\n' →
      update_tengo_map_fs path (some text) name entries = (.ok ⟨0, false⟩, some text)) := by
  have hap : apply_entries ⟨pySplitlines text,
      (collect_entries (pySplitlines text) (s + 1) e ind).1,
      (collect_entries (pySplitlines text) (s + 1) e ind).2⟩ entries e =
      (0, pySplitlines text) := by
    rw [apply_entries]
    rw [apply_fold_no_change _ _ _ _ hall]
  have hrun : update_tengo_map path (some text) name entries =
      .ok (⟨0, decide (joinNL (pySplitlines text) ≠ text)⟩,
        if decide (joinNL (pySplitlines text) ≠ text) = true
        then joinNL (pySplitlines text) else text) := by
    rw [update_tengo_map]
    simp only [bind, Except.bind]
    rw [if_neg (by simp [hname])]
    rw [hhdr]
    dsimp only
    rw [hend]
    dsimp only
    rw [hap]
  refine ⟨hrun, fun hcr hnl => ?_⟩
  have hj : joinNL (pySplitlines text) = text := joinNL_pySplitlines text hcr hnl
  rw [update_tengo_map_fs, hrun]
  simp [hj]

/-- Claim C2, counterexample to the claim as stated: the same no-change
merge (`X := 10.0` over literal `10`, numerically equal, 0 updates) on a
file missing its trailing newline DOES write to disk — the file is
rewritten in normalised form. -/
theorem c2_missing_newline_counterexample :
    update_tengo_map_fs "p".data (some "allow := \x7b\n  \"X\": 10,\n\x7d".data)
        "allow".data [("X".data, TValue.float 10)] =
      (.ok ⟨0, true⟩, some "allow := \x7b\n  \"X\": 10,\n\x7d\n".data) := by
  decide

/-- Claim C2, witness: the amended theorem applied to a concrete
newline-normalised file whose block holds `X` as literal `10` while the
merge provides `X := 10.0`. -/
theorem c2_no_op_no_write_witness :
    update_tengo_map_fs "p".data (some "allow := \x7b\n  \"X\": 10,\n\x7d\n".data)
        "allow".data [("X".data, TValue.float 10)] =
      (.ok ⟨0, false⟩, some "allow := \x7b\n  \"X\": 10,\n\x7d\n".data) := by
  refine (c2_no_op_no_write "p".data "allow := \x7b\n  \"X\": 10,\n\x7d\n".data
      "allow".data [("X".data, TValue.float 10)] 0 [] 2
      (by decide) (by decide) (by decide) ?_).2 (by decide) (by decide)
  intro kv hm
  have hkv : kv = ("X".data, TValue.float 10) := by simpa using hm
  subst hkv
  exact ⟨⟨1, "  ".data, [], "10".data, TValue.int 10⟩, by decide, by decide⟩

/-- Claim C9, witness: a concrete run on a file with no trailing newline
returns `updated = 0` and `wrote_file = true`, through the amended
theorem. -/
theorem c9_write_vs_trailing_newline_witness :
    ("allow := \x7b\n\x7d".data.getLast? ≠ some '\n') ∧
    (MapUpdateResult.mk 0 true).wrote_file = true := by
  refine ⟨by decide, ?_⟩
  exact (c9_write_vs_trailing_newline "p".data "allow := \x7b\n\x7d".data "allow".data []
    ⟨0, true⟩ "allow := \x7b\n\x7d\n".data (by decide)).2.2 (by decide)

/-! ## Claim C6 -/

/-- Claim C6: the four failure modes of `update_tengo_map`, each leaving
the target file untouched.  A missing file raises `FileNotFoundError`
(the spec's NotFound); an empty block name raises `TengoMapError` with
the invalid-argument message; an absent block header raises
`TengoMapError` with the not-found message; unclosed brace nesting
raises `TengoMapError` with the malformed-input message.  In every case
the returned file state equals the input state: the checks complete
before any write. -/
theorem c6_error_modes (path name text : Line) (entries : List (Line × TValue)) :
    (update_tengo_map_fs path none name entries =
      (.error (.fileNotFound ("Missing Tengo script: ".data ++ path)), none)) ∧
    (update_tengo_map_fs path (some text) [] entries =
      (.error (.mapError "Map name must be provided.".data), some text)) ∧
    (name ≠ [] → (∀ l ∈ pySplitlines text, matchMapHeader name l = none) →
      update_tengo_map_fs path (some text) name entries =
        (.error (.mapError ("Could not find map ".data ++ pyRepr name ++
          " in Tengo script.".data)), some text)) ∧
    (∀ s ind err, name ≠ [] →
      find_map_header (pySplitlines text) name = .ok (s, ind) →
      find_map_end (pySplitlines text) s = .error err →
      update_tengo_map_fs path (some text) name entries = (.error err, some text)) := by
  refine ⟨rfl, rfl, ?_, ?_⟩
  · intro hname hnone
    have hh : find_map_header (pySplitlines text) name =
        .error (.mapError ("Could not find map ".data ++ pyRepr name ++
          " in Tengo script.".data)) := by
      rw [find_map_header]
      have : (pySplitlines text).enum.findSome?
          (fun p => (matchMapHeader name p.2).map (p.1, ·)) = none := by
        rw [List.findSome?_eq_none_iff]
        intro p hp
        rw [hnone p.2 (List.snd_mem_of_mem_enum hp)]
        rfl
      rw [this]
    rw [update_tengo_map_fs, update_tengo_map]
    simp only [bind, Except.bind]
    rw [if_neg (by simp [hname])]
    rw [hh]
  · intro s ind err hname hhdr hend
    rw [update_tengo_map_fs, update_tengo_map]
    simp only [bind, Except.bind]
    rw [if_neg (by simp [hname])]
    rw [hhdr]
    dsimp only
    rw [hend]

/-- Claim C6, witness: the four failure modes at concrete inputs, each
through the theorem. -/
theorem c6_error_modes_witness :
    (update_tengo_map_fs "p".data none "allow".data [] =
      (.error (.fileNotFound "Missing Tengo script: p".data), none)) ∧
    (update_tengo_map_fs "p".data (some "x\n".data) [] [] =
      (.error (.mapError "Map name must be provided.".data), some "x\n".data)) ∧
    (update_tengo_map_fs "p".data (some "x\n".data) "allow".data [] =
      (.error (.mapError "Could not find map 'allow' in Tengo script.".data),
        some "x\n".data)) ∧
    (update_tengo_map_fs "p".data (some "allow := \x7b\n no close\n".data)
        "allow".data [] =
      (.error (.mapError "Failed to locate closing brace for map.".data),
        some "allow := \x7b\n no close\n".data)) := by
  refine ⟨?_, ?_, ?_, ?_⟩
  · exact (c6_error_modes "p".data "allow".data [] []).1
  · exact (c6_error_modes "p".data [] "x\n".data []).2.1
  · exact (c6_error_modes "p".data "allow".data "x\n".data []).2.2.1
      (by decide) (by decide)
  · exact (c6_error_modes "p".data "allow".data "allow := \x7b\n no close\n".data
      []).2.2.2 0 [] (.mapError "Failed to locate closing brace for map.".data)
      (by decide) (by decide) (by decide)

/-! ## Claim C10 -/

theorem dictSet_all {β : Type} (P : Line × β → Bool) (d : List (Line × β))
    (k : Line) (v : β) (hd : d.all P = true) (hkv : P (k, v) = true) :
    (dictSet d k v).all P = true := by
  induction d with
  | nil => simp [dictSet, hkv]
  | cons kv rest ih =>
    rw [List.all_cons, Bool.and_eq_true] at hd
    rw [dictSet]
    split
    · simp [hkv, hd.2]
    · rw [List.all_cons, Bool.and_eq_true]
      exact ⟨hd.1, ih hd.2⟩

theorem sourceStep_true_total (st : Nat × List (Line × TValue)) (line : Line)
    (hst : st.2.all (fun kv => decide (kv.2 = TValue.bool true)) = true) :
    ∃ st2, sourceStep .TRUE st line = .ok st2 ∧
      st2.2.all (fun kv => decide (kv.2 = TValue.bool true)) = true := by
  rw [sourceStep]
  split
  · exact ⟨st, rfl, hst⟩
  · split
    · exact ⟨st, rfl, hst⟩
    · dsimp only
      split
      · exact ⟨st, rfl, hst⟩
      · refine ⟨(st.1 + 1, dictSet st.2 (pyStrip (stripTrailingComment line))
          (TValue.bool true)), rfl, ?_⟩
        exact dictSet_all _ _ _ _ hst (by simp)

theorem foldlM_sourceStep_true (lines : List Line) (st : Nat × List (Line × TValue))
    (hst : st.2.all (fun kv => decide (kv.2 = TValue.bool true)) = true) :
    ∃ st2, lines.foldlM (sourceStep .TRUE) st = .ok st2 ∧
      st2.2.all (fun kv => decide (kv.2 = TValue.bool true)) = true := by
  induction lines generalizing st with
  | nil => exact ⟨st, rfl, hst⟩
  | cons l ls ih =>
    obtain ⟨st1, h1, hall1⟩ := sourceStep_true_total st l hst
    obtain ⟨st2, h2, hall2⟩ := ih st1 hall1
    refine ⟨st2, ?_, hall2⟩
    rw [List.foldlM_cons, h1]
    exact h2

/-- Claim C10: in boolean-default mode `parse_source_entries` never
fails on any existing file: it returns a count and a mapping whose
values are all boolean `true`; the typed-mode requirement that a token
contain `=` does not apply — a token containing `=` or quote characters
becomes a key verbatim (second conjunct, concrete demonstration). -/
theorem c10_true_mode_total :
    (∀ path content : Line, ∃ n : Nat, ∃ d : List (Line × TValue),
      parse_source_entries path (some content) .TRUE = .ok (n, d) ∧
      d.all (fun kv => decide (kv.2 = TValue.bool true)) = true) ∧
    parse_source_entries "list.txt".data (some "a=b\n\"x\" y".data) .TRUE =
      .ok (2, [("a=b".data, .bool true), ("\"x\" y".data, .bool true)]) := by
  constructor
  · intro path content
    obtain ⟨st2, h2, hall2⟩ := foldlM_sourceStep_true (pySplitlines content) (0, [])
      (by simp)
    refine ⟨st2.1, st2.2, ?_, hall2⟩
    rw [parse_source_entries]
    simp only [bind, Except.bind]
    rw [h2]
  · decide

/-! ## Claim C4 -/

theorem collect_fold_some (rows : List (Nat × Line)) (d : List (Line × TEntry))
    (i : Line) : (rows.foldl collectStep (d, some i)).2 = some i := by
  induction rows generalizing d with
  | nil => rfl
  | cons p t ih =>
    rw [List.foldl_cons, collectStep]
    split
    · exact ih d
    · exact ih _

theorem collect_fold_indent (rows : List (Nat × Line)) (d : List (Line × TEntry)) :
    (rows.foldl collectStep (d, none)).2 =
      rows.findSome? (fun p => (matchEntry p.2).map (fun r => r.1)) := by
  induction rows generalizing d with
  | nil => rfl
  | cons p t ih =>
    rw [List.foldl_cons, List.findSome?]
    rw [collectStep]
    cases hm : matchEntry p.2 with
    | none =>
      simp only [hm, Option.map_none]
      exact ih _
    | some r =>
      simp only [hm, Option.map_some]
      exact collect_fold_some t _ r.1

theorem take_pyInsert {α : Type} (l : List α) (c : Nat) (a : α) :
    (pyInsert l c a).take (c + 1) = l.take c ++ [a] := by
  rw [pyInsert, List.take_append_eq_append_take]
  rw [List.take_take, min_eq_right (Nat.le_succ c), List.length_take]
  rcases Nat.le_total c l.length with hc | hc
  · rw [min_eq_left hc]
    have : c + 1 - c = 1 := by omega
    rw [this]
    rfl
  · rw [min_eq_right hc, List.drop_eq_nil_of_le hc]
    have h2 : 1 ≤ c + 1 - l.length := by omega
    cases hk : c + 1 - l.length with
    | zero => omega
    | succ k => simp

theorem drop_pyInsert {α : Type} (l : List α) (c : Nat) (a : α) :
    (pyInsert l c a).drop (c + 1) = l.drop c := by
  rw [pyInsert, List.drop_append_eq_append_drop]
  rw [List.drop_eq_nil_of_le (by rw [List.length_take]; omega), List.length_take]
  rcases Nat.le_total c l.length with hc | hc
  · rw [min_eq_left hc]
    have : c + 1 - c = 1 := by omega
    rw [this]
    rfl
  · rw [min_eq_right hc, List.drop_eq_nil_of_le hc]
    have h2 : 1 ≤ c + 1 - l.length := by omega
    cases hk : c + 1 - l.length with
    | zero => omega
    | succ k => simp

theorem apply_fold_fresh (existing : List (Line × TEntry)) (indent : Line)
    (entries : List (Line × TValue)) (u : Nat) (l : List Line) (c : Nat)
    (hall : ∀ kv ∈ entries, dictLookup existing kv.1 = none) :
    entries.foldl (applyStep existing indent) (u, l, c) =
      (u + entries.length,
        l.take c ++ entries.map (fun kv => render_entry kv.1 kv.2 indent []) ++ l.drop c,
        c + entries.length) := by
  induction entries generalizing u l c with
  | nil => simp
  | cons kv t ih =>
    have hl := hall kv (List.mem_cons_self _ _)
    rw [List.foldl_cons, applyStep, hl]
    dsimp only
    rw [ih (u + 1) (pyInsert l c (render_entry kv.1 kv.2 indent [])) (c + 1)
      (fun kv2 hm => hall kv2 (List.mem_cons_of_mem _ hm))]
    rw [take_pyInsert, drop_pyInsert]
    simp only [List.length_cons, List.map_cons]
    refine congrArg₂ _ (by omega) (congrArg₂ _ ?_ (by omega))
    simp

/-- Claim C4: the detected entry indentation is that of the block's
first line matching the entry pattern, or the block-header indentation
plus two spaces when no line matches; and merging keys absent from the
block inserts their rendered lines (at that indentation, without
comment) immediately before the closing line, in order, advancing the
insertion point — the result splices the new lines exactly at the
closing index and counts one update per new key. -/
theorem c4_insertion_and_indent (lines : List Line) (s e : Nat) (mi : Line)
    (entries : List (Line × TValue)) (c : Nat) :
    ((collect_entries lines s e mi).2 =
      (((lines.enum.drop s).take (e - s)).findSome?
        (fun p => (matchEntry p.2).map (fun r => r.1))).getD (mi ++ "  ".data)) ∧
    ((∀ kv ∈ entries, dictLookup (collect_entries lines s e mi).1 kv.1 = none) →
      apply_entries ⟨lines, (collect_entries lines s e mi).1,
          (collect_entries lines s e mi).2⟩ entries c =
        (entries.length,
          lines.take c ++
            entries.map (fun kv =>
              render_entry kv.1 kv.2 (collect_entries lines s e mi).2 []) ++
            lines.drop c)) := by
  constructor
  · rw [collect_entries]
    dsimp only
    rw [collect_fold_indent]
  · intro hall
    rw [apply_entries]
    dsimp only
    rw [apply_fold_fresh _ _ _ 0 lines c hall]
    simp

/-- Claim C4, witness: inserting two fresh keys into a concrete block
with one pre-existing four-space-indented entry places both right
before the closing line, at that same indentation. -/
theorem c4_insertion_and_indent_witness :
    ((collect_entries (pySplitlines
        "allow := \x7b\n    \"OLD\": true,\n\x7d\n".data) 1 2 []).2 = "    ".data) ∧
    (apply_entries ⟨pySplitlines "allow := \x7b\n    \"OLD\": true,\n\x7d\n".data,
        (collect_entries (pySplitlines
          "allow := \x7b\n    \"OLD\": true,\n\x7d\n".data) 1 2 []).1,
        (collect_entries (pySplitlines
          "allow := \x7b\n    \"OLD\": true,\n\x7d\n".data) 1 2 []).2⟩
        [("A".data, TValue.bool true), ("B".data, TValue.bool true)] 2 =
      (2, ["allow := \x7b".data, "    \"OLD\": true,".data,
        "    \"A\": true,".data, "    \"B\": true,".data, "\x7d".data])) := by
  constructor
  · have h := (c4_insertion_and_indent (pySplitlines
      "allow := \x7b\n    \"OLD\": true,\n\x7d\n".data) 1 2 [] [] 2).1
    rw [h]
    decide
  · have h := (c4_insertion_and_indent (pySplitlines
      "allow := \x7b\n    \"OLD\": true,\n\x7d\n".data) 1 2 []
      [("A".data, TValue.bool true), ("B".data, TValue.bool true)] 2).2
      (by decide)
    rw [h]
    decide

/-! ## `_ensure_phony` from `concordat_vale/stilyagi_install.py` -/

/-- Word-splitting loop of Python `str.split()` (no argument): split on
whitespace runs, dropping empty pieces; `cur` holds the current word
reversed. -/
def pySplitAux (cur : Line) : Line → List Line
  | [] => if cur.isEmpty then [] else [cur.reverse]
  | c :: cs =>
    if isPySpace c then
      if cur.isEmpty then pySplitAux [] cs
      else cur.reverse :: pySplitAux [] cs
    else pySplitAux (c :: cur) cs

/-- Python `str.split()` with no argument. -/
def pySplit (l : Line) : List Line := pySplitAux [] l

/-- `line.lstrip().startswith(".PHONY")`, the marker test of
`_ensure_phony`. -/
def isPhonyLine (l : Line) : Bool := ".PHONY".data.isPrefixOf (pyLstrip l)

/-- The scanning loop of `_ensure_phony`: `none` when no phony line
exists, otherwise the transformed list. -/
def ensurePhonyScan (target : Line) : List Line → Option (List Line)
  | [] => none
  | l :: ls =>
    if isPhonyLine l then
      some (if target ∈ pySplit l then l :: ls
            else (pyRstrip l ++ ' ' :: target) :: ls)
    else (ensurePhonyScan target ls).map (l :: ·)

/-- `stilyagi_install._ensure_phony`. -/
def ensure_phony (lines : List Line) (target : Line) : List Line :=
  match ensurePhonyScan target lines with
  | some r => r
  | none =>
    (".PHONY: ".data ++ target) :: (if lines.isEmpty then [] else [[]]) ++ lines

/-! Support lemmas for `ensure_phony`. -/

theorem pySplitAux_all_nonspace (w : Line) (acc : Line)
    (hw : w.all (fun c => !(isPySpace c)) = true) :
    pySplitAux acc w = if acc.reverse ++ w = [] then [] else [acc.reverse ++ w] := by
  induction w generalizing acc with
  | nil =>
    rw [pySplitAux]
    cases acc with
    | nil => simp
    | cons a t => simp
  | cons c cs ih =>
    rw [List.all_cons, Bool.and_eq_true] at hw
    rw [pySplitAux, if_neg (by simp at hw; simp [hw.1])]
    rw [ih (c :: acc) hw.2]
    have h1 : (c :: acc).reverse ++ cs = acc.reverse ++ c :: cs := by simp
    simp [h1]

theorem mem_pySplitAux_append_word (t : Line) (ht : t ≠ [])
    (htw : t.all (fun c => !(isPySpace c)) = true) (x : Line) (cur : Line) :
    t ∈ pySplitAux cur (x ++ ' ' :: t) := by
  induction x generalizing cur with
  | nil =>
    rw [List.nil_append, pySplitAux, if_pos (by decide)]
    have hsub : pySplitAux ([] : Line) t = [t] := by
      rw [pySplitAux_all_nonspace t [] htw]
      simp [ht]
    split
    · rw [hsub]
      exact List.mem_singleton.mpr rfl
    · rw [hsub]
      exact List.mem_cons_of_mem _ (List.mem_singleton.mpr rfl)
  | cons c x2 ih =>
    rw [List.cons_append, pySplitAux]
    split
    · split
      · exact ih []
      · exact List.mem_cons_of_mem _ (ih [])
    · exact ih (c :: cur)

theorem dropWhile_all_nil {p : Char → Bool} (l : Line) (h : ∀ a ∈ l, p a = true) :
    l.dropWhile p = [] := by
  induction l with
  | nil => rfl
  | cons c cs ih =>
    rw [List.dropWhile_cons, if_pos (h c (List.mem_cons_self _ _))]
    exact ih (fun a ha => h a (List.mem_cons_of_mem _ ha))

theorem pyRstrip_append (a b : Line) :
    pyRstrip (a ++ b) = if pyRstrip b = [] then pyRstrip a else a ++ pyRstrip b := by
  rw [pyRstrip, pyRstrip, pyRstrip, List.reverse_append, List.dropWhile_append]
  split
  · rename_i hemp
    rw [if_pos]
    rw [List.isEmpty_iff] at hemp
    rw [hemp]
    rfl
  · rename_i hemp
    rw [List.isEmpty_iff] at hemp
    rw [if_neg (by simp [hemp])]
    simp

theorem isPhonyLine_rstrip_append (l : Line) (x : Line) (h : isPhonyLine l = true) :
    isPhonyLine (pyRstrip l ++ x) = true := by
  rw [isPhonyLine] at h
  obtain ⟨r2, hr2⟩ := List.isPrefixOf_iff_prefix.mp h
  have hsplit : l = List.takeWhile isPySpace l ++ pyLstrip l :=
    (List.takeWhile_append_dropWhile isPySpace l).symm
  have hws : ∀ a ∈ List.takeWhile isPySpace l, isPySpace a = true := fun a ha =>
    List.mem_takeWhile_imp ha
  have hphy : pyRstrip (".PHONY".data ++ r2) = ".PHONY".data ++ pyRstrip r2 ∨
      pyRstrip (".PHONY".data ++ r2) = ".PHONY".data := by
    rw [pyRstrip_append]
    split
    · right
      decide
    · left
      rfl
  have hfin : ∃ tail, pyRstrip l ++ x =
      List.takeWhile isPySpace l ++ (".PHONY".data ++ tail) := by
    set A := List.takeWhile isPySpace l with hA
    have hl : l = A ++ (".PHONY".data ++ r2) := by
      conv_lhs => rw [hsplit]
      rw [hr2.symm]
    rw [hl, pyRstrip_append]
    rcases hphy with hp | hp
    · rw [if_neg (by rw [hp]; simp)]
      refine ⟨pyRstrip r2 ++ x, ?_⟩
      rw [hp]
      simp
    · rw [if_neg (by rw [hp]; simp)]
      refine ⟨x, ?_⟩
      rw [hp]
      simp
  obtain ⟨tail, htail⟩ := hfin
  rw [isPhonyLine, htail, pyLstrip, List.dropWhile_append]
  rw [if_pos (by rw [List.isEmpty_iff]; exact dropWhile_all_nil _ hws)]
  have hred : (".PHONY".data ++ tail) = '.' :: ("PHONY".data ++ tail) := rfl
  have hdw : List.dropWhile isPySpace (".PHONY".data ++ tail) =
      ".PHONY".data ++ tail := by
    rw [hred, List.dropWhile_cons]
    rw [if_neg (by decide)]
  rw [hdw]
  exact List.isPrefixOf_iff_prefix.mpr ⟨tail, rfl⟩

theorem ensurePhonyScan_none (t : Line) (lines : List Line)
    (h : ∀ l ∈ lines, isPhonyLine l = false) : ensurePhonyScan t lines = none := by
  induction lines with
  | nil => rfl
  | cons l ls ih =>
    rw [ensurePhonyScan, if_neg (by simp [h l (List.mem_cons_self _ _)])]
    rw [ih (fun l2 hm => h l2 (List.mem_cons_of_mem _ hm))]
    rfl

theorem ensurePhonyScan_append (t : Line) (pre rest : List Line)
    (h : ∀ l ∈ pre, isPhonyLine l = false) :
    ensurePhonyScan t (pre ++ rest) = (ensurePhonyScan t rest).map (pre ++ ·) := by
  induction pre with
  | nil =>
    cases h2 : ensurePhonyScan t rest <;> simp [h2]
  | cons l ls ih =>
    rw [List.cons_append, ensurePhonyScan,
      if_neg (by simp [h l (List.mem_cons_self _ _)])]
    rw [ih (fun l2 hm => h l2 (List.mem_cons_of_mem _ hm))]
    cases ensurePhonyScan t rest <;> simp

theorem ensurePhonyScan_stable (t : Line) (ht : t ≠ [])
    (htw : t.all (fun c => !(isPySpace c)) = true) :
    ∀ lines r, ensurePhonyScan t lines = some r → ensurePhonyScan t r = some r := by
  intro lines
  induction lines with
  | nil => intro r h; cases h
  | cons l ls ih =>
    intro r h
    rw [ensurePhonyScan] at h
    by_cases hp : isPhonyLine l = true
    · rw [if_pos hp] at h
      by_cases hm : t ∈ pySplit l
      · rw [if_pos hm] at h
        have hr : r = l :: ls := (Option.some.inj h).symm
        subst hr
        rw [ensurePhonyScan, if_pos hp, if_pos hm]
      · rw [if_neg hm] at h
        have hr : r = (pyRstrip l ++ ' ' :: t) :: ls := (Option.some.inj h).symm
        subst hr
        rw [ensurePhonyScan, if_pos (isPhonyLine_rstrip_append l _ hp)]
        rw [if_pos (show t ∈ pySplit (pyRstrip l ++ ' ' :: t) from
          mem_pySplitAux_append_word t ht htw _ [])]
    · rw [if_neg hp] at h
      cases hscan : ensurePhonyScan t ls with
      | none =>
        rw [hscan] at h
        cases h
      | some r2 =>
        rw [hscan] at h
        have h2 : some (l :: r2) = some r := h
        have hr : r = l :: r2 := (Option.some.inj h2).symm
        subst hr
        rw [ensurePhonyScan, if_neg hp, ih r2 hscan]
        rfl

/-- Claim C7, amended: `ensure_phony` with an existing phony line not
listing the target replaces just that line with `line.rstrip() + " " +
target` (no second marker line is added); with the target already
listed it returns the lines unchanged; with no phony line it prepends a
new declaration (plus blank separator when non-empty); and, provided
the target is a nonempty whitespace-free token, a second application
changes nothing.  (With whitespace inside the target, whitespace-split
membership can never see it, so each run appends it again.) -/
theorem c7_ensure_phony (lines : List Line) (target : Line) :
    (∀ pre l post, lines = pre ++ l :: post →
      (∀ l2 ∈ pre, isPhonyLine l2 = false) → isPhonyLine l = true →
      (target ∈ pySplit l → ensure_phony lines target = lines) ∧
      (target ∉ pySplit l →
        ensure_phony lines target = pre ++ (pyRstrip l ++ ' ' :: target) :: post)) ∧
    ((∀ l ∈ lines, isPhonyLine l = false) →
      ensure_phony lines target =
        (".PHONY: ".data ++ target) :: (if lines.isEmpty then [] else [[]]) ++ lines) ∧
    (target ≠ [] → target.all (fun c => !(isPySpace c)) = true →
      ensure_phony (ensure_phony lines target) target = ensure_phony lines target) := by
  refine ⟨?_, ?_, ?_⟩
  · intro pre l post hsplit hpre hl
    subst hsplit
    have hs := ensurePhonyScan_append target pre (l :: post) hpre
    rw [ensurePhonyScan, if_pos hl] at hs
    constructor
    · intro hm
      rw [if_pos hm] at hs
      rw [ensure_phony, hs]
      rfl
    · intro hm
      rw [if_neg hm] at hs
      rw [ensure_phony, hs]
      rfl
  · intro hnone
    rw [ensure_phony, ensurePhonyScan_none target lines hnone]
  · intro ht htw
    cases hscan : ensurePhonyScan target lines with
    | some r =>
      have h1 : ensure_phony lines target = r := by
        rw [ensure_phony, hscan]
      rw [h1, ensure_phony, ensurePhonyScan_stable target ht htw lines r hscan]
    | none =>
      have h1 : ensure_phony lines target =
          (".PHONY: ".data ++ target) ::
            ((if lines.isEmpty then [] else [[]]) ++ lines) := by
        rw [ensure_phony, hscan, List.cons_append]
      have hphy : isPhonyLine (".PHONY: ".data ++ target) = true := by
        rw [isPhonyLine]
        have hl2 : pyLstrip (".PHONY: ".data ++ target) =
            ".PHONY: ".data ++ target := by
          rw [pyLstrip]
          have hr2 : (".PHONY: ".data ++ target) =
              '.' :: ("PHONY: ".data ++ target) := rfl
          rw [hr2, List.dropWhile_cons, if_neg (by decide)]
        rw [hl2]
        exact List.isPrefixOf_iff_prefix.mpr ⟨": ".data ++ target, rfl⟩
      have hmem : target ∈ pySplit (".PHONY: ".data ++ target) := by
        have hr3 : (".PHONY: ".data ++ target) = ".PHONY:".data ++ ' ' :: target := rfl
        rw [hr3]
        exact mem_pySplitAux_append_word target ht htw _ []
      have h2 : ensurePhonyScan target
          ((".PHONY: ".data ++ target) ::
            ((if lines.isEmpty then [] else [[]]) ++ lines)) =
          some ((".PHONY: ".data ++ target) ::
            ((if lines.isEmpty then [] else [[]]) ++ lines)) := by
        rw [ensurePhonyScan, if_pos hphy, if_pos hmem]
      rw [h1, ensure_phony, h2]

/-- Claim C7, counterexample to the claim as stated: for a target
containing whitespace (`"a b"`), whitespace-splitting can never find it,
so the second application appends it again — `ensure_phony` is not
idempotent for such targets. -/
theorem c7_whitespace_target_counterexample :
    ensure_phony [".PHONY: x".data] "a b".data = [".PHONY: x a b".data] ∧
    ensure_phony (ensure_phony [".PHONY: x".data] "a b".data) "a b".data =
      [".PHONY: x a b a b".data] ∧
    [".PHONY: x a b a b".data] ≠ [".PHONY: x a b".data] :=
  ⟨by decide, by decide, by decide⟩

/-- Claim C7, witness: the amended theorem at concrete inputs — append
to an existing phony line, no-op when listed, prepend when missing, and
idempotence for the real target `vale`. -/
theorem c7_ensure_phony_witness :
    ensure_phony [".PHONY: x".data] "y".data = [".PHONY: x y".data] ∧
    ensure_phony [".PHONY: x y".data] "y".data = [".PHONY: x y".data] ∧
    ensure_phony ["all: build".data] "vale".data =
      [".PHONY: vale".data, [], "all: build".data] ∧
    ensure_phony (ensure_phony [".PHONY: x".data] "vale".data) "vale".data =
      ensure_phony [".PHONY: x".data] "vale".data := by
  refine ⟨?_, ?_, ?_, ?_⟩
  · have h := ((c7_ensure_phony [".PHONY: x".data] "y".data).1 [] ".PHONY: x".data []
      rfl (by simp) (by decide)).2 (by decide)
    rw [h]
    decide
  · exact ((c7_ensure_phony [".PHONY: x y".data] "y".data).1 [] ".PHONY: x y".data []
      rfl (by simp) (by decide)).1 (by decide)
  · have h := (c7_ensure_phony ["all: build".data] "vale".data).2.1 (by decide)
    rw [h]
    decide
  · exact (c7_ensure_phony [".PHONY: x".data] "vale".data).2.2 (by decide) (by decide)

/-! ## The `.vale.ini` engine from `concordat_vale/stilyagi_install.py` -/

/-- Root-option / section dictionaries: key to value, insertion order. -/
abbrev KVList := List (Line × Line)

/-- Section-name to section-dictionary mapping, insertion order. -/
abbrev Sections := List (Line × KVList)

/-- `stilyagi_install.FOOTNOTE_REGEX` (a single-line string literal). -/
def FOOTNOTE_REGEX : Line :=
  "(?m)^\\[\\^\\d+\\]:[^\\n]*(?:\\n[ \\t]+[^\\n]*)*".data

/-- The glob-pattern section name for docs files. -/
def docs_glob : Line := "docs/**/*.\x7bmd,markdown,mdx\x7d".data

/-- The glob-pattern section name for code files. -/
def code_glob : Line := "*.\x7brs,ts,js,sh,py\x7d".data

/-- The fixed `section_order` list of `_render_ini`. -/
def section_order : List Line :=
  [docs_glob, "AGENTS.md".data, code_glob, "README.md".data]

/-- The fixed `root_priority` tuple of `_render_ini`. -/
def root_priority : List Line :=
  ["Packages".data, "MinAlertLevel".data, "Vocab".data]

/-- Parser state of `_parse_ini`'s loop: the root options, the sections
seen so far, and the name of the currently open section (`none` when
key/value lines still go to the root).  Python keeps a reference
`current` to the open dict; with the unique section names `setdefault`
maintains, routing by name is the same thing. -/
structure IniState where
  root : KVList
  sections : Sections
  cur : Option Line

/-- Assign into the section named `name` (Python mutates the dict that
`current` references). -/
def secSet (s : Sections) (name k v : Line) : Sections :=
  match s with
  | [] => []
  | (n, d) :: rest =>
    if n = name then (n, dictSet d k v) :: rest else (n, d) :: secSet rest name k v

/-- The `[section]` header case of `_parse_ini`'s loop:
`sections.setdefault(stripped[1:-1].strip(), dict())` plus re-pointing
`current`. -/
def openSection (st : IniState) (name : Line) : IniState :=
  if (dictLookup st.sections name).isSome then ⟨st.root, st.sections, some name⟩
  else ⟨st.root, st.sections ++ [(name, [])], some name⟩

/-- The key/value case of `_parse_ini`'s loop. -/
def addKV (st : IniState) (k v : Line) : IniState :=
  match st.cur with
  | none => ⟨dictSet st.root k v, st.sections, none⟩
  | some n => ⟨st.root, secSet st.sections n k v, some n⟩

/-- One line of `_parse_ini`: skip blanks and `#`/`;` comments; a
`[name]` line opens a section; a line containing `=` splits at the
first `=` into a trimmed key and value; anything else is dropped. -/
def parseLine (st : IniState) (line : Line) : IniState :=
  if (pyStrip line).isEmpty then st
  else if (pyStrip line).head? = some '#' ∨ (pyStrip line).head? = some ';' then st
  else if (pyStrip line).head? = some '[' ∧ (pyStrip line).getLast? = some ']' then
    openSection st (pyStrip (((pyStrip line).drop 1).dropLast))
  else if line.contains '=' then
    addKV st (pyStrip (splitFirst line '=').1) (pyStrip (splitFirst line '=').2)
  else st

/-- `_parse_ini`'s loop over the file's lines. -/
def parseIniLines (ls : List Line) : KVList × Sections :=
  let st := ls.foldl parseLine ⟨[], [], none⟩
  (st.root, st.sections)

/-- `stilyagi_install._parse_ini` as a pure function of the file state. -/
def parse_ini (file : Option Line) : KVList × Sections :=
  match file with
  | none => ([], [])
  | some t => parseIniLines (pySplitlines t)

/-- `stilyagi_install._merge_and_order_section`. -/
def merge_and_order_section (existing required : KVList) : KVList :=
  let merged := required.foldl (fun d kv => dictSet d kv.1 kv.2) existing
  let ordered := required.filterMap (fun kv =>
    (dictLookup merged kv.1).map (fun v => (kv.1, v)))
  ordered ++ merged.filter (fun kv => (dictLookup ordered kv.1).isNone)

/-- The rendered form of one key/value line, `f"(key) = (value)"`. -/
def kvLine (k v : Line) : Line := k ++ " = ".data ++ v

/-- `stilyagi_install._render_root_options`. -/
def render_root_options (root_options : KVList) (prio : List Line) : List Line :=
  let l1 := prio.filterMap (fun k =>
    (dictLookup root_options k).map (fun v => kvLine k v))
  let l2 := (root_options.filter (fun kv => decide (kv.1 ∉ prio))).map
    (fun kv => kvLine kv.1 kv.2)
  let ls := l1 ++ l2
  if ls.isEmpty then ls else ls ++ [[]]

/-- `stilyagi_install._emit_section` (as the produced lines): header,
each `key = value` pair (with the explanatory comment line before a
`BlockIgnores` key), then a blank line. -/
def emit_section (name : Line) (options : KVList) : List Line :=
  ("[".data ++ name ++ "]".data) ::
    (options.flatMap (fun kv =>
      (if kv.1 = "BlockIgnores".data then ["# Ignore for footnotes".data] else []) ++
        [kvLine kv.1 kv.2]) ++ [[]])

/-- `stilyagi_install._emit_ordered_sections` (the produced lines). -/
def emit_ordered_sections (order : List Line) (sections : Sections) : List Line :=
  order.flatMap (fun n =>
    match dictLookup sections n with
    | some o => emit_section n o
    | none => [])

/-- The `seen` set `_emit_ordered_sections` returns (only membership is
ever used). -/
def seen_sections (order : List Line) (sections : Sections) : List Line :=
  order.filter (fun n => (dictLookup sections n).isSome)

/-- Lexicographic comparison of text by character code point: Python
`<=` on strings. -/
def lineLe (a b : Line) : Bool :=
  match a, b with
  | [], _ => true
  | _ :: _, [] => false
  | x :: xs, y :: ys => if x < y then true else if x = y then lineLe xs ys else false

/-- Python `sorted` on text, modelled by insertion sort (both are
stable, and for the total order `lineLe` every sorting algorithm agrees). -/
def pySorted (l : List Line) : List Line :=
  List.insertionSort (fun a b => lineLe a b = true) l

/-- `stilyagi_install._emit_remaining_sections` (the produced lines):
remaining sections in sorted name order. -/
def emit_remaining_sections (sections : Sections) (seen : List Line) : List Line :=
  (pySorted (sections.map Prod.fst)).flatMap (fun n =>
    if n ∈ seen then []
    else
      match dictLookup sections n with
      | some o => emit_section n o
      | none => [])

/-- The full list of lines `_render_ini` joins. -/
def render_ini_lines (root_options : KVList) (sections : Sections) : List Line :=
  render_root_options root_options root_priority ++
    emit_ordered_sections section_order sections ++
    emit_remaining_sections sections (seen_sections section_order sections)

/-- `stilyagi_install._render_ini`:
`"\n".join(lines).rstrip() + "\n"`. -/
def render_ini (root_options : KVList) (sections : Sections) : Line :=
  pyRstrip (List.intercalate ['\n'] (render_ini_lines root_options sections)) ++ ['\n']

/-- `stilyagi_install.InstallManifest`. -/
structure InstallManifest where
  style_name : Line
  vocab_name : Line
  min_alert_level : Line

/-- The `required_sections` catalogue of `_update_vale_ini`. -/
def required_sections (m : InstallManifest) : Sections :=
  [(docs_glob,
      [("BasedOnStyles".data, m.style_name), ("BlockIgnores".data, FOOTNOTE_REGEX)]),
    ("AGENTS.md".data, [("BasedOnStyles".data, m.style_name)]),
    (code_glob,
      [("BasedOnStyles".data, m.style_name),
        (m.style_name ++ ".RustNoRun".data, "NO".data),
        (m.style_name ++ ".Acronyms".data, "NO".data)]),
    ("README.md".data,
      [("BasedOnStyles".data, m.style_name),
        (m.style_name ++ ".Pronouns".data, "NO".data)])]

/-- The root options after `_update_vale_ini`'s
`root_options.update(...)`: `Packages`, `MinAlertLevel` and `Vocab` are
set in that order (`Vocab` falls back to the style name when the
vocabulary is empty, Python `or`). -/
def overlay_root (root : KVList) (packages_url : Line) (m : InstallManifest) : KVList :=
  dictSet (dictSet (dictSet root "Packages".data packages_url)
    "MinAlertLevel".data m.min_alert_level)
    "Vocab".data (if m.vocab_name.isEmpty then m.style_name else m.vocab_name)

/-- The sections after `_update_vale_ini`'s merge loop. -/
def overlay_sections (sections : Sections) (m : InstallManifest) : Sections :=
  (required_sections m).foldl (fun s nr =>
    dictSet s nr.1 (merge_and_order_section ((dictLookup s nr.1).getD []) nr.2))
    sections

/-- `stilyagi_install._update_vale_ini` as a pure function: the new file
content written for a given previous file state. -/
def update_vale_ini (file : Option Line) (packages_url : Line)
    (m : InstallManifest) : Line :=
  let ps := parse_ini file
  render_ini (overlay_root ps.1 packages_url m) (overlay_sections ps.2 m)

/-! ## String-stripping lemmas for the round-trip proof -/

theorem pyRstrip_cons_of_nonspace (c : Char) (t : Line) (hc : isPySpace c = false) :
    pyRstrip (c :: t) = c :: pyRstrip t := by
  have h := pyRstrip_append [c] t
  rw [List.singleton_append] at h
  rw [h]
  split
  · rename_i he
    rw [he]
    rw [pyRstrip]
    simp [hc]
  · rfl

theorem pyRstrip_eq_nil_iff (l : Line) :
    pyRstrip l = [] ↔ ∀ c ∈ l, isPySpace c = true := by
  rw [pyRstrip]
  rw [List.reverse_eq_nil_iff]
  rw [List.dropWhile_eq_nil_iff]
  constructor
  · intro h c hc
    exact h c (List.mem_reverse.mpr hc)
  · intro h c hc
    exact h c (List.mem_reverse.mp hc)

theorem pyLstrip_eq_nil_iff (l : Line) :
    pyLstrip l = [] ↔ ∀ c ∈ l, isPySpace c = true := by
  rw [pyLstrip, List.dropWhile_eq_nil_iff]

theorem pyRstrip_idem (l : Line) : pyRstrip (pyRstrip l) = pyRstrip l := by
  rw [pyRstrip, pyRstrip, List.reverse_reverse]
  rw [List.dropWhile_idempotent]

theorem pyLstrip_pyRstrip_comm (l : Line) :
    pyLstrip (pyRstrip l) = pyRstrip (pyLstrip l) := by
  induction l with
  | nil => rfl
  | cons c t ih =>
    by_cases hc : isPySpace c = true
    · have hl : pyLstrip (c :: t) = pyLstrip t := by
        rw [pyLstrip, List.dropWhile_cons, if_pos hc]
        rfl
      have hr := pyRstrip_append [c] t
      rw [List.singleton_append] at hr
      by_cases ht : pyRstrip t = []
      · rw [hr, if_pos ht]
        have h1 : pyRstrip [c] = [] := by
          rw [pyRstrip_eq_nil_iff]
          intro x hx
          rw [List.mem_singleton] at hx
          rw [hx]
          exact hc
        rw [h1, hl, ← ih, ht]
      · have hstep : pyLstrip ([c] ++ pyRstrip t) = pyLstrip (pyRstrip t) := by
          rw [List.singleton_append, pyLstrip, List.dropWhile_cons, if_pos hc]
          rfl
        rw [hr, if_neg ht, hstep, hl, ih]
    · have hcf : isPySpace c = false := by
        revert hc
        cases isPySpace c <;> simp
      have hl : pyLstrip (c :: t) = c :: t := by
        rw [pyLstrip, List.dropWhile_cons, if_neg (by simp [hcf])]
      rw [hl, pyRstrip_cons_of_nonspace c t hcf]
      rw [pyLstrip, List.dropWhile_cons, if_neg (by simp [hcf])]

theorem pyStrip_eq_lstrip_rstrip (l : Line) :
    pyStrip l = pyLstrip (pyRstrip l) := by
  rw [pyStrip, pyLstrip_pyRstrip_comm]

theorem pyLstrip_idem (l : Line) : pyLstrip (pyLstrip l) = pyLstrip l := by
  rw [pyLstrip, pyLstrip, List.dropWhile_idempotent]

theorem pyStrip_lstripped (l : Line) : pyLstrip (pyStrip l) = pyStrip l := by
  rw [pyStrip_eq_lstrip_rstrip, pyLstrip_idem]

theorem pyStrip_rstripped (l : Line) : pyRstrip (pyStrip l) = pyStrip l := by
  rw [pyStrip, pyRstrip_idem]

theorem pyRstrip_decomp (l : Line) :
    ∃ w, l = pyRstrip l ++ w ∧ ∀ c ∈ w, isPySpace c = true := by
  refine ⟨(l.reverse.takeWhile isPySpace).reverse, ?_, ?_⟩
  · rw [pyRstrip]
    rw [← List.reverse_append]
    rw [List.takeWhile_append_dropWhile]
    rw [List.reverse_reverse]
  · intro c hc
    rw [List.mem_reverse] at hc
    exact List.mem_takeWhile_imp hc

theorem mem_pyRstrip_iff_of_nonspace (a : Char) (l : Line) (ha : isPySpace a = false) :
    a ∈ pyRstrip l ↔ a ∈ l := by
  obtain ⟨w, hw, hws⟩ := pyRstrip_decomp l
  constructor
  · intro h
    rw [hw]
    exact List.mem_append_left _ h
  · intro h
    rw [hw, List.mem_append] at h
    rcases h with h | h
    · exact h
    · have := hws a h
      rw [this] at ha
      cases ha

theorem pyStrip_append_ws (x w : Line) (hw : ∀ c ∈ w, isPySpace c = true) :
    pyStrip (x ++ w) = pyStrip x := by
  rw [pyStrip_eq_lstrip_rstrip, pyStrip_eq_lstrip_rstrip]
  rw [pyRstrip_append]
  rw [if_pos ((pyRstrip_eq_nil_iff w).mpr hw)]

theorem splitFirst_append_not_mem (a b : Line) (c : Char) (h : c ∉ a) :
    splitFirst (a ++ c :: b) c = (a, b) := by
  induction a with
  | nil =>
    rw [List.nil_append, splitFirst]
    simp
  | cons x t ih =>
    rw [List.cons_append, splitFirst]
    rw [if_neg (fun hx => h (by rw [← hx]; exact List.mem_cons_self _ _))]
    rw [ih (fun hx => h (List.mem_cons_of_mem _ hx))]

theorem splitFirst_append_left (a b : Line) (c : Char) (h : c ∈ a) :
    splitFirst (a ++ b) c = ((splitFirst a c).1, (splitFirst a c).2 ++ b) := by
  induction a with
  | nil => cases h
  | cons x t ih =>
    rw [List.cons_append, splitFirst, splitFirst]
    by_cases hx : x = c
    · rw [if_pos hx, if_pos hx]
    · rw [if_neg hx, if_neg hx]
      have hm : c ∈ t := by
        rcases List.mem_cons.mp h with h1 | h1
        · exact absurd h1.symm hx
        · exact h1
      rw [ih hm]

/-! ## Invariants carried through the `.vale.ini` round trip -/

/-- Text free of line breaks: it stays on one physical line. -/
def NoBreakL (l : Line) : Prop := '\n' ∉ l ∧ '\r' ∉ l

/-- A configuration key that round-trips: stripped on both sides, on one
line, without `=`, and not opening a comment. -/
def KeyOK (k : Line) : Prop :=
  pyLstrip k = k ∧ pyRstrip k = k ∧ NoBreakL k ∧ '=' ∉ k ∧
    k.head? ≠ some '#' ∧ k.head? ≠ some ';'

/-- A key/value pair whose rendered line parses back as a key/value
line (in particular it cannot look like a `[section]` header). -/
def PairOK (kv : Line × Line) : Prop :=
  KeyOK kv.1 ∧ NoBreakL kv.2 ∧
    (kv.1.head? = some '[' → (pyRstrip kv.2).getLast? ≠ some ']')

/-- A section name that round-trips through `[name]`. -/
def NameOK (n : Line) : Prop := pyLstrip n = n ∧ pyRstrip n = n ∧ NoBreakL n

theorem head_nonspace_of_lstripped (c : Char) (t : Line)
    (h : pyLstrip (c :: t) = c :: t) : isPySpace c = false := by
  by_contra hc
  rw [Bool.not_eq_false] at hc
  rw [pyLstrip, List.dropWhile_cons, if_pos hc] at h
  have hlen : (List.dropWhile isPySpace t).length ≤ t.length :=
    List.Sublist.length_le (List.dropWhile_sublist isPySpace)
  rw [h] at hlen
  simp at hlen

theorem pyLstrip_append_of_ne_nil (k x : Line) (hk : pyLstrip k = k) (hne : k ≠ []) :
    pyLstrip (k ++ x) = k ++ x := by
  rw [pyLstrip, List.dropWhile_append]
  rw [if_neg (by rw [List.isEmpty_iff]; rw [show List.dropWhile isPySpace k = k from hk]; exact hne)]
  rw [show List.dropWhile isPySpace k = k from hk]

theorem pyRstrip_sep_append (v : Line) :
    pyRstrip (" = ".data ++ v) =
      (if pyRstrip v = [] then [' ', '='] else " = ".data ++ pyRstrip v) := by
  have h0 : " = ".data = [' ', '=', ' '] := rfl
  have h1 : (" = ".data ++ v) = [' ', '='] ++ ([' '] ++ v) := by
    rw [h0]
    simp
  have h2 : pyRstrip ([' '] ++ v) =
      (if pyRstrip v = [] then [] else [' '] ++ pyRstrip v) := by
    rw [pyRstrip_append]
    split
    · decide
    · rfl
  rw [h1, pyRstrip_append, h2]
  by_cases hv : pyRstrip v = []
  · rw [if_pos hv, if_pos hv, if_pos rfl]
    decide
  · rw [if_neg hv, if_neg hv, if_neg (by simp), h0]
    simp

theorem pyStrip_cons_space (v : Line) : pyStrip (' ' :: v) = pyStrip v := by
  rw [pyStrip, pyStrip]
  have h : pyLstrip (' ' :: v) = pyLstrip v := by
    rw [pyLstrip, List.dropWhile_cons, if_pos (by decide)]
    rfl
  rw [h]

theorem pyStrip_of_both (k : Line) (h1 : pyLstrip k = k) (h2 : pyRstrip k = k) :
    pyStrip k = k := by
  rw [pyStrip, h1, h2]

theorem pyStrip_kvLine (k v : Line) (hk1 : pyLstrip k = k) :
    pyStrip (kvLine k v) =
      (if k = [] then (if pyRstrip v = [] then ['='] else '=' :: ' ' :: pyRstrip v)
       else k ++ (if pyRstrip v = [] then [' ', '='] else " = ".data ++ pyRstrip v)) := by
  have h0 : " = ".data = [' ', '=', ' '] := rfl
  by_cases hk0 : k = []
  · subst hk0
    rw [if_pos rfl, kvLine, List.nil_append, pyStrip]
    have hl : pyLstrip (" = ".data ++ v) = '=' :: (' ' :: v) := by
      rw [h0, pyLstrip]
      rw [List.cons_append, List.dropWhile_cons, if_pos (by decide)]
      rw [List.cons_append, List.dropWhile_cons, if_neg (by decide)]
      rfl
    rw [hl]
    have hr : pyRstrip ('=' :: (' ' :: v)) =
        (if pyRstrip (' ' :: v) = [] then pyRstrip ['='] else '=' :: pyRstrip (' ' :: v)) := by
      have := pyRstrip_append ['='] (' ' :: v)
      rw [List.singleton_append] at this
      rw [this]
      split
      · rfl
      · rfl
    rw [hr]
    have hr2 : pyRstrip (' ' :: v) = (if pyRstrip v = [] then [] else ' ' :: pyRstrip v) := by
      have := pyRstrip_append [' '] v
      rw [List.singleton_append] at this
      rw [this]
      split
      · decide
      · rfl
    rw [hr2]
    by_cases hv : pyRstrip v = []
    · rw [if_pos hv, if_pos rfl, if_pos hv]
      decide
    · rw [if_neg hv, if_neg (by simp), if_neg hv]
  · rw [if_neg hk0, kvLine, pyStrip, List.append_assoc]
    rw [pyLstrip_append_of_ne_nil k (" = ".data ++ v) hk1 hk0]
    rw [pyRstrip_append, pyRstrip_sep_append]
    by_cases hv : pyRstrip v = []
    · rw [if_pos hv, if_neg (by simp)]
    · rw [if_neg hv, if_neg (by rw [h0]; simp)]

theorem parseLine_kv (st : IniState) (k v : Line) (h : PairOK (k, v)) :
    parseLine st (kvLine k v) = addKV st k (pyStrip v) := by
  obtain ⟨⟨hk1, hk2, hknb, hkeq, hkh, hks⟩, hvnb, hhdr⟩ := h
  have hstrip := pyStrip_kvLine k v hk1
  have hsf : splitFirst (kvLine k v) '=' = (k ++ [' '], ' ' :: v) := by
    have hshape : kvLine k v = (k ++ [' ']) ++ '=' :: (' ' :: v) := by
      rw [kvLine]
      have h0 : " = ".data = [' ', '=', ' '] := rfl
      rw [h0]
      simp
    rw [hshape, splitFirst_append_not_mem]
    intro hm
    rcases List.mem_append.mp hm with hm1 | hm1
    · exact hkeq hm1
    · simp at hm1
  have hkey : pyStrip (k ++ [' ']) = k := by
    rw [pyStrip_append_ws k [' '] (by intro c hc; simp at hc; rw [hc]; rfl)]
    exact pyStrip_of_both k hk1 hk2
  have hval : pyStrip (' ' :: v) = pyStrip v := pyStrip_cons_space v
  have hcont : (kvLine k v).contains '=' = true := by
    rw [List.elem_iff]
    rw [kvLine]
    refine List.mem_append_left _ (List.mem_append_right _ ?_)
    decide
  by_cases hk0 : k = []
  · subst hk0
    rw [if_pos rfl] at hstrip
    have hhead : (pyStrip (kvLine [] v)).head? = some '=' := by
      rw [hstrip]
      split <;> rfl
    have hne : (pyStrip (kvLine [] v)).isEmpty ≠ true := by
      intro hcontra
      rw [List.isEmpty_iff, hstrip] at hcontra
      split at hcontra <;> simp at hcontra
    rw [parseLine, if_neg hne]
    rw [if_neg (by rw [hhead]; rintro (hc | hc) <;> simp at hc)]
    rw [if_neg (by rw [hhead]; rintro ⟨hc, hc2⟩; simp at hc)]
    rw [if_pos hcont, hsf]
    rw [List.nil_append] at hkey ⊢
    rw [show pyStrip ([' '] : Line) = [] from rfl]
    rw [hval]
  · obtain ⟨c, t, rfl⟩ : ∃ c t, k = c :: t := by
      cases k with
      | nil => exact absurd rfl hk0
      | cons c t => exact ⟨c, t, rfl⟩
    rw [if_neg hk0] at hstrip
    have hXne : (if pyRstrip v = [] then [' ', '='] else " = ".data ++ pyRstrip v) ≠
        ([] : Line) := by
      split
      · simp
      · simp [show " = ".data = [' ', '=', ' '] from rfl]
    have hshape2 : pyStrip (kvLine (c :: t) v) =
        c :: (t ++ (if pyRstrip v = [] then [' ', '='] else " = ".data ++ pyRstrip v)) := by
      rw [hstrip]
      rfl
    have hhead : (pyStrip (kvLine (c :: t) v)).head? = some c := by
      rw [hshape2]
      rfl
    have hne : (pyStrip (kvLine (c :: t) v)).isEmpty ≠ true := by
      intro hcontra
      rw [List.isEmpty_iff, hshape2] at hcontra
      simp at hcontra
    have hlast : (pyStrip (kvLine (c :: t) v)).getLast? =
        (if pyRstrip v = [] then some '=' else (pyRstrip v).getLast?) := by
      rw [hstrip]
      split
      · rw [List.getLast?_append_of_ne_nil _ (by simp)]
        rfl
      · rename_i hv
        rw [List.getLast?_append_of_ne_nil _ (by simp [show " = ".data = [' ', '=', ' '] from rfl])]
        rw [List.getLast?_append_of_ne_nil _ hv]
    rw [parseLine, if_neg hne]
    rw [if_neg (by
      rw [hhead]
      rintro (hc | hc)
      · exact hkh (by rw [List.head?_cons, ← Option.some.inj hc])
      · exact hks (by rw [List.head?_cons, ← Option.some.inj hc]))]
    rw [if_neg (by
      rintro ⟨hc, hc2⟩
      rw [hhead] at hc
      have hcx : (c :: t : Line).head? = some '[' := by
        rw [List.head?_cons, Option.some.inj hc]
      have := hhdr hcx
      rw [hlast] at hc2
      by_cases hv : pyRstrip v = []
      · rw [if_pos hv] at hc2
        simp at hc2
      · rw [if_neg hv] at hc2
        exact this hc2)]
    rw [if_pos hcont, hsf]
    rw [hkey, hval]

theorem parseLine_header (st : IniState) (n : Line) (h : NameOK n) :
    parseLine st ("[".data ++ n ++ "]".data) = openSection st n := by
  obtain ⟨hn1, hn2, hnnb⟩ := h
  have hshape : ("[".data ++ n ++ "]".data) = '[' :: (n ++ [']']) := by
    simp [show "[".data = ['['] from rfl, show "]".data = [']'] from rfl]
  have hstrip : pyStrip ('[' :: (n ++ [']'])) = '[' :: (n ++ [']']) := by
    rw [pyStrip]
    have hl : pyLstrip ('[' :: (n ++ [']'])) = '[' :: (n ++ [']']) := by
      rw [pyLstrip, List.dropWhile_cons, if_neg (by decide)]
    rw [hl, pyRstrip_cons_of_nonspace _ _ (by decide)]
    rw [pyRstrip_append, if_neg (by decide)]
    rw [show pyRstrip ([']'] : Line) = [']'] from (by decide)]
  have hlast : ('[' :: (n ++ [']']) : Line).getLast? = some ']' := by
    rw [show ('[' :: (n ++ [']']) : Line) = ('[' :: n) ++ [']'] by simp]
    exact List.getLast?_concat _
  rw [hshape, parseLine, hstrip]
  rw [if_neg (by simp)]
  rw [if_neg (by rintro (hc | hc) <;> simp at hc)]
  rw [if_pos ⟨rfl, hlast⟩]
  rw [List.drop_one, List.tail_cons, List.dropLast_concat]
  rw [pyStrip_of_both n hn1 hn2]

theorem parseLine_blank (st : IniState) : parseLine st [] = st := rfl

theorem parseLine_footnote_comment (st : IniState) :
    parseLine st "# Ignore for footnotes".data = st := rfl

theorem pyStrip_pyRstrip (l : Line) : pyStrip (pyRstrip l) = pyStrip l := by
  rw [pyStrip_eq_lstrip_rstrip, pyStrip_eq_lstrip_rstrip, pyRstrip_idem]

theorem contains_pyRstrip_eq (l : Line) :
    (pyRstrip l).contains '=' = l.contains '=' := by
  show List.elem '=' (pyRstrip l) = List.elem '=' l
  by_cases hm : '=' ∈ l
  · rw [List.elem_iff.mpr hm,
      List.elem_iff.mpr ((mem_pyRstrip_iff_of_nonspace '=' l (by decide)).mpr hm)]
  · have h2 : '=' ∉ pyRstrip l := fun hc =>
      hm ((mem_pyRstrip_iff_of_nonspace '=' l (by decide)).mp hc)
    cases hc1 : List.elem '=' (pyRstrip l)
    · cases hc2 : List.elem '=' l
      · rfl
      · exact absurd (List.elem_iff.mp hc2) hm
    · exact absurd (List.elem_iff.mp hc1) h2

theorem parseLine_pyRstrip (st : IniState) (l : Line) :
    parseLine st (pyRstrip l) = parseLine st l := by
  have hps := pyStrip_pyRstrip l
  have hceq := contains_pyRstrip_eq l
  rw [parseLine, parseLine, hps, hceq]
  by_cases h1 : (pyStrip l).isEmpty = true
  · rw [if_pos h1, if_pos h1]
  · rw [if_neg h1, if_neg h1]
    by_cases h2 : (pyStrip l).head? = some '#' ∨ (pyStrip l).head? = some ';'
    · rw [if_pos h2, if_pos h2]
    · rw [if_neg h2, if_neg h2]
      by_cases h3 : (pyStrip l).head? = some '[' ∧ (pyStrip l).getLast? = some ']'
      · rw [if_pos h3, if_pos h3]
      · rw [if_neg h3, if_neg h3]
        by_cases h4 : l.contains '=' = true
        · rw [if_pos h4, if_pos h4]
          obtain ⟨w, hw, hws⟩ := pyRstrip_decomp l
          have hmem : '=' ∈ pyRstrip l := by
            have hml : '=' ∈ l := List.elem_iff.mp h4
            exact (mem_pyRstrip_iff_of_nonspace '=' l (by decide)).mpr hml
          conv_rhs => rw [hw]
          rw [splitFirst_append_left (pyRstrip l) w '=' hmem]
          rw [pyStrip_append_ws _ w hws]
        · rw [if_neg h4, if_neg h4]

/-! ## Folding the parser over rendered lines -/

/-- Values after the parser's trimming. -/
def stripVals (d : KVList) : KVList := d.map (fun kv => (kv.1, pyStrip kv.2))

theorem dictLookup_append {β : Type} (a b : List (Line × β)) (k : Line) :
    dictLookup (a ++ b) k =
      (match dictLookup a k with
        | some v => some v
        | none => dictLookup b k) := by
  induction a with
  | nil => rfl
  | cons kv t ih =>
    rw [List.cons_append, dictLookup, dictLookup]
    split
    · rfl
    · exact ih

theorem dictSet_fresh {β : Type} (d : List (Line × β)) (k : Line) (v : β)
    (h : dictLookup d k = none) : dictSet d k v = d ++ [(k, v)] := by
  induction d with
  | nil => rfl
  | cons kv t ih =>
    rw [dictLookup] at h
    rw [dictSet]
    split
    · rename_i he
      rw [he] at h
      rw [if_pos rfl] at h
      cases h
    · rename_i he
      rw [if_neg he] at h
      rw [List.cons_append, ih h]

theorem foldl_parseLine_kv_list (pairs : KVList) (st : IniState)
    (h : ∀ kv ∈ pairs, PairOK kv) :
    (pairs.map (fun kv => kvLine kv.1 kv.2)).foldl parseLine st =
      pairs.foldl (fun s kv => addKV s kv.1 (pyStrip kv.2)) st := by
  induction pairs generalizing st with
  | nil => rfl
  | cons kv t ih =>
    rw [List.map_cons, List.foldl_cons, List.foldl_cons]
    rw [show kvLine kv.1 kv.2 = kvLine (kv.1, kv.2).1 (kv.1, kv.2).2 from rfl]
    rw [parseLine_kv st kv.1 kv.2 (h kv (List.mem_cons_self _ _))]
    exact ih _ (fun kv2 hm => h kv2 (List.mem_cons_of_mem _ hm))

theorem foldl_addKV_root (pairs : KVList) (r : KVList) (S : Sections) :
    pairs.foldl (fun s kv => addKV s kv.1 (pyStrip kv.2)) ⟨r, S, none⟩ =
      ⟨pairs.foldl (fun d kv => dictSet d kv.1 (pyStrip kv.2)) r, S, none⟩ := by
  induction pairs generalizing r with
  | nil => rfl
  | cons kv t ih =>
    rw [List.foldl_cons, List.foldl_cons]
    rw [show addKV ⟨r, S, none⟩ kv.1 (pyStrip kv.2) =
      ⟨dictSet r kv.1 (pyStrip kv.2), S, none⟩ from rfl]
    exact ih _

theorem foldl_dictSet_from (pairs : KVList) (acc : KVList)
    (hdisj : ∀ kv ∈ pairs, dictLookup acc kv.1 = none)
    (hnd : (pairs.map Prod.fst).Nodup) :
    pairs.foldl (fun d kv => dictSet d kv.1 (pyStrip kv.2)) acc =
      acc ++ stripVals pairs := by
  induction pairs generalizing acc with
  | nil => simp [stripVals]
  | cons kv t ih =>
    rw [List.map_cons, List.nodup_cons] at hnd
    rw [List.foldl_cons]
    rw [dictSet_fresh acc kv.1 (pyStrip kv.2) (hdisj kv (List.mem_cons_self _ _))]
    rw [ih (acc ++ [(kv.1, pyStrip kv.2)]) ?_ hnd.2]
    · simp [stripVals]
    · intro kv2 hm
      rw [dictLookup_append]
      rw [hdisj kv2 (List.mem_cons_of_mem _ hm)]
      rw [dictLookup, dictLookup]
      rw [if_neg ?_]
      intro he
      exact hnd.1 (he ▸ (List.mem_map_of_mem Prod.fst hm))

theorem secSet_append_fresh (S : Sections) (n : Line) (acc : KVList) (k v : Line)
    (h : dictLookup S n = none) :
    secSet (S ++ [(n, acc)]) n k v = S ++ [(n, dictSet acc k v)] := by
  induction S with
  | nil =>
    rw [List.nil_append, secSet, if_pos rfl]
    rfl
  | cons nd t ih =>
    rw [dictLookup] at h
    rw [List.cons_append, secSet]
    split
    · rename_i he
      rw [if_pos he] at h
      cases h
    · rename_i he
      rw [if_neg he] at h
      rw [List.cons_append, ih h]

theorem foldl_parseLine_section_pairs (d : KVList) (r : KVList) (S : Sections)
    (n : Line) (acc : KVList)
    (hd : ∀ kv ∈ d, PairOK kv)
    (hfresh : dictLookup S n = none)
    (hdisj : ∀ kv ∈ d, dictLookup acc kv.1 = none)
    (hnd : (d.map Prod.fst).Nodup) :
    (d.flatMap (fun kv =>
        (if kv.1 = "BlockIgnores".data then ["# Ignore for footnotes".data] else []) ++
          [kvLine kv.1 kv.2])).foldl parseLine ⟨r, S ++ [(n, acc)], some n⟩ =
      ⟨r, S ++ [(n, acc ++ stripVals d)], some n⟩ := by
  induction d generalizing acc with
  | nil =>
    rw [List.flatMap_nil, List.foldl_nil]
    simp [stripVals]
  | cons kv t ih =>
    rw [List.map_cons, List.nodup_cons] at hnd
    rw [List.flatMap_cons, List.foldl_append, List.foldl_append]
    have hc : (if kv.1 = "BlockIgnores".data then ["# Ignore for footnotes".data]
        else ([] : List Line)).foldl parseLine ⟨r, S ++ [(n, acc)], some n⟩ =
        ⟨r, S ++ [(n, acc)], some n⟩ := by
      split
      · rw [List.foldl_cons, List.foldl_nil, parseLine_footnote_comment]
      · rfl
    rw [hc, List.foldl_cons, List.foldl_nil]
    rw [show kvLine kv.1 kv.2 = kvLine (kv.1, kv.2).1 (kv.1, kv.2).2 from rfl]
    rw [parseLine_kv _ kv.1 kv.2 (hd kv (List.mem_cons_self _ _))]
    rw [show addKV ⟨r, S ++ [(n, acc)], some n⟩ kv.1 (pyStrip kv.2) =
      ⟨r, secSet (S ++ [(n, acc)]) n kv.1 (pyStrip kv.2), some n⟩ from rfl]
    rw [secSet_append_fresh S n acc kv.1 (pyStrip kv.2) hfresh]
    rw [dictSet_fresh acc kv.1 (pyStrip kv.2) (hdisj kv (List.mem_cons_self _ _))]
    rw [ih (acc ++ [(kv.1, pyStrip kv.2)])
      (fun kv2 hm => hd kv2 (List.mem_cons_of_mem _ hm)) ?_ hnd.2]
    · simp [stripVals]
    · intro kv2 hm
      rw [dictLookup_append, hdisj kv2 (List.mem_cons_of_mem _ hm)]
      rw [dictLookup, dictLookup]
      rw [if_neg ?_]
      intro he
      exact hnd.1 (he ▸ (List.mem_map_of_mem Prod.fst hm))

theorem foldl_parseLine_emit_section (n : Line) (d : KVList)
    (hn : NameOK n)
    (hdp : ∀ kv ∈ d, PairOK kv)
    (hnd : (d.map Prod.fst).Nodup)
    (r : KVList) (S : Sections) (cur : Option Line)
    (hfresh : dictLookup S n = none) :
    (emit_section n d).foldl parseLine ⟨r, S, cur⟩ =
      ⟨r, S ++ [(n, stripVals d)], some n⟩ := by
  rw [emit_section, List.foldl_cons]
  rw [show ("[".data ++ n ++ "]".data : Line) =
    "[".data ++ n ++ "]".data from rfl]
  rw [parseLine_header _ n hn]
  rw [show openSection ⟨r, S, cur⟩ n = ⟨r, S ++ [(n, [])], some n⟩ from by
    rw [openSection, if_neg (by rw [hfresh]; simp)]]
  rw [List.foldl_append]
  rw [foldl_parseLine_section_pairs d r S n [] hdp hfresh (by intro kv hm; rfl) hnd]
  rw [List.foldl_cons, List.foldl_nil, parseLine_blank]
  rw [List.nil_append]

theorem foldl_parseLine_blocks (BL : Sections) (r : KVList) :
    ∀ (S : Sections) (cur : Option Line),
    (∀ nd ∈ BL, NameOK nd.1 ∧ (∀ kv ∈ nd.2, PairOK kv) ∧ (nd.2.map Prod.fst).Nodup) →
    (BL.map Prod.fst).Nodup →
    (∀ nd ∈ BL, dictLookup S nd.1 = none) →
    ∃ cur2, (BL.flatMap (fun nd => emit_section nd.1 nd.2)).foldl parseLine
        ⟨r, S, cur⟩ =
      ⟨r, S ++ BL.map (fun nd => (nd.1, stripVals nd.2)), cur2⟩ := by
  induction BL with
  | nil =>
    intro S cur hok hnd hdisj
    exact ⟨cur, by simp⟩
  | cons nd t ih =>
    intro S cur hok hnd hdisj
    rw [List.map_cons, List.nodup_cons] at hnd
    obtain ⟨hn, hdp, hdnd⟩ := hok nd (List.mem_cons_self _ _)
    rw [List.flatMap_cons, List.foldl_append]
    rw [foldl_parseLine_emit_section nd.1 nd.2 hn hdp hdnd r S cur
      (hdisj nd (List.mem_cons_self _ _))]
    have hdisj2 : ∀ nd2 ∈ t, dictLookup (S ++ [(nd.1, stripVals nd.2)]) nd2.1 = none := by
      intro nd2 hm
      rw [dictLookup_append, hdisj nd2 (List.mem_cons_of_mem _ hm)]
      rw [dictLookup, dictLookup]
      rw [if_neg ?_]
      intro he
      exact hnd.1 (he ▸ (List.mem_map_of_mem Prod.fst hm))
    obtain ⟨cur2, hc⟩ := ih (S ++ [(nd.1, stripVals nd.2)]) (some nd.1)
      (fun nd2 hm => hok nd2 (List.mem_cons_of_mem _ hm)) hnd.2 hdisj2
    refine ⟨cur2, ?_⟩
    rw [hc, List.map_cons]
    rw [List.append_assoc]
    rfl

/-- The root pairs in the order `_render_root_options` writes them. -/
def reorderRootPairs (R : KVList) (prio : List Line) : KVList :=
  prio.filterMap (fun k => (dictLookup R k).map (fun v => (k, v))) ++
    R.filter (fun kv => decide (kv.1 ∉ prio))

/-- The section pairs in the order `_render_ini` writes them: the fixed
priority sections first, then the remaining ones sorted by name. -/
def reorderSecsPairs (S : Sections) : Sections :=
  section_order.filterMap (fun n => (dictLookup S n).map (fun d => (n, d))) ++
    (pySorted (S.map Prod.fst)).filterMap (fun n =>
      if n ∈ seen_sections section_order S then none
      else (dictLookup S n).map (fun d => (n, d)))

theorem filterMap_map_kvLine (prio : List Line) (R : KVList) :
    prio.filterMap (fun k => (dictLookup R k).map (fun v => kvLine k v)) =
      (prio.filterMap (fun k => (dictLookup R k).map (fun v => (k, v)))).map
        (fun kv => kvLine kv.1 kv.2) := by
  induction prio with
  | nil => rfl
  | cons k t ih =>
    rw [List.filterMap_cons, List.filterMap_cons]
    cases hl : dictLookup R k with
    | none => simpa using ih
    | some v => simp [ih]

theorem render_root_options_eq (R : KVList) (prio : List Line) :
    render_root_options R prio =
      (if ((reorderRootPairs R prio).map (fun kv => kvLine kv.1 kv.2)).isEmpty
       then (reorderRootPairs R prio).map (fun kv => kvLine kv.1 kv.2)
       else (reorderRootPairs R prio).map (fun kv => kvLine kv.1 kv.2) ++ [[]]) := by
  rw [render_root_options, reorderRootPairs]
  rw [filterMap_map_kvLine, List.map_append]

theorem emit_ordered_sections_eq (order : List Line) (S : Sections) :
    emit_ordered_sections order S =
      (order.filterMap (fun n => (dictLookup S n).map (fun d => (n, d)))).flatMap
        (fun nd => emit_section nd.1 nd.2) := by
  induction order with
  | nil => rfl
  | cons n t ih =>
    rw [emit_ordered_sections, List.flatMap_cons, List.filterMap_cons]
    rw [emit_ordered_sections] at ih
    cases hl : dictLookup S n with
    | none => simpa using ih
    | some d => simp [ih]

theorem emit_remaining_sections_eq (S : Sections) (seen : List Line) :
    emit_remaining_sections S seen =
      ((pySorted (S.map Prod.fst)).filterMap (fun n =>
        if n ∈ seen then none
        else (dictLookup S n).map (fun d => (n, d)))).flatMap
          (fun nd => emit_section nd.1 nd.2) := by
  rw [emit_remaining_sections]
  induction pySorted (S.map Prod.fst) with
  | nil => rfl
  | cons n t ih =>
    rw [List.flatMap_cons, List.filterMap_cons]
    by_cases hs : n ∈ seen
    · rw [if_pos hs, if_pos hs, ih]
      rfl
    · rw [if_neg hs, if_neg hs]
      cases hl : dictLookup S n with
      | none => simpa using ih
      | some d => simp [ih]

theorem parseIniLines_render (R : KVList) (S : Sections)
    (hR : ∀ kv ∈ reorderRootPairs R root_priority, PairOK kv)
    (hRnd : ((reorderRootPairs R root_priority).map Prod.fst).Nodup)
    (hS : ∀ nd ∈ reorderSecsPairs S,
      NameOK nd.1 ∧ (∀ kv ∈ nd.2, PairOK kv) ∧ (nd.2.map Prod.fst).Nodup)
    (hSnd : ((reorderSecsPairs S).map Prod.fst).Nodup) :
    parseIniLines (render_ini_lines R S) =
      (stripVals (reorderRootPairs R root_priority),
        (reorderSecsPairs S).map (fun nd => (nd.1, stripVals nd.2))) := by
  have hconv : emit_ordered_sections section_order S ++
      emit_remaining_sections S (seen_sections section_order S) =
      (reorderSecsPairs S).flatMap (fun nd => emit_section nd.1 nd.2) := by
    rw [emit_ordered_sections_eq, emit_remaining_sections_eq, reorderSecsPairs]
    rw [List.flatMap_append]
  have hroot : (render_root_options R root_priority).foldl parseLine
      ⟨[], [], none⟩ =
      ⟨stripVals (reorderRootPairs R root_priority), [], none⟩ := by
    rw [render_root_options_eq]
    split
    · rename_i hemp
      rw [List.isEmpty_iff, List.map_eq_nil_iff] at hemp
      rw [List.map_eq_nil_iff.mpr hemp, List.foldl_nil, hemp]
      rfl
    · rw [List.foldl_append]
      rw [foldl_parseLine_kv_list _ _ hR]
      rw [foldl_addKV_root]
      rw [foldl_dictSet_from _ [] (fun kv hm => rfl) hRnd]
      rw [List.foldl_cons, List.foldl_nil, parseLine_blank]
      rw [List.nil_append]
  obtain ⟨cur2, hb⟩ := foldl_parseLine_blocks (reorderSecsPairs S)
    (stripVals (reorderRootPairs R root_priority)) [] none hS hSnd
    (fun nd hm => rfl)
  rw [parseIniLines, render_ini_lines, List.append_assoc, hconv]
  rw [List.foldl_append, hroot, hb]
  rfl

theorem intercalate_cons_of_ne_nil (x : Line) (t : List Line) (h : t ≠ []) :
    List.intercalate ['\n'] (x :: t) = x ++ '\n' :: List.intercalate ['\n'] t := by
  cases t with
  | nil => exact absurd rfl h
  | cons y r =>
    simp [List.intercalate, List.intersperse_cons_cons]

theorem splitNLAux_append_line (x : Line) (z : Line) (acc : Line)
    (hx : NoBreakL x) :
    splitNLAux acc (x ++ '\n' :: z) = (acc.reverse ++ x) :: splitNLAux [] z := by
  induction x generalizing acc with
  | nil =>
    rw [List.nil_append, splitNLAux, if_pos (by decide)]
    simp
  | cons c cs ih =>
    have hc : ¬(c = '\n' || c = '\r') = true := by
      simp only [Bool.or_eq_true, decide_eq_true_eq]
      rintro (hc | hc)
      · exact hx.1 (hc ▸ List.mem_cons_self _ _)
      · exact hx.2 (hc ▸ List.mem_cons_self _ _)
    rw [List.cons_append, splitNLAux, if_neg hc]
    rw [ih (c :: acc) ⟨fun hm => hx.1 (List.mem_cons_of_mem _ hm),
      fun hm => hx.2 (List.mem_cons_of_mem _ hm)⟩]
    simp

theorem mem_intercalate_of_mem (c : Char) (l : Line) (ls : List Line)
    (hl : l ∈ ls) (hc : c ∈ l) : c ∈ List.intercalate ['\n'] ls := by
  induction ls with
  | nil => cases hl
  | cons x t ih =>
    cases t with
    | nil =>
      rw [List.mem_singleton] at hl
      subst hl
      simpa [List.intercalate] using hc
    | cons y r =>
      rw [intercalate_cons_of_ne_nil _ _ (by simp)]
      rcases List.mem_cons.mp hl with h1 | h1
      · subst h1
        exact List.mem_append_left _ hc
      · refine List.mem_append_right _ (List.mem_cons_of_mem _ ?_)
        exact ih h1

theorem no_cr_intercalate (ls : List Line) (h : ∀ l ∈ ls, '\r' ∉ l) :
    '\r' ∉ List.intercalate ['\n'] ls := by
  induction ls with
  | nil => simp [List.intercalate]
  | cons x t ih =>
    cases t with
    | nil =>
      simpa [List.intercalate] using h x (List.mem_cons_self _ _)
    | cons y r =>
      rw [intercalate_cons_of_ne_nil _ _ (by simp)]
      intro hm
      rcases List.mem_append.mp hm with h1 | h1
      · exact h x (List.mem_cons_self _ _) h1
      · rcases List.mem_cons.mp h1 with h2 | h2
        · cases h2
        · exact ih (fun l hl => h l (List.mem_cons_of_mem _ hl)) h2

theorem not_mem_pyRstrip (c : Char) (l : Line) (h : c ∉ l) : c ∉ pyRstrip l := by
  obtain ⟨w, hw, hws⟩ := pyRstrip_decomp l
  intro hm
  exact h (hw ▸ List.mem_append_left _ hm)

theorem parseLine_ws (st : IniState) (l : Line) (h : ∀ c ∈ l, isPySpace c = true) :
    parseLine st l = st := by
  have hl : pyLstrip l = [] := (pyLstrip_eq_nil_iff l).mpr h
  have hs : pyStrip l = [] := by
    rw [pyStrip, hl]
    rfl
  rw [parseLine, if_pos (by rw [hs]; rfl)]

theorem foldl_parseLine_ws (ls : List Line) (st : IniState)
    (h : ∀ l ∈ ls, ∀ c ∈ l, isPySpace c = true) : ls.foldl parseLine st = st := by
  induction ls generalizing st with
  | nil => rfl
  | cons x t ih =>
    rw [List.foldl_cons, parseLine_ws st x (h x (List.mem_cons_self _ _))]
    exact ih st (fun l hl => h l (List.mem_cons_of_mem _ hl))

theorem pySplitlines_no_cr (y : Line) (h : '\r' ∉ y) :
    pySplitlines y = splitNLAux [] y := by
  rw [pySplitlines, translateCRLF_of_no_cr y h]

theorem foldl_parseLine_round (ls : List Line) (h : ∀ l ∈ ls, NoBreakL l)
    (st : IniState) :
    (pySplitlines (pyRstrip (List.intercalate ['\n'] ls) ++ ['\n'])).foldl
        parseLine st =
      ls.foldl parseLine st := by
  induction ls generalizing st with
  | nil => rfl
  | cons x t ih =>
    have hxnb : NoBreakL x := h x (List.mem_cons_self _ _)
    have hxr : NoBreakL (pyRstrip x) :=
      ⟨not_mem_pyRstrip _ _ hxnb.1, not_mem_pyRstrip _ _ hxnb.2⟩
    by_cases ht : t = []
    · subst ht
      have hi : List.intercalate ['\n'] [x] = x := by
        simp [List.intercalate]
      rw [hi]
      have hnc : '\r' ∉ pyRstrip x ++ ['\n'] := by
        intro hm
        rcases List.mem_append.mp hm with h1 | h1
        · exact hxr.2 h1
        · simp at h1
      rw [pySplitlines_no_cr _ hnc]
      rw [splitNLAux_append_line (pyRstrip x) [] [] hxr]
      simp only [List.reverse_nil, List.nil_append]
      rw [show splitNLAux ([] : Line) ([] : Line) = [] from rfl]
      rw [List.foldl_cons, List.foldl_nil, parseLine_pyRstrip]
      rfl
    · rw [intercalate_cons_of_ne_nil x t ht]
      have hJnb : '\r' ∉ List.intercalate ['\n'] t :=
        no_cr_intercalate t (fun l hl => (h l (List.mem_cons_of_mem _ hl)).2)
      by_cases hJ : pyRstrip ('\n' :: List.intercalate ['\n'] t) = []
      · rw [pyRstrip_append, if_pos hJ]
        have hws : ∀ c ∈ List.intercalate ['\n'] t, isPySpace c = true := by
          intro c hc
          have := (pyRstrip_eq_nil_iff _).mp hJ c (List.mem_cons_of_mem _ hc)
          exact this
        have htws : ∀ l ∈ t, ∀ c ∈ l, isPySpace c = true := fun l hl c hc =>
          hws c (mem_intercalate_of_mem c l t hl hc)
        have hnc : '\r' ∉ pyRstrip x ++ ['\n'] := by
          intro hm
          rcases List.mem_append.mp hm with h1 | h1
          · exact hxr.2 h1
          · simp at h1
        rw [pySplitlines_no_cr _ hnc]
        rw [splitNLAux_append_line (pyRstrip x) [] [] hxr]
        simp only [List.reverse_nil, List.nil_append]
        rw [show splitNLAux ([] : Line) ([] : Line) = [] from rfl]
        rw [List.foldl_cons, List.foldl_nil, parseLine_pyRstrip]
        rw [List.foldl_cons]
        rw [foldl_parseLine_ws t _ htws]
      · have hJne : pyRstrip (List.intercalate ['\n'] t) ≠ [] := by
          intro hcon
          apply hJ
          have hr := pyRstrip_append ['\n'] (List.intercalate ['\n'] t)
          rw [List.singleton_append] at hr
          rw [hr, if_pos hcon]
          decide
        have hr2 : pyRstrip ('\n' :: List.intercalate ['\n'] t) =
            '\n' :: pyRstrip (List.intercalate ['\n'] t) := by
          have hr := pyRstrip_append ['\n'] (List.intercalate ['\n'] t)
          rw [List.singleton_append] at hr
          rw [hr, if_neg hJne]
          rfl
        rw [pyRstrip_append, if_neg hJ, hr2]
        have hshape : x ++ ('\n' :: pyRstrip (List.intercalate ['\n'] t)) ++ ['\n'] =
            x ++ '\n' :: (pyRstrip (List.intercalate ['\n'] t) ++ ['\n']) := by
          simp
        rw [hshape]
        have hnc : '\r' ∉ x ++ '\n' :: (pyRstrip (List.intercalate ['\n'] t) ++ ['\n']) := by
          intro hm
          rcases List.mem_append.mp hm with h1 | h1
          · exact hxnb.2 h1
          · rcases List.mem_cons.mp h1 with h2 | h2
            · cases h2
            · rcases List.mem_append.mp h2 with h3 | h3
              · exact not_mem_pyRstrip _ _ hJnb h3
              · simp at h3
        rw [pySplitlines_no_cr _ hnc]
        rw [splitNLAux_append_line x _ [] hxnb]
        simp only [List.reverse_nil, List.nil_append]
        rw [List.foldl_cons]
        have hIH := ih (fun l hl => h l (List.mem_cons_of_mem _ hl)) (parseLine st x)
        rw [pySplitlines_no_cr] at hIH
        · rw [hIH]
          rfl
        · intro hm
          rcases List.mem_append.mp hm with h1 | h1
          · exact not_mem_pyRstrip _ _ hJnb h1
          · simp at h1

/-! ## Dictionary lemmas for the overlay-absorption argument -/

theorem dictLookup_eq_none_iff {β : Type} (d : List (Line × β)) (k : Line) :
    dictLookup d k = none ↔ k ∉ d.map Prod.fst := by
  induction d with
  | nil => exact ⟨fun _ => List.not_mem_nil k, fun _ => rfl⟩
  | cons kv t ih =>
    rw [dictLookup]
    by_cases he : kv.1 = k
    · rw [if_pos he]
      constructor
      · intro hc
        cases hc
      · intro hn
        exact absurd (by rw [List.map_cons, ← he]; exact List.mem_cons_self _ _) hn
    · rw [if_neg he, List.map_cons, List.mem_cons, ih]
      constructor
      · rintro hn (h1 | h1)
        · exact he h1.symm
        · exact hn h1
      · intro hn
        exact fun h1 => hn (Or.inr h1)

theorem dictLookup_mem {β : Type} (d : List (Line × β)) (k : Line) (v : β)
    (h : dictLookup d k = some v) : (k, v) ∈ d := by
  induction d with
  | nil => cases h
  | cons kv t ih =>
    rw [dictLookup] at h
    by_cases he : kv.1 = k
    · rw [if_pos he] at h
      cases h
      have hkv : kv = (k, kv.2) := by
        rw [← he]
      rw [← hkv]
      exact List.mem_cons_self _ _
    · rw [if_neg he] at h
      exact List.mem_cons_of_mem _ (ih h)

theorem dictLookup_isSome_of_mem {β : Type} (d : List (Line × β)) (k : Line) (v : β)
    (h : (k, v) ∈ d) : (dictLookup d k).isSome = true := by
  induction d with
  | nil => cases h
  | cons kv t ih =>
    rw [dictLookup]
    by_cases he : kv.1 = k
    · rw [if_pos he]
      rfl
    · rcases List.mem_cons.mp h with h1 | h1
      · exact absurd (by rw [← h1]) he
      · rw [if_neg he]
        exact ih h1

theorem dictSet_lookup_self {β : Type} (d : List (Line × β)) (k : Line) (v : β) :
    dictLookup (dictSet d k v) k = some v := by
  induction d with
  | nil => simp [dictSet, dictLookup]
  | cons kv t ih =>
    rw [dictSet]
    by_cases he : kv.1 = k
    · rw [if_pos he, dictLookup, if_pos rfl]
    · rw [if_neg he, dictLookup, if_neg he]
      exact ih

theorem dictSet_lookup_other {β : Type} (d : List (Line × β)) (k k' : Line) (v : β)
    (h : k' ≠ k) : dictLookup (dictSet d k v) k' = dictLookup d k' := by
  induction d with
  | nil =>
    rw [dictSet]
    rw [show dictLookup [(k, v)] k' = if k = k' then some v else none from rfl]
    rw [if_neg (fun he => h he.symm)]
    rfl
  | cons kv t ih =>
    rw [dictSet]
    by_cases he : kv.1 = k
    · rw [if_pos he]
      rw [show dictLookup ((k, v) :: t) k' =
        if k = k' then some v else dictLookup t k' from rfl]
      rw [if_neg (fun hx => h hx.symm)]
      rw [dictLookup, if_neg (fun hx => h (he ▸ hx).symm)]
    · rw [if_neg he, dictLookup, dictLookup]
      by_cases he2 : kv.1 = k'
      · rw [if_pos he2, if_pos he2]
      · rw [if_neg he2, if_neg he2]
        exact ih

theorem dictSet_eq_self {β : Type} (d : List (Line × β)) (k : Line) (v : β)
    (h : dictLookup d k = some v) : dictSet d k v = d := by
  induction d with
  | nil => cases h
  | cons kv t ih =>
    rw [dictLookup] at h
    rw [dictSet]
    by_cases he : kv.1 = k
    · rw [if_pos he] at h
      rw [if_pos he]
      cases h
      rw [← he]
    · rw [if_neg he] at h
      rw [if_neg he, ih h]

theorem dictSet_mem {β : Type} (d : List (Line × β)) (k : Line) (v : β)
    (kv' : Line × β) (h : kv' ∈ dictSet d k v) : kv' ∈ d ∨ kv' = (k, v) := by
  induction d with
  | nil =>
    rw [dictSet] at h
    rcases List.mem_singleton.mp h with h1
    exact Or.inr h1
  | cons kv t ih =>
    rw [dictSet] at h
    by_cases he : kv.1 = k
    · rw [if_pos he] at h
      rcases List.mem_cons.mp h with h1 | h1
      · exact Or.inr h1
      · exact Or.inl (List.mem_cons_of_mem _ h1)
    · rw [if_neg he] at h
      rcases List.mem_cons.mp h with h1 | h1
      · exact Or.inl (h1 ▸ List.mem_cons_self _ _)
      · rcases ih h1 with h2 | h2
        · exact Or.inl (List.mem_cons_of_mem _ h2)
        · exact Or.inr h2

theorem dictSet_keys {β : Type} (d : List (Line × β)) (k : Line) (v : β) :
    (dictSet d k v).map Prod.fst =
      if k ∈ d.map Prod.fst then d.map Prod.fst else d.map Prod.fst ++ [k] := by
  induction d with
  | nil => simp [dictSet]
  | cons kv t ih =>
    rw [dictSet]
    by_cases he : kv.1 = k
    · rw [if_pos he, List.map_cons, List.map_cons,
        if_pos (by rw [List.mem_cons]; exact Or.inl he.symm)]
      rw [he]
    · rw [if_neg he, List.map_cons, List.map_cons, ih]
      by_cases hm : k ∈ t.map Prod.fst
      · rw [if_pos hm, if_pos (List.mem_cons_of_mem _ hm)]
      · rw [if_neg hm, if_neg ?_, List.cons_append]
        rw [List.mem_cons]
        rintro (h1 | h1)
        · exact he h1.symm
        · exact hm h1

theorem dictSet_keys_nodup {β : Type} (d : List (Line × β)) (k : Line) (v : β)
    (h : (d.map Prod.fst).Nodup) : ((dictSet d k v).map Prod.fst).Nodup := by
  rw [dictSet_keys]
  by_cases hm : k ∈ d.map Prod.fst
  · rw [if_pos hm]
    exact h
  · rw [if_neg hm]
    rw [List.nodup_append]
    refine ⟨h, List.nodup_singleton k, ?_⟩
    intro a ha hak
    rw [List.mem_singleton] at hak
    exact hm (hak ▸ ha)

theorem foldl_dictSet_lookup_not_mem (pairs : KVList) (e : KVList) (k : Line)
    (h : k ∉ pairs.map Prod.fst) :
    dictLookup (pairs.foldl (fun d kv => dictSet d kv.1 kv.2) e) k = dictLookup e k := by
  induction pairs generalizing e with
  | nil => rfl
  | cons kv t ih =>
    rw [List.map_cons] at h
    rw [List.foldl_cons]
    rw [ih _ (fun hm => h (List.mem_cons_of_mem _ hm))]
    exact dictSet_lookup_other e kv.1 k kv.2
      (fun hx => h (by rw [hx]; exact List.mem_cons_self _ _))

theorem foldl_dictSet_lookup_mem (pairs : KVList) (e : KVList) (k : Line) (v : Line)
    (hnd : (pairs.map Prod.fst).Nodup) (hm : (k, v) ∈ pairs) :
    dictLookup (pairs.foldl (fun d kv => dictSet d kv.1 kv.2) e) k = some v := by
  induction pairs generalizing e with
  | nil => cases hm
  | cons kv t ih =>
    rw [List.map_cons, List.nodup_cons] at hnd
    rw [List.foldl_cons]
    rcases List.mem_cons.mp hm with h1 | h1
    · have hk : k ∉ t.map Prod.fst := by
        rw [← h1] at hnd
        exact hnd.1
      rw [foldl_dictSet_lookup_not_mem t _ k hk]
      rw [← h1]
      exact dictSet_lookup_self e k v
    · exact ih _ hnd.2 h1

theorem filter_dictSet_false (d : KVList) (k : Line) (v : Line)
    (P : Line × Line → Bool) (h : ∀ x, P (k, x) = false) :
    (dictSet d k v).filter P = d.filter P := by
  induction d with
  | nil =>
    rw [dictSet]
    rw [List.filter_cons, h v]
    rfl
  | cons kv t ih =>
    rw [dictSet]
    by_cases he : kv.1 = k
    · rw [if_pos he]
      have hPkv : P kv = false := by
        have hkv : kv = (k, kv.2) := by
          rw [← he]
        rw [hkv]
        exact h kv.2
      rw [List.filter_cons, List.filter_cons, h v, hPkv]
      rfl
    · rw [if_neg he, List.filter_cons, List.filter_cons, ih]

theorem filter_foldl_dictSet (pairs e : KVList) (P : Line × Line → Bool)
    (h : ∀ kv ∈ pairs, ∀ x, P (kv.1, x) = false) :
    (pairs.foldl (fun d kv => dictSet d kv.1 kv.2) e).filter P = e.filter P := by
  induction pairs generalizing e with
  | nil => rfl
  | cons kv t ih =>
    rw [List.foldl_cons]
    rw [ih _ (fun kv2 hm => h kv2 (List.mem_cons_of_mem _ hm))]
    exact filter_dictSet_false e kv.1 kv.2 P (h kv (List.mem_cons_self _ _))

theorem filterMap_lookup_self (sub : KVList) (M : KVList)
    (h : ∀ kv ∈ sub, dictLookup M kv.1 = some kv.2) :
    sub.filterMap (fun kv => (dictLookup M kv.1).map (fun v => (kv.1, v))) = sub := by
  induction sub with
  | nil => rfl
  | cons kv t ih =>
    simp only [List.filterMap_cons]
    rw [h kv (List.mem_cons_self _ _)]
    rw [ih (fun kv2 hm => h kv2 (List.mem_cons_of_mem _ hm))]
    rfl

theorem merge_and_order_closed (e req : KVList) (hnd : (req.map Prod.fst).Nodup) :
    merge_and_order_section e req =
      req ++ e.filter (fun kv => (dictLookup req kv.1).isNone) := by
  simp only [merge_and_order_section]
  have hord : req.filterMap (fun kv =>
      (dictLookup (req.foldl (fun d kv2 => dictSet d kv2.1 kv2.2) e) kv.1).map
        (fun v => (kv.1, v))) = req := by
    apply filterMap_lookup_self
    intro kv hm
    exact foldl_dictSet_lookup_mem req e kv.1 kv.2 hnd
      (by rw [show (kv.1, kv.2) = kv from rfl]; exact hm)
  rw [hord]
  congr 1
  apply filter_foldl_dictSet
  intro kv hm x
  have hs := dictLookup_isSome_of_mem req kv.1 kv.2
    (by rw [show (kv.1, kv.2) = kv from rfl]; exact hm)
  cases hl : dictLookup req kv.1 with
  | none =>
    rw [hl] at hs
    cases hs
  | some w =>
    rfl

theorem filter_req_isNone_nil (req : KVList) :
    req.filter (fun kv => (dictLookup req kv.1).isNone) = [] := by
  rw [List.filter_eq_nil_iff]
  intro kv hm
  have hs := dictLookup_isSome_of_mem req kv.1 kv.2
    (by rw [show (kv.1, kv.2) = kv from rfl]; exact hm)
  cases hl : dictLookup req kv.1 with
  | none =>
    rw [hl] at hs
    cases hs
  | some w =>
    intro hc
    cases hc

theorem merge_and_order_idem (e req : KVList) (hnd : (req.map Prod.fst).Nodup) :
    merge_and_order_section (merge_and_order_section e req) req =
      merge_and_order_section e req := by
  rw [merge_and_order_closed e req hnd, merge_and_order_closed _ req hnd]
  rw [List.filter_append]
  rw [filter_req_isNone_nil, List.nil_append]
  congr 1
  rw [List.filter_filter]
  apply List.filter_congr
  intro kv hm
  rw [Bool.and_self]

theorem dictLookup_filterMap_names {β : Type} (names : List Line)
    (f : Line → Option β) (k : Line) :
    dictLookup (names.filterMap (fun q => (f q).map (fun v => (q, v)))) k =
      if k ∈ names then f k else none := by
  induction names with
  | nil => rw [if_neg (List.not_mem_nil k)]; rfl
  | cons q t ih =>
    simp only [List.filterMap_cons]
    cases hq : f q with
    | none =>
      simp only [hq, Option.map_none']
      rw [ih]
      by_cases hkq : k = q
      · subst hkq
        rw [if_pos (List.mem_cons_self _ _)]
        rw [hq]
        by_cases hkt : k ∈ t
        · rw [if_pos hkt]
        · rw [if_neg hkt]
      · by_cases hkt : k ∈ t
        · rw [if_pos hkt, if_pos (List.mem_cons_of_mem _ hkt)]
        · rw [if_neg hkt,
            if_neg (fun hc => (List.mem_cons.mp hc).elim (fun h1 => hkq h1) hkt)]
    | some v =>
      simp only [hq, Option.map_some']
      rw [dictLookup]
      by_cases hqk : q = k
      · rw [if_pos hqk, if_pos (by rw [← hqk]; exact List.mem_cons_self _ _)]
        rw [← hqk, hq]
      · rw [if_neg hqk, ih]
        by_cases hkt : k ∈ t
        · rw [if_pos hkt, if_pos (List.mem_cons_of_mem _ hkt)]
        · rw [if_neg hkt,
            if_neg (fun hc => (List.mem_cons.mp hc).elim (fun h1 => hqk h1.symm) hkt)]

theorem dictLookup_filter {β : Type} (d : List (Line × β)) (k : Line)
    (P : Line × β → Bool) (h : ∀ v, P (k, v) = true) :
    dictLookup (d.filter P) k = dictLookup d k := by
  induction d with
  | nil => rfl
  | cons kv t ih =>
    rw [List.filter_cons, dictLookup]
    by_cases he : kv.1 = k
    · have hkv : kv = (k, kv.2) := by
        rw [← he]
      rw [if_pos he, hkv, h kv.2, if_pos rfl]
      rw [dictLookup]
      rw [if_pos rfl]
    · rw [if_neg he]
      cases hP : P kv with
      | false =>
        rw [if_neg Bool.false_ne_true]
        exact ih
      | true =>
        rw [if_pos rfl, dictLookup, if_neg he]
        exact ih

theorem reorderRootPairs_lookup (R : KVList) (prio : List Line) (k : Line) :
    dictLookup (reorderRootPairs R prio) k = dictLookup R k := by
  rw [reorderRootPairs, dictLookup_append]
  rw [dictLookup_filterMap_names prio (fun q => dictLookup R q) k]
  by_cases hk : k ∈ prio
  · rw [if_pos hk]
    cases hl : dictLookup R k with
    | none =>
      rw [show dictLookup (R.filter (fun kv => decide (kv.1 ∉ prio))) k = none from ?_]
      rw [dictLookup_eq_none_iff] at hl ⊢
      intro hm
      rcases List.mem_map.mp hm with ⟨kv, hkv, hfst⟩
      exact hl (hfst ▸ List.mem_map_of_mem Prod.fst (List.mem_of_mem_filter hkv))
    | some v => rfl
  · rw [if_neg hk]
    exact dictLookup_filter R k _ (fun v => by rw [decide_eq_true_eq]; exact hk)

theorem dictLookup_filterMap_names_if {β : Type} (names seen : List Line)
    (f : Line → Option β) (k : Line) :
    dictLookup (names.filterMap (fun q =>
        if q ∈ seen then none else (f q).map (fun v => (q, v)))) k =
      if k ∈ names ∧ k ∉ seen then f k else none := by
  induction names with
  | nil =>
    rw [if_neg (fun hc => List.not_mem_nil k hc.1)]
    rfl
  | cons q t ih =>
    simp only [List.filterMap_cons]
    by_cases hqs : q ∈ seen
    · rw [if_pos hqs]
      rw [ih]
      by_cases hk : k ∈ t ∧ k ∉ seen
      · rw [if_pos hk, if_pos ⟨List.mem_cons_of_mem _ hk.1, hk.2⟩]
      · rw [if_neg hk, if_neg ?_]
        rintro ⟨hk1, hk2⟩
        rcases List.mem_cons.mp hk1 with h1 | h1
        · exact hk2 (h1 ▸ hqs)
        · exact hk ⟨h1, hk2⟩
    · rw [if_neg hqs]
      cases hq : f q with
      | none =>
        simp only [Option.map_none']
        rw [ih]
        by_cases hk : k ∈ t ∧ k ∉ seen
        · rw [if_pos hk, if_pos ⟨List.mem_cons_of_mem _ hk.1, hk.2⟩]
        · rw [if_neg hk]
          by_cases hk2 : k ∈ q :: t ∧ k ∉ seen
          · rw [if_pos hk2]
            rcases List.mem_cons.mp hk2.1 with h1 | h1
            · rw [h1, hq]
            · exact absurd ⟨h1, hk2.2⟩ hk
          · rw [if_neg hk2]
      | some v =>
        simp only [Option.map_some']
        rw [dictLookup]
        by_cases hqk : q = k
        · rw [if_pos hqk, if_pos ⟨by rw [← hqk]; exact List.mem_cons_self _ _,
            by rw [← hqk]; exact hqs⟩]
          rw [← hqk, hq]
        · rw [if_neg hqk, ih]
          by_cases hk : k ∈ t ∧ k ∉ seen
          · rw [if_pos hk, if_pos ⟨List.mem_cons_of_mem _ hk.1, hk.2⟩]
          · rw [if_neg hk, if_neg ?_]
            rintro ⟨hk1, hk2⟩
            rcases List.mem_cons.mp hk1 with h1 | h1
            · exact hqk h1.symm
            · exact hk ⟨h1, hk2⟩

theorem reorderSecsPairs_lookup (S : Sections) (n : Line) :
    dictLookup (reorderSecsPairs S) n = dictLookup S n := by
  rw [reorderSecsPairs, dictLookup_append]
  rw [dictLookup_filterMap_names section_order (fun q => dictLookup S q) n]
  rw [dictLookup_filterMap_names_if (pySorted (S.map Prod.fst))
    (seen_sections section_order S) (fun q => dictLookup S q) n]
  by_cases h1 : n ∈ section_order
  · rw [if_pos h1]
    cases hl : dictLookup S n with
    | some d => rfl
    | none =>
      by_cases h2 : n ∈ pySorted (S.map Prod.fst) ∧
          n ∉ seen_sections section_order S
      · rw [if_pos h2]
      · rw [if_neg h2]
  · rw [if_neg h1]
    cases hl : dictLookup S n with
    | some d =>
      have hkeys : n ∈ S.map Prod.fst := by
        by_contra hc
        rw [← dictLookup_eq_none_iff] at hc
        rw [hl] at hc
        cases hc
      have hsorted : n ∈ pySorted (S.map Prod.fst) :=
        ((List.perm_insertionSort _ _).mem_iff).mpr hkeys
      have hseen : n ∉ seen_sections section_order S := fun hc =>
        h1 (List.mem_of_mem_filter hc)
      rw [if_pos ⟨hsorted, hseen⟩]
    | none =>
      by_cases h2 : n ∈ pySorted (S.map Prod.fst) ∧
          n ∉ seen_sections section_order S
      · rw [if_pos h2]
      · rw [if_neg h2]

theorem mem_filterMap_names {β : Type} (names : List Line) (f : Line → Option β)
    (kv : Line × β)
    (h : kv ∈ names.filterMap (fun q => (f q).map (fun v => (q, v)))) :
    kv.1 ∈ names ∧ f kv.1 = some kv.2 := by
  induction names with
  | nil => cases h
  | cons q t ih =>
    simp only [List.filterMap_cons] at h
    cases hq : f q with
    | none =>
      rw [hq] at h
      simp only [Option.map_none'] at h
      obtain ⟨h1, h2⟩ := ih h
      exact ⟨List.mem_cons_of_mem _ h1, h2⟩
    | some v =>
      rw [hq] at h
      simp only [Option.map_some'] at h
      rcases List.mem_cons.mp h with h1 | h1
      · rw [h1]
        exact ⟨List.mem_cons_self _ _, hq⟩
      · obtain ⟨h2, h3⟩ := ih h1
        exact ⟨List.mem_cons_of_mem _ h2, h3⟩

theorem reorderRootPairs_idem (R : KVList) (prio : List Line) :
    reorderRootPairs (reorderRootPairs R prio) prio = reorderRootPairs R prio := by
  rw [reorderRootPairs]
  have hA : prio.filterMap (fun k =>
      (dictLookup (reorderRootPairs R prio) k).map (fun v => (k, v))) =
        prio.filterMap (fun k => (dictLookup R k).map (fun v => (k, v))) := by
    apply List.filterMap_congr
    intro k hk
    rw [reorderRootPairs_lookup]
  rw [hA]
  have hB : (reorderRootPairs R prio).filter (fun kv => decide (kv.1 ∉ prio)) =
      R.filter (fun kv => decide (kv.1 ∉ prio)) := by
    rw [reorderRootPairs, List.filter_append]
    have h1 : (prio.filterMap (fun k =>
        (dictLookup R k).map (fun v => (k, v)))).filter
          (fun kv => decide (kv.1 ∉ prio)) = [] := by
      rw [List.filter_eq_nil_iff]
      intro kv hm
      have := (mem_filterMap_names prio (fun k => dictLookup R k) kv hm).1
      rw [decide_eq_true_eq]
      intro hc
      exact hc this
    have h2 : (R.filter (fun kv => decide (kv.1 ∉ prio))).filter
        (fun kv => decide (kv.1 ∉ prio)) =
          R.filter (fun kv => decide (kv.1 ∉ prio)) := by
      rw [List.filter_filter]
      apply List.filter_congr
      intro kv hm
      rw [Bool.and_self]
    rw [h1, h2, List.nil_append]
  rw [hB]
  rw [reorderRootPairs]

theorem lineLe_total (a b : Line) : lineLe a b = true ∨ lineLe b a = true := by
  induction a generalizing b with
  | nil => exact Or.inl rfl
  | cons x xs ih =>
    cases b with
    | nil => exact Or.inr rfl
    | cons y ys =>
      rw [lineLe, lineLe]
      rcases lt_trichotomy x y with h1 | h1 | h1
      · left
        rw [if_pos h1]
      · subst h1
        rw [if_neg (lt_irrefl x), if_pos rfl, if_neg (lt_irrefl x), if_pos rfl]
        exact ih ys
      · right
        rw [if_pos h1]

theorem lineLe_trans (a b c : Line) (h1 : lineLe a b = true)
    (h2 : lineLe b c = true) : lineLe a c = true := by
  induction a generalizing b c with
  | nil => rfl
  | cons x xs ih =>
    cases b with
    | nil => cases h1
    | cons y ys =>
      cases c with
      | nil => cases h2
      | cons z zs =>
        rw [lineLe] at h1 h2 ⊢
        by_cases hxy : x < y
        · rw [if_pos hxy] at h1
          by_cases hyz : y < z
          · rw [if_pos (hxy.trans hyz)]
          · rw [if_neg hyz] at h2
            by_cases heyz : y = z
            · rw [if_pos (heyz ▸ hxy)]
            · rw [if_neg heyz] at h2
              cases h2
        · rw [if_neg hxy] at h1
          by_cases hexy : x = y
          · rw [if_pos hexy] at h1
            subst hexy
            by_cases hyz : x < z
            · rw [if_pos hyz]
            · rw [if_neg hyz] at h2 ⊢
              by_cases heyz : x = z
              · rw [if_pos heyz] at h2 ⊢
                exact ih ys zs h1 h2
              · rw [if_neg heyz] at h2
                cases h2
          · rw [if_neg hexy] at h1
            cases h1

theorem lineLe_antisymm (a b : Line) (h1 : lineLe a b = true)
    (h2 : lineLe b a = true) : a = b := by
  induction a generalizing b with
  | nil =>
    cases b with
    | nil => rfl
    | cons y ys => cases h2
  | cons x xs ih =>
    cases b with
    | nil => cases h1
    | cons y ys =>
      rw [lineLe] at h1 h2
      by_cases hxy : x < y
      · rw [if_neg (lt_asymm hxy)] at h2
        rw [if_neg (ne_of_gt hxy)] at h2
        cases h2
      · rw [if_neg hxy] at h1
        by_cases hexy : x = y
        · subst hexy
          rw [if_pos rfl] at h1
          rw [if_neg hxy, if_pos rfl] at h2
          rw [ih ys h1 h2]
        · rw [if_neg hexy] at h1
          cases h1

instance : IsTotal Line (fun a b => lineLe a b = true) := ⟨lineLe_total⟩

instance : IsTrans Line (fun a b => lineLe a b = true) :=
  ⟨fun a b c => lineLe_trans a b c⟩

instance : IsAntisymm Line (fun a b => lineLe a b = true) :=
  ⟨fun a b => lineLe_antisymm a b⟩

theorem pySorted_eq_of_perm (l1 l2 : List Line) (h : l1.Perm l2) :
    pySorted l1 = pySorted l2 := by
  rw [pySorted, pySorted]
  exact List.eq_of_perm_of_sorted
    (((List.perm_insertionSort _ l1).trans h).trans
      (List.perm_insertionSort _ l2).symm)
    (List.sorted_insertionSort _ l1) (List.sorted_insertionSort _ l2)

theorem keys_filterMap_names {β : Type} (names : List Line) (f : Line → Option β) :
    (names.filterMap (fun q => (f q).map (fun v => (q, v)))).map Prod.fst =
      names.filter (fun q => (f q).isSome) := by
  induction names with
  | nil => rfl
  | cons q t ih =>
    simp only [List.filterMap_cons, List.filter_cons]
    cases hq : f q with
    | none =>
      simp only [Option.map_none', Option.isSome_none]
      rw [if_neg Bool.false_ne_true]
      exact ih
    | some v =>
      simp only [Option.map_some', Option.isSome_some, if_true]
      rw [List.map_cons, ih]

theorem keys_filterMap_names_if {β : Type} (names seen : List Line)
    (f : Line → Option β) :
    (names.filterMap (fun q =>
        if q ∈ seen then none else (f q).map (fun v => (q, v)))).map Prod.fst =
      names.filter (fun q => decide (q ∉ seen) && (f q).isSome) := by
  induction names with
  | nil => rfl
  | cons q t ih =>
    simp only [List.filterMap_cons, List.filter_cons]
    by_cases hqs : q ∈ seen
    · rw [if_pos hqs]
      rw [show decide (q ∉ seen) = false from by
        rw [decide_eq_false_iff_not]
        exact fun hc => hc hqs]
      rw [Bool.false_and, if_neg Bool.false_ne_true]
      exact ih
    · rw [if_neg hqs, show decide (q ∉ seen) = true from decide_eq_true hqs,
        Bool.true_and]
      cases hq : f q with
      | none =>
        simp only [Option.map_none', Option.isSome_none]
        rw [if_neg Bool.false_ne_true]
        exact ih
      | some v =>
        simp only [Option.map_some', Option.isSome_some, if_true]
        rw [List.map_cons, ih]

theorem mem_keys_of_isSome {β : Type} (S : List (Line × β)) (q : Line)
    (h : (dictLookup S q).isSome = true) : q ∈ S.map Prod.fst := by
  cases hl : dictLookup S q with
  | none =>
    rw [hl] at h
    cases h
  | some d =>
    exact List.mem_map_of_mem Prod.fst (dictLookup_mem S q d hl)

theorem isSome_of_mem_keys {β : Type} (S : List (Line × β)) (q : Line)
    (h : q ∈ S.map Prod.fst) : (dictLookup S q).isSome = true := by
  rcases List.mem_map.mp h with ⟨nd, hnd, hfst⟩
  exact hfst ▸ dictLookup_isSome_of_mem S nd.1 nd.2
    (by rw [show (nd.1, nd.2) = nd from rfl]; exact hnd)

theorem reorderSecsPairs_keys_perm (S : Sections)
    (hnd : (S.map Prod.fst).Nodup) :
    ((reorderSecsPairs S).map Prod.fst).Perm (S.map Prod.fst) := by
  rw [reorderSecsPairs, List.map_append]
  rw [keys_filterMap_names section_order (fun n => dictLookup S n)]
  rw [keys_filterMap_names_if (pySorted (S.map Prod.fst))
    (seen_sections section_order S) (fun n => dictLookup S n)]
  have hB : (pySorted (S.map Prod.fst)).filter (fun q =>
      decide (q ∉ seen_sections section_order S) && (dictLookup S q).isSome) =
        (pySorted (S.map Prod.fst)).filter (fun q =>
          decide (q ∉ seen_sections section_order S)) := by
    apply List.filter_congr
    intro q hq
    have hqK : q ∈ S.map Prod.fst := (List.perm_insertionSort _ _).mem_iff.mp hq
    rw [isSome_of_mem_keys S q hqK, Bool.and_true]
  rw [hB]
  have hstep1 : ((pySorted (S.map Prod.fst)).filter (fun q =>
      decide (q ∉ seen_sections section_order S))).Perm
        ((S.map Prod.fst).filter (fun q =>
          decide (q ∉ seen_sections section_order S))) :=
    (List.perm_insertionSort _ _).filter _
  have hseen_nodup : (seen_sections section_order S).Nodup :=
    List.Nodup.filter _ (by decide)
  have hstep2 : (section_order.filter (fun q => (dictLookup S q).isSome)).Perm
      ((S.map Prod.fst).filter (fun q =>
        decide (q ∈ seen_sections section_order S))) := by
    rw [List.perm_ext_iff_of_nodup (List.Nodup.filter _ (by decide))
      (List.Nodup.filter _ hnd)]
    intro q
    rw [List.mem_filter, List.mem_filter]
    constructor
    · rintro ⟨h1, h2⟩
      refine ⟨mem_keys_of_isSome S q h2, ?_⟩
      rw [decide_eq_true_eq]
      rw [seen_sections, List.mem_filter]
      exact ⟨h1, h2⟩
    · rintro ⟨h1, h2⟩
      rw [decide_eq_true_eq, seen_sections, List.mem_filter] at h2
      exact h2
  have hstep3 : (((S.map Prod.fst).filter (fun q =>
      decide (q ∈ seen_sections section_order S))) ++
        ((S.map Prod.fst).filter (fun q =>
          decide (q ∉ seen_sections section_order S)))).Perm (S.map Prod.fst) := by
    have hfp := List.filter_append_perm
      (fun q => decide (q ∈ seen_sections section_order S)) (S.map Prod.fst)
    have hneg : (S.map Prod.fst).filter (fun q =>
        !(decide (q ∈ seen_sections section_order S))) =
          (S.map Prod.fst).filter (fun q =>
            decide (q ∉ seen_sections section_order S)) := by
      apply List.filter_congr
      intro q hq
      rw [decide_not]
    rw [hneg] at hfp
    exact hfp
  exact ((hstep2.append hstep1).trans hstep3)

theorem emit_ordered_sections_congr (order : List Line) (S S' : Sections)
    (h : ∀ n, dictLookup S' n = dictLookup S n) :
    emit_ordered_sections order S' = emit_ordered_sections order S := by
  induction order with
  | nil => rfl
  | cons q t ih =>
    rw [emit_ordered_sections, emit_ordered_sections] at ih ⊢
    rw [List.flatMap_cons, List.flatMap_cons, h q, ih]

theorem seen_sections_congr (order : List Line) (S S' : Sections)
    (h : ∀ n, dictLookup S' n = dictLookup S n) :
    seen_sections order S' = seen_sections order S := by
  rw [seen_sections, seen_sections]
  apply List.filter_congr
  intro q hq
  rw [h q]

theorem flatMap_remaining_congr (names : List Line) (S S' : Sections)
    (seen : List Line) (h : ∀ n, dictLookup S' n = dictLookup S n) :
    (names.flatMap (fun n =>
      if n ∈ seen then []
      else
        match dictLookup S' n with
        | some o => emit_section n o
        | none => [])) =
      (names.flatMap (fun n =>
        if n ∈ seen then []
        else
          match dictLookup S n with
          | some o => emit_section n o
          | none => [])) := by
  induction names with
  | nil => rfl
  | cons q t ih =>
    rw [List.flatMap_cons, List.flatMap_cons, h q, ih]

theorem emit_remaining_sections_congr (S S' : Sections) (seen : List Line)
    (hkeys : pySorted (S'.map Prod.fst) = pySorted (S.map Prod.fst))
    (h : ∀ n, dictLookup S' n = dictLookup S n) :
    emit_remaining_sections S' seen = emit_remaining_sections S seen := by
  rw [emit_remaining_sections, emit_remaining_sections, hkeys]
  exact flatMap_remaining_congr (pySorted (S.map Prod.fst)) S S' seen h

theorem render_ini_lines_reorder (R : KVList) (S : Sections)
    (hnd : (S.map Prod.fst).Nodup) :
    render_ini_lines (reorderRootPairs R root_priority) (reorderSecsPairs S) =
      render_ini_lines R S := by
  rw [render_ini_lines, render_ini_lines]
  have hroot : render_root_options (reorderRootPairs R root_priority)
      root_priority = render_root_options R root_priority := by
    rw [render_root_options_eq, render_root_options_eq, reorderRootPairs_idem]
  have hlook : ∀ n, dictLookup (reorderSecsPairs S) n = dictLookup S n :=
    reorderSecsPairs_lookup S
  have hkeys : pySorted ((reorderSecsPairs S).map Prod.fst) =
      pySorted (S.map Prod.fst) :=
    pySorted_eq_of_perm _ _ (reorderSecsPairs_keys_perm S hnd)
  rw [hroot, emit_ordered_sections_congr section_order S _ hlook,
    seen_sections_congr section_order S _ hlook,
    emit_remaining_sections_congr S _ _ hkeys hlook]

theorem overlay_root_eq_self (X : KVList) (url : Line) (m : InstallManifest)
    (h1 : dictLookup X "Packages".data = some url)
    (h2 : dictLookup X "MinAlertLevel".data = some m.min_alert_level)
    (h3 : dictLookup X "Vocab".data =
      some (if m.vocab_name.isEmpty then m.style_name else m.vocab_name)) :
    overlay_root X url m = X := by
  rw [overlay_root, dictSet_eq_self X _ _ h1, dictSet_eq_self X _ _ h2,
    dictSet_eq_self X _ _ h3]

theorem overlay_root_lookups (R : KVList) (url : Line) (m : InstallManifest) :
    dictLookup (overlay_root R url m) "Packages".data = some url ∧
    dictLookup (overlay_root R url m) "MinAlertLevel".data =
      some m.min_alert_level ∧
    dictLookup (overlay_root R url m) "Vocab".data =
      some (if m.vocab_name.isEmpty then m.style_name else m.vocab_name) := by
  rw [overlay_root]
  refine ⟨?_, ?_, ?_⟩
  · rw [dictSet_lookup_other _ _ _ _ (by decide),
      dictSet_lookup_other _ _ _ _ (by decide), dictSet_lookup_self]
  · rw [dictSet_lookup_other _ _ _ _ (by decide), dictSet_lookup_self]
  · rw [dictSet_lookup_self]

theorem overlay_root_absorb (R : KVList) (url : Line) (m : InstallManifest) :
    overlay_root (reorderRootPairs (overlay_root R url m) root_priority) url m =
      reorderRootPairs (overlay_root R url m) root_priority := by
  obtain ⟨p1, p2, p3⟩ := overlay_root_lookups R url m
  exact overlay_root_eq_self _ url m
    (by rw [reorderRootPairs_lookup]; exact p1)
    (by rw [reorderRootPairs_lookup]; exact p2)
    (by rw [reorderRootPairs_lookup]; exact p3)

theorem ne_append_suffix (c s t : Line) (hlen : s.length ≤ c.length)
    (hne : c.drop (c.length - s.length) ≠ s) : c ≠ t ++ s := by
  intro he
  have hl : c.length = t.length + s.length := by
    rw [he, List.length_append]
  have hd : c.drop (c.length - s.length) = s := by
    rw [he]
    rw [show (t ++ s).length - s.length = t.length from by
      rw [List.length_append]; omega]
    exact List.drop_left t s
  exact hne hd

theorem req_keys_nodup (m : InstallManifest) (nr : Line × KVList)
    (h : nr ∈ required_sections m) : (nr.2.map Prod.fst).Nodup := by
  have hBR : "BasedOnStyles".data ≠ m.style_name ++ ".RustNoRun".data :=
    ne_append_suffix _ _ _ (by decide) (by decide)
  have hBA : "BasedOnStyles".data ≠ m.style_name ++ ".Acronyms".data :=
    ne_append_suffix _ _ _ (by decide) (by decide)
  have hBP : "BasedOnStyles".data ≠ m.style_name ++ ".Pronouns".data :=
    ne_append_suffix _ _ _ (by decide) (by decide)
  have hRA : m.style_name ++ ".RustNoRun".data ≠
      m.style_name ++ ".Acronyms".data := by
    intro hc
    exact absurd (List.append_cancel_left hc) (by decide)
  rw [required_sections] at h
  simp only [List.mem_cons, List.not_mem_nil, or_false] at h
  rcases h with h | h | h | h
  all_goals rw [h]
  · simp only [List.map_cons, List.map_nil]
    decide
  · simp only [List.map_cons, List.map_nil]
    decide
  · simp only [List.map_cons, List.map_nil]
    refine List.nodup_cons.mpr ⟨?_, List.nodup_cons.mpr
      ⟨?_, List.nodup_singleton _⟩⟩
    · intro hm
      rcases List.mem_cons.mp hm with h1 | h1
      · exact hBR h1
      · rw [List.mem_singleton] at h1
        exact hBA h1
    · intro hm
      rw [List.mem_singleton] at hm
      exact hRA hm
  · simp only [List.map_cons, List.map_nil]
    refine List.nodup_cons.mpr ⟨?_, List.nodup_singleton _⟩
    intro hm
    rw [List.mem_singleton] at hm
    exact hBP hm

theorem foldl_overlay_eq_self (l : Sections) (X : Sections)
    (hl : ∀ nr ∈ l, ∃ d, dictLookup X nr.1 = some d ∧
      merge_and_order_section d nr.2 = d) :
    l.foldl (fun s nr => dictSet s nr.1
      (merge_and_order_section ((dictLookup s nr.1).getD []) nr.2)) X = X := by
  induction l with
  | nil => rfl
  | cons nr t ih =>
    rw [List.foldl_cons]
    obtain ⟨d, hd1, hd2⟩ := hl nr (List.mem_cons_self _ _)
    rw [hd1, Option.getD_some, hd2, dictSet_eq_self X nr.1 d hd1]
    exact ih (fun nr2 hm => hl nr2 (List.mem_cons_of_mem _ hm))

theorem overlay_sections_eq_self (X : Sections) (m : InstallManifest)
    (h : ∀ nr ∈ required_sections m, ∃ d, dictLookup X nr.1 = some d ∧
      merge_and_order_section d nr.2 = d) :
    overlay_sections X m = X := by
  rw [overlay_sections]
  exact foldl_overlay_eq_self _ X h

theorem foldl_overlay_lookup_not_mem (l : Sections) (X : Sections) (k : Line)
    (h : k ∉ l.map Prod.fst) :
    dictLookup (l.foldl (fun s nr2 => dictSet s nr2.1
      (merge_and_order_section ((dictLookup s nr2.1).getD []) nr2.2)) X) k =
      dictLookup X k := by
  induction l generalizing X with
  | nil => rfl
  | cons e t ih =>
    rw [List.map_cons] at h
    rw [List.foldl_cons]
    rw [ih _ (fun hm => h (List.mem_cons_of_mem _ hm))]
    exact dictSet_lookup_other X e.1 k _
      (fun hx => h (by rw [hx]; exact List.mem_cons_self _ _))

theorem foldl_overlay_lookup (l : Sections) (X : Sections) (nr : Line × KVList)
    (hmem : nr ∈ l) (hnd : (l.map Prod.fst).Nodup) :
    dictLookup (l.foldl (fun s nr2 => dictSet s nr2.1
      (merge_and_order_section ((dictLookup s nr2.1).getD []) nr2.2)) X) nr.1 =
      some (merge_and_order_section ((dictLookup X nr.1).getD []) nr.2) := by
  induction l generalizing X with
  | nil => cases hmem
  | cons e t ih =>
    rw [List.map_cons, List.nodup_cons] at hnd
    rw [List.foldl_cons]
    rcases List.mem_cons.mp hmem with h1 | h1
    · have hnot : e.1 ∉ t.map Prod.fst := hnd.1
      rw [h1]
      rw [foldl_overlay_lookup_not_mem t _ e.1 hnot]
      rw [dictSet_lookup_self]
    · have hne : nr.1 ≠ e.1 := by
        intro hx
        exact hnd.1 (hx ▸ List.mem_map_of_mem Prod.fst h1)
      rw [ih _ h1 hnd.2]
      rw [dictSet_lookup_other X e.1 nr.1 _ hne]

theorem required_names_nodup (m : InstallManifest) :
    ((required_sections m).map Prod.fst).Nodup := by
  rw [required_sections]
  simp only [List.map_cons, List.map_nil]
  decide

theorem overlay_sections_lookup_req (S : Sections) (m : InstallManifest)
    (nr : Line × KVList) (h : nr ∈ required_sections m) :
    dictLookup (overlay_sections S m) nr.1 =
      some (merge_and_order_section ((dictLookup S nr.1).getD []) nr.2) := by
  rw [overlay_sections]
  exact foldl_overlay_lookup (required_sections m) S nr h (required_names_nodup m)

theorem overlay_sections_absorb (S0 : Sections) (m : InstallManifest) :
    overlay_sections (reorderSecsPairs (overlay_sections S0 m)) m =
      reorderSecsPairs (overlay_sections S0 m) := by
  apply overlay_sections_eq_self
  intro nr h
  refine ⟨merge_and_order_section ((dictLookup S0 nr.1).getD []) nr.2, ?_, ?_⟩
  · rw [reorderSecsPairs_lookup]
    exact overlay_sections_lookup_req S0 m nr h
  · exact merge_and_order_idem _ _ (req_keys_nodup m nr h)

/-! ## Invariants of the parse state -/

theorem mem_of_mem_pyLstrip (c : Char) (l : Line) (h : c ∈ pyLstrip l) : c ∈ l :=
  (List.dropWhile_sublist isPySpace).subset h

theorem mem_of_mem_pyRstrip (c : Char) (l : Line) (h : c ∈ pyRstrip l) : c ∈ l := by
  obtain ⟨w, hw, _⟩ := pyRstrip_decomp l
  rw [hw]
  exact List.mem_append_left _ h

theorem mem_of_mem_pyStrip (c : Char) (l : Line) (h : c ∈ pyStrip l) : c ∈ l :=
  mem_of_mem_pyLstrip c l (mem_of_mem_pyRstrip c (pyLstrip l) h)

theorem NoBreakL_pyStrip (l : Line) (h : NoBreakL l) : NoBreakL (pyStrip l) :=
  ⟨fun hm => h.1 (mem_of_mem_pyStrip _ _ hm),
    fun hm => h.2 (mem_of_mem_pyStrip _ _ hm)⟩

theorem splitFirst_decomp (l : Line) (ch : Char) (h : ch ∈ l) :
    l = (splitFirst l ch).1 ++ ch :: (splitFirst l ch).2 ∧
      ch ∉ (splitFirst l ch).1 := by
  induction l with
  | nil => cases h
  | cons x xs ih =>
    by_cases hx : x = ch
    · rw [show splitFirst (x :: xs) ch = ([], xs) from by
        rw [splitFirst, if_pos hx]]
      exact ⟨by rw [hx]; rfl, List.not_mem_nil ch⟩
    · have hm : ch ∈ xs := by
        rcases List.mem_cons.mp h with h1 | h1
        · exact absurd h1.symm hx
        · exact h1
      obtain ⟨ih1, ih2⟩ := ih hm
      rw [show splitFirst (x :: xs) ch =
          (x :: (splitFirst xs ch).1, (splitFirst xs ch).2) from by
        rw [splitFirst, if_neg hx]]
      constructor
      · show x :: xs = (x :: (splitFirst xs ch).1) ++ ch :: (splitFirst xs ch).2
        rw [List.cons_append, ← ih1]
      · intro hc
        rcases List.mem_cons.mp hc with h1 | h1
        · exact hx h1.symm
        · exact ih2 h1

theorem getLast_pyLstrip (x : Line) (h : pyLstrip x ≠ []) :
    (pyLstrip x).getLast? = x.getLast? := by
  conv_rhs => rw [← List.takeWhile_append_dropWhile isPySpace x]
  exact (List.getLast?_append_of_ne_nil _ h).symm

theorem pyLstrip_eq_nil_of_all (x : Line) (h : ∀ c ∈ x, isPySpace c = true) :
    pyLstrip x = [] := (pyLstrip_eq_nil_iff x).mpr h

theorem head_claim_split (line : Line) (hmem : '=' ∈ line) :
    pyStrip (splitFirst line '=').1 = [] ∨
      (pyStrip (splitFirst line '=').1).head? = (pyStrip line).head? := by
  obtain ⟨hdec, _⟩ := splitFirst_decomp line '=' hmem
  by_cases ha : pyLstrip (splitFirst line '=').1 = []
  · left
    rw [pyStrip, ha]
    rfl
  · right
    have hL : pyLstrip line =
        pyLstrip (splitFirst line '=').1 ++ '=' :: (splitFirst line '=').2 := by
      conv_lhs => rw [hdec]
      rw [pyLstrip, List.dropWhile_append]
      rw [if_neg (by rw [List.isEmpty_iff]; exact ha)]
      rfl
    cases hla : pyLstrip (splitFirst line '=').1 with
    | nil => exact absurd hla ha
    | cons c t =>
      have hct : pyLstrip (c :: t) = c :: t := by
        rw [← hla, pyLstrip_idem]
      have hc : isPySpace c = false := head_nonspace_of_lstripped c t hct
      rw [pyStrip, hla, pyRstrip_cons_of_nonspace c t hc]
      rw [pyStrip, hL, hla, List.cons_append, pyRstrip_cons_of_nonspace c _ hc]
      rfl

theorem value_last_claim (line : Line) (hmem : '=' ∈ line)
    (hne : ¬(pyStrip line).isEmpty = true)
    (hv : pyStrip (splitFirst line '=').2 ≠ []) :
    (pyStrip (splitFirst line '=').2).getLast? = (pyStrip line).getLast? := by
  obtain ⟨hdec, _⟩ := splitFirst_decomp line '=' hmem
  have hrb : pyRstrip (splitFirst line '=').2 ≠ [] := by
    intro hc
    apply hv
    have hall := (pyRstrip_eq_nil_iff _).mp hc
    have hlb : pyLstrip (splitFirst line '=').2 = [] :=
      (pyLstrip_eq_nil_iff _).mpr hall
    rw [pyStrip, hlb]
    rfl
  have hvl : (pyStrip (splitFirst line '=').2).getLast? =
      (pyRstrip (splitFirst line '=').2).getLast? := by
    rw [pyStrip_eq_lstrip_rstrip]
    exact getLast_pyLstrip _ (by
      rw [← pyStrip_eq_lstrip_rstrip]
      exact hv)
  have hrl : pyRstrip line =
      (splitFirst line '=').1 ++ '=' :: pyRstrip (splitFirst line '=').2 := by
    conv_lhs => rw [hdec]
    rw [pyRstrip_append]
    rw [pyRstrip_cons_of_nonspace '=' _ (by decide)]
    rw [if_neg (by intro hc; cases hc)]
  have hsl : (pyStrip line).getLast? = (pyRstrip line).getLast? := by
    rw [pyStrip_eq_lstrip_rstrip]
    exact getLast_pyLstrip _ (by
      rw [← pyStrip_eq_lstrip_rstrip]
      intro hc
      rw [List.isEmpty_iff] at hne
      exact hne hc)
  rw [hvl, hsl, hrl]
  rw [List.getLast?_append_of_ne_nil _ (by intro hc; cases hc)]
  rw [show ('=' :: pyRstrip (splitFirst line '=').2) =
    ['='] ++ pyRstrip (splitFirst line '=').2 from rfl]
  rw [List.getLast?_append_of_ne_nil _ hrb]

theorem kv_pair_ok (line : Line) (hnb : NoBreakL line) (hmem : '=' ∈ line)
    (hne : ¬(pyStrip line).isEmpty = true)
    (hhash : ¬(pyStrip line).head? = some '#')
    (hsemi : ¬(pyStrip line).head? = some ';')
    (hheader : ¬((pyStrip line).head? = some '[' ∧
      (pyStrip line).getLast? = some ']')) :
    PairOK (pyStrip (splitFirst line '=').1, pyStrip (splitFirst line '=').2) ∧
      pyLstrip (pyStrip (splitFirst line '=').2) =
        pyStrip (splitFirst line '=').2 ∧
      pyRstrip (pyStrip (splitFirst line '=').2) =
        pyStrip (splitFirst line '=').2 := by
  obtain ⟨hdec, hnomem⟩ := splitFirst_decomp line '=' hmem
  have hmema : ∀ c, c ∈ pyStrip (splitFirst line '=').1 → c ∈ line := by
    intro c hc
    have h1 := mem_of_mem_pyStrip c _ hc
    rw [hdec]
    exact List.mem_append_left _ h1
  have hmemb : ∀ c, c ∈ pyStrip (splitFirst line '=').2 → c ∈ line := by
    intro c hc
    have h1 := mem_of_mem_pyStrip c _ hc
    rw [hdec]
    exact List.mem_append_right _ (List.mem_cons_of_mem _ h1)
  refine ⟨⟨⟨pyStrip_lstripped _, pyStrip_rstripped _,
    ⟨fun hm => hnb.1 (hmema _ hm), fun hm => hnb.2 (hmema _ hm)⟩, ?_, ?_, ?_⟩,
    ⟨fun hm => hnb.1 (hmemb _ hm), fun hm => hnb.2 (hmemb _ hm)⟩, ?_⟩,
    pyStrip_lstripped _, pyStrip_rstripped _⟩
  · intro hm
    exact hnomem (mem_of_mem_pyStrip '=' _ hm)
  · rcases head_claim_split line hmem with h1 | h1
    · rw [h1]
      intro hc
      cases hc
    · rw [h1]
      exact hhash
  · rcases head_claim_split line hmem with h1 | h1
    · rw [h1]
      intro hc
      cases hc
    · rw [h1]
      exact hsemi
  · intro hhd
    rw [pyStrip_rstripped _]
    by_cases hv : pyStrip (splitFirst line '=').2 = []
    · rw [hv]
      intro hc
      cases hc
    · rw [value_last_claim line hmem hne hv]
      intro hc
      apply hheader
      refine ⟨?_, hc⟩
      rcases head_claim_split line hmem with h1 | h1
      · rw [h1] at hhd
        cases hhd
      · rw [← h1]
        exact hhd

theorem header_name_ok (line : Line) (hnb : NoBreakL line) :
    NameOK (pyStrip (((pyStrip line).drop 1).dropLast)) := by
  have hchain : ∀ c, c ∈ pyStrip (((pyStrip line).drop 1).dropLast) →
      c ∈ line := by
    intro c hc
    have h1 := mem_of_mem_pyStrip c _ hc
    have h2 := (List.dropLast_sublist _).subset h1
    have h3 := (List.drop_sublist _ _).subset h2
    exact mem_of_mem_pyStrip c line h3
  exact ⟨pyStrip_lstripped _, pyStrip_rstripped _,
    fun hm => hnb.1 (hchain _ hm), fun hm => hnb.2 (hchain _ hm)⟩

/-- All key/value pairs parse-clean (they round-trip through a rendered
line) and the keys are distinct. -/
def DictOK (d : KVList) : Prop :=
  (∀ kv ∈ d, PairOK kv ∧ pyLstrip kv.2 = kv.2 ∧ pyRstrip kv.2 = kv.2) ∧
    (d.map Prod.fst).Nodup

/-- All sections have clean names and clean dictionaries, with distinct
section names. -/
def SecsOK (s : Sections) : Prop :=
  (∀ nd ∈ s, NameOK nd.1 ∧ DictOK nd.2) ∧ (s.map Prod.fst).Nodup

/-- The parse-state invariant. -/
def StOK (st : IniState) : Prop := DictOK st.root ∧ SecsOK st.sections

theorem DictOK_nil : DictOK [] :=
  ⟨fun kv hm => absurd hm (List.not_mem_nil kv), List.nodup_nil⟩

theorem SecsOK_nil : SecsOK [] :=
  ⟨fun nd hm => absurd hm (List.not_mem_nil nd), List.nodup_nil⟩

theorem DictOK_dictSet (d : KVList) (k v : Line) (hd : DictOK d)
    (hkv : PairOK (k, v) ∧ pyLstrip v = v ∧ pyRstrip v = v) :
    DictOK (dictSet d k v) := by
  constructor
  · intro kv hm
    rcases dictSet_mem d k v kv hm with h1 | h1
    · exact hd.1 kv h1
    · rw [h1]
      exact hkv
  · exact dictSet_keys_nodup d k v hd.2

theorem secSet_keys (s : Sections) (n k v : Line) :
    (secSet s n k v).map Prod.fst = s.map Prod.fst := by
  induction s with
  | nil => rfl
  | cons nd t ih =>
    rw [secSet]
    by_cases he : nd.1 = n
    · rw [if_pos he, List.map_cons, List.map_cons, he]
    · rw [if_neg he, List.map_cons, List.map_cons, ih]

theorem secSet_mem_cases (s : Sections) (n k v : Line) (nd' : Line × KVList)
    (h : nd' ∈ secSet s n k v) :
    nd' ∈ s ∨ ∃ d0, (n, d0) ∈ s ∧ nd' = (n, dictSet d0 k v) := by
  induction s with
  | nil =>
    rw [secSet] at h
    cases h
  | cons nd t ih =>
    rw [secSet] at h
    by_cases he : nd.1 = n
    · rw [if_pos he] at h
      rcases List.mem_cons.mp h with h1 | h1
      · right
        refine ⟨nd.2, ?_, ?_⟩
        · have hnd : nd = (n, nd.2) := by
            rw [← he]
          rw [← hnd]
          exact List.mem_cons_self _ _
        · rw [← he]
          exact h1
      · left
        exact List.mem_cons_of_mem _ h1
    · rw [if_neg he] at h
      rcases List.mem_cons.mp h with h1 | h1
      · left
        exact h1 ▸ List.mem_cons_self _ _
      · rcases ih h1 with h2 | ⟨d0, h2, h3⟩
        · left
          exact List.mem_cons_of_mem _ h2
        · right
          exact ⟨d0, List.mem_cons_of_mem _ h2, h3⟩

theorem SecsOK_secSet (s : Sections) (n k v : Line) (hs : SecsOK s)
    (hkv : PairOK (k, v) ∧ pyLstrip v = v ∧ pyRstrip v = v) :
    SecsOK (secSet s n k v) := by
  constructor
  · intro nd hm
    rcases secSet_mem_cases s n k v nd hm with h1 | ⟨d0, h1, h2⟩
    · exact hs.1 nd h1
    · rw [h2]
      obtain ⟨hname, hdict⟩ := hs.1 (n, d0) h1
      exact ⟨hname, DictOK_dictSet d0 k v hdict hkv⟩
  · rw [secSet_keys]
    exact hs.2

theorem SecsOK_openSection (st : IniState) (name : Line)
    (hs : SecsOK st.sections) (hname : NameOK name) :
    SecsOK (openSection st name).sections := by
  rw [openSection]
  by_cases hl : (dictLookup st.sections name).isSome = true
  · rw [if_pos hl]
    exact hs
  · rw [if_neg hl]
    constructor
    · intro nd hm
      rcases List.mem_append.mp hm with h1 | h1
      · exact hs.1 nd h1
      · rw [List.mem_singleton] at h1
        rw [h1]
        exact ⟨hname, DictOK_nil⟩
    · rw [List.map_append, List.nodup_append]
      refine ⟨hs.2, List.nodup_singleton _, ?_⟩
      intro a ha hb
      simp only [List.map_cons, List.map_nil] at hb
      rw [List.mem_singleton] at hb
      subst hb
      exact hl (isSome_of_mem_keys st.sections a ha)

theorem parseLine_StOK (st : IniState) (line : Line) (hnb : NoBreakL line)
    (h : StOK st) : StOK (parseLine st line) := by
  rw [parseLine]
  by_cases h1 : (pyStrip line).isEmpty = true
  · rw [if_pos h1]
    exact h
  · rw [if_neg h1]
    by_cases h2 : (pyStrip line).head? = some '#' ∨ (pyStrip line).head? = some ';'
    · rw [if_pos h2]
      exact h
    · rw [if_neg h2]
      by_cases h3 : (pyStrip line).head? = some '[' ∧
          (pyStrip line).getLast? = some ']'
      · rw [if_pos h3]
        constructor
        · rw [openSection]
          by_cases hl : (dictLookup st.sections
              (pyStrip (((pyStrip line).drop 1).dropLast))).isSome = true
          · rw [if_pos hl]
            exact h.1
          · rw [if_neg hl]
            exact h.1
        · exact SecsOK_openSection st _ h.2 (header_name_ok line hnb)
      · rw [if_neg h3]
        by_cases h4 : line.contains '=' = true
        · rw [if_pos h4]
          have hmem : '=' ∈ line := by
            have h5 : List.elem '=' line = true := h4
            exact List.elem_iff.mp h5
          obtain ⟨hpair, hv1, hv2⟩ := kv_pair_ok line hnb hmem h1
            (fun hc => h2 (Or.inl hc)) (fun hc => h2 (Or.inr hc)) h3
          rw [addKV]
          cases hcur : st.cur with
          | none =>
            exact ⟨DictOK_dictSet st.root _ _ h.1 ⟨hpair, hv1, hv2⟩, h.2⟩
          | some n =>
            exact ⟨h.1, SecsOK_secSet st.sections n _ _ h.2 ⟨hpair, hv1, hv2⟩⟩
        · rw [if_neg h4]
          exact h

theorem foldl_parseLine_StOK (ls : List Line) (st : IniState)
    (hls : ∀ l ∈ ls, NoBreakL l) (h : StOK st) :
    StOK (ls.foldl parseLine st) := by
  induction ls generalizing st with
  | nil => exact h
  | cons x t ih =>
    rw [List.foldl_cons]
    exact ih _ (fun l hl => hls l (List.mem_cons_of_mem _ hl))
      (parseLine_StOK st x (hls x (List.mem_cons_self _ _)) h)

theorem noBreak_splitNLAux (y : Line) (acc : Line) (hacc : NoBreakL acc) :
    ∀ l ∈ splitNLAux acc y, NoBreakL l := by
  induction y generalizing acc with
  | nil =>
    intro l hl
    rw [splitNLAux] at hl
    by_cases he : acc.isEmpty = true
    · rw [if_pos he] at hl
      cases hl
    · rw [if_neg he] at hl
      rw [List.mem_singleton] at hl
      rw [hl]
      exact ⟨fun hm => hacc.1 (List.mem_reverse.mp hm),
        fun hm => hacc.2 (List.mem_reverse.mp hm)⟩
  | cons c cs ih =>
    intro l hl
    rw [splitNLAux] at hl
    by_cases hc : (c = '\n' || c = '\r') = true
    · rw [if_pos hc] at hl
      rcases List.mem_cons.mp hl with h1 | h1
      · rw [h1]
        exact ⟨fun hm => hacc.1 (List.mem_reverse.mp hm),
          fun hm => hacc.2 (List.mem_reverse.mp hm)⟩
      · exact ih [] ⟨List.not_mem_nil _, List.not_mem_nil _⟩ l h1
    · rw [if_neg hc] at hl
      rw [Bool.or_eq_true, decide_eq_true_eq, decide_eq_true_eq] at hc
      refine ih (c :: acc) ⟨?_, ?_⟩ l hl
      · intro hm
        rcases List.mem_cons.mp hm with h1 | h1
        · exact hc (Or.inl h1.symm)
        · exact hacc.1 h1
      · intro hm
        rcases List.mem_cons.mp hm with h1 | h1
        · exact hc (Or.inr h1.symm)
        · exact hacc.2 h1

theorem noBreak_pySplitlines (t : Line) : ∀ l ∈ pySplitlines t, NoBreakL l := by
  rw [pySplitlines]
  exact noBreak_splitNLAux (translateCRLF t) []
    ⟨List.not_mem_nil _, List.not_mem_nil _⟩

theorem parse_ini_StOK (file : Option Line) :
    DictOK (parse_ini file).1 ∧ SecsOK (parse_ini file).2 := by
  cases file with
  | none => exact ⟨DictOK_nil, SecsOK_nil⟩
  | some t =>
    have h := foldl_parseLine_StOK (pySplitlines t) ⟨[], [], none⟩
      (noBreak_pySplitlines t) ⟨DictOK_nil, SecsOK_nil⟩
    exact ⟨h.1, h.2⟩

/-- The tame-parameter assumptions under which `_update_vale_ini` is
stable: every configuration value stays on one line and carries no
surrounding whitespace, and the style name (which also builds
configuration keys) cannot be mistaken for ini syntax. -/
def ManifestOK (packages_url : Line) (m : InstallManifest) : Prop :=
  NameOK packages_url ∧ NameOK m.min_alert_level ∧ NameOK m.vocab_name ∧
    NameOK m.style_name ∧ '=' ∉ m.style_name ∧
    m.style_name.head? ≠ some '#' ∧ m.style_name.head? ≠ some ';' ∧
    m.style_name.head? ≠ some '['

theorem style_key_ok (style suf : Line) (hst : NameOK style)
    (heq : '=' ∉ style) (hh : style.head? ≠ some '#')
    (hs : style.head? ≠ some ';') (hbr : style.head? ≠ some '[')
    (hsufK : KeyOK suf) (hsufne : suf ≠ [])
    (hsufbr : suf.head? ≠ some '[') :
    KeyOK (style ++ suf) ∧ (style ++ suf).head? ≠ some '[' := by
  obtain ⟨hst1, hst2, hstnb⟩ := hst
  obtain ⟨hsuf1, hsuf2, hsufnb, hsufeq, hsufh, hsufs⟩ := hsufK
  have hl : pyLstrip (style ++ suf) = style ++ suf := by
    cases style with
    | nil =>
      rw [List.nil_append]
      exact hsuf1
    | cons c t => exact pyLstrip_append_of_ne_nil _ _ hst1 (by simp)
  have hr : pyRstrip (style ++ suf) = style ++ suf := by
    rw [pyRstrip_append, hsuf2, if_neg hsufne]
  have hnb : NoBreakL (style ++ suf) := by
    constructor
    · intro hm
      rcases List.mem_append.mp hm with h1 | h1
      · exact hstnb.1 h1
      · exact hsufnb.1 h1
    · intro hm
      rcases List.mem_append.mp hm with h1 | h1
      · exact hstnb.2 h1
      · exact hsufnb.2 h1
  have heq2 : '=' ∉ style ++ suf := by
    intro hm
    rcases List.mem_append.mp hm with h1 | h1
    · exact heq h1
    · exact hsufeq h1
  have hhead : ∀ ch : Char, style.head? ≠ some ch → suf.head? ≠ some ch →
      (style ++ suf).head? ≠ some ch := by
    intro ch h1 h2
    cases style with
    | nil =>
      rw [List.nil_append]
      exact h2
    | cons c t =>
      rw [List.cons_append]
      exact h1
  exact ⟨⟨hl, hr, hnb, heq2, hhead '#' hh hsufh, hhead ';' hs hsufs⟩,
    hhead '[' hbr hsufbr⟩

theorem overlay_root_DictOK (R : KVList) (url : Line) (m : InstallManifest)
    (hR : DictOK R) (hm : ManifestOK url m) :
    DictOK (overlay_root R url m) := by
  obtain ⟨hurl, hlvl, hvoc, hsty, _, _, _, _⟩ := hm
  rw [overlay_root]
  refine DictOK_dictSet _ _ _ (DictOK_dictSet _ _ _ (DictOK_dictSet _ _ _ hR
    ⟨⟨show KeyOK "Packages".data by unfold KeyOK NoBreakL; decide, hurl.2.2,
      fun hc => absurd hc (show ¬"Packages".data.head? = some '[' by decide)⟩,
      hurl.1, hurl.2.1⟩)
    ⟨⟨show KeyOK "MinAlertLevel".data by unfold KeyOK NoBreakL; decide, hlvl.2.2,
      fun hc => absurd hc
        (show ¬"MinAlertLevel".data.head? = some '[' by decide)⟩,
      hlvl.1, hlvl.2.1⟩) ?_
  by_cases hve : m.vocab_name.isEmpty = true
  · rw [if_pos hve]
    exact ⟨⟨show KeyOK "Vocab".data by unfold KeyOK NoBreakL; decide, hsty.2.2,
      fun hc => absurd hc (show ¬"Vocab".data.head? = some '[' by decide)⟩,
      hsty.1, hsty.2.1⟩
  · rw [if_neg hve]
    exact ⟨⟨show KeyOK "Vocab".data by unfold KeyOK NoBreakL; decide, hvoc.2.2,
      fun hc => absurd hc (show ¬"Vocab".data.head? = some '[' by decide)⟩,
      hvoc.1, hvoc.2.1⟩

theorem req_pairs_ok (url : Line) (m : InstallManifest) (hm : ManifestOK url m) :
    ∀ nr ∈ required_sections m, ∀ kv ∈ nr.2,
      PairOK kv ∧ pyLstrip kv.2 = kv.2 ∧ pyRstrip kv.2 = kv.2 := by
  obtain ⟨hurl, hlvl, hvoc, hsty, heq, hh, hs, hbr⟩ := hm
  have hbase : ∀ v : Line, NameOK v →
      PairOK ("BasedOnStyles".data, v) ∧ pyLstrip v = v ∧ pyRstrip v = v :=
    fun v hv => ⟨⟨show KeyOK "BasedOnStyles".data by
        unfold KeyOK NoBreakL; decide, hv.2.2,
      fun hc => absurd hc
        (show ¬"BasedOnStyles".data.head? = some '[' by decide)⟩,
      hv.1, hv.2.1⟩
  have hNO : NameOK "NO".data := by
    unfold NameOK NoBreakL
    decide
  have hstyleKey : ∀ suf : Line, KeyOK suf → suf ≠ [] →
      suf.head? ≠ some '[' →
      PairOK (m.style_name ++ suf, "NO".data) ∧
        pyLstrip "NO".data = "NO".data ∧ pyRstrip "NO".data = "NO".data := by
    intro suf hsufK hsufne hsufbr
    obtain ⟨hK, hB⟩ := style_key_ok m.style_name suf hsty heq hh hs hbr
      hsufK hsufne hsufbr
    exact ⟨⟨hK, hNO.2.2, fun hc => absurd hc hB⟩, hNO.1, hNO.2.1⟩
  intro nr hnr kv hkv
  rw [required_sections] at hnr
  simp only [List.mem_cons, List.not_mem_nil, or_false] at hnr
  rcases hnr with h | h | h | h
  all_goals rw [h] at hkv
  · simp only [List.mem_cons, List.not_mem_nil, or_false] at hkv
    rcases hkv with h2 | h2
    all_goals rw [h2]
    · exact hbase m.style_name hsty
    · refine ⟨⟨show KeyOK "BlockIgnores".data by
        unfold KeyOK NoBreakL; decide, ?_,
        fun hc => absurd hc
          (show ¬"BlockIgnores".data.head? = some '[' by decide)⟩, ?_, ?_⟩
      · unfold NoBreakL FOOTNOTE_REGEX
        decide
      · decide
      · decide
  · simp only [List.mem_cons, List.not_mem_nil, or_false] at hkv
    rw [hkv]
    exact hbase m.style_name hsty
  · simp only [List.mem_cons, List.not_mem_nil, or_false] at hkv
    rcases hkv with h2 | h2 | h2
    all_goals rw [h2]
    · exact hbase m.style_name hsty
    · exact hstyleKey ".RustNoRun".data
        (by unfold KeyOK NoBreakL; decide) (by decide) (by decide)
    · exact hstyleKey ".Acronyms".data
        (by unfold KeyOK NoBreakL; decide) (by decide) (by decide)
  · simp only [List.mem_cons, List.not_mem_nil, or_false] at hkv
    rcases hkv with h2 | h2
    all_goals rw [h2]
    · exact hbase m.style_name hsty
    · exact hstyleKey ".Pronouns".data
        (by unfold KeyOK NoBreakL; decide) (by decide) (by decide)

theorem DictOK_merge (e req : KVList) (he : DictOK e)
    (hreq : ∀ kv ∈ req, PairOK kv ∧ pyLstrip kv.2 = kv.2 ∧ pyRstrip kv.2 = kv.2)
    (hnd : (req.map Prod.fst).Nodup) :
    DictOK (merge_and_order_section e req) := by
  rw [merge_and_order_closed e req hnd]
  constructor
  · intro kv hm
    rcases List.mem_append.mp hm with h1 | h1
    · exact hreq kv h1
    · exact he.1 kv (List.mem_of_mem_filter h1)
  · rw [List.map_append, List.nodup_append]
    refine ⟨hnd, List.Nodup.sublist
      (List.Sublist.map _ (List.filter_sublist _)) he.2, ?_⟩
    intro a ha hb
    rcases List.mem_map.mp hb with ⟨kv, hkv, hfst⟩
    have hmf := List.mem_filter.mp hkv
    have hnone : dictLookup req kv.1 = none :=
      Option.isNone_iff_eq_none.mp hmf.2
    rw [dictLookup_eq_none_iff] at hnone
    exact hnone (hfst ▸ ha)

theorem SecsOK_dictSet_section (s : Sections) (n : Line) (d : KVList)
    (hs : SecsOK s) (hn : NameOK n) (hd : DictOK d) :
    SecsOK (dictSet s n d) := by
  constructor
  · intro nd hm
    rcases dictSet_mem s n d nd hm with h1 | h1
    · exact hs.1 nd h1
    · rw [h1]
      exact ⟨hn, hd⟩
  · exact dictSet_keys_nodup s n d hs.2

theorem required_names_ok (m : InstallManifest) :
    ∀ nr ∈ required_sections m, NameOK nr.1 := by
  intro nr hnr
  rw [required_sections] at hnr
  simp only [List.mem_cons, List.not_mem_nil, or_false] at hnr
  rcases hnr with h | h | h | h
  all_goals rw [h]
  · show NameOK docs_glob
    unfold NameOK NoBreakL docs_glob
    decide
  · show NameOK "AGENTS.md".data
    unfold NameOK NoBreakL
    decide
  · show NameOK code_glob
    unfold NameOK NoBreakL code_glob
    decide
  · show NameOK "README.md".data
    unfold NameOK NoBreakL
    decide

theorem SecsOK_foldl_overlay (l : Sections) (X : Sections) (hs : SecsOK X)
    (hnames : ∀ nr ∈ l, NameOK nr.1)
    (hpairs : ∀ nr ∈ l, ∀ kv ∈ nr.2,
      PairOK kv ∧ pyLstrip kv.2 = kv.2 ∧ pyRstrip kv.2 = kv.2)
    (hknd : ∀ nr ∈ l, (nr.2.map Prod.fst).Nodup) :
    SecsOK (l.foldl (fun s nr => dictSet s nr.1
      (merge_and_order_section ((dictLookup s nr.1).getD []) nr.2)) X) := by
  induction l generalizing X with
  | nil => exact hs
  | cons e t ih =>
    rw [List.foldl_cons]
    have he : DictOK ((dictLookup X e.1).getD []) := by
      cases hl : dictLookup X e.1 with
      | none => exact DictOK_nil
      | some d =>
        rw [Option.getD_some]
        exact (hs.1 (e.1, d) (dictLookup_mem X e.1 d hl)).2
    refine ih _ (SecsOK_dictSet_section X e.1 _ hs
      (hnames e (List.mem_cons_self _ _))
      (DictOK_merge _ _ he (hpairs e (List.mem_cons_self _ _))
        (hknd e (List.mem_cons_self _ _))))
      (fun nr hm => hnames nr (List.mem_cons_of_mem _ hm))
      (fun nr hm => hpairs nr (List.mem_cons_of_mem _ hm))
      (fun nr hm => hknd nr (List.mem_cons_of_mem _ hm))

theorem SecsOK_overlay (S : Sections) (url : Line) (m : InstallManifest)
    (hS : SecsOK S) (hm : ManifestOK url m) :
    SecsOK (overlay_sections S m) := by
  rw [overlay_sections]
  exact SecsOK_foldl_overlay (required_sections m) S hS (required_names_ok m)
    (req_pairs_ok url m hm) (fun nr hm2 => req_keys_nodup m nr hm2)

theorem mem_filterMap_names_if {β : Type} (names seen : List Line)
    (f : Line → Option β) (kv : Line × β)
    (h : kv ∈ names.filterMap (fun q =>
      if q ∈ seen then none else (f q).map (fun v => (q, v)))) :
    f kv.1 = some kv.2 := by
  induction names with
  | nil => cases h
  | cons q t ih =>
    simp only [List.filterMap_cons] at h
    by_cases hqs : q ∈ seen
    · rw [if_pos hqs] at h
      exact ih h
    · rw [if_neg hqs] at h
      cases hq : f q with
      | none =>
        rw [hq] at h
        simp only [Option.map_none'] at h
        exact ih h
      | some v =>
        rw [hq] at h
        simp only [Option.map_some'] at h
        rcases List.mem_cons.mp h with h1 | h1
        · rw [h1]
          exact hq
        · exact ih h1

theorem DictOK_reorder (R : KVList) (prio : List Line) (h : DictOK R)
    (hprio : prio.Nodup) : DictOK (reorderRootPairs R prio) := by
  rw [reorderRootPairs]
  constructor
  · intro kv hm
    rcases List.mem_append.mp hm with h1 | h1
    · have h2 := (mem_filterMap_names prio (fun k => dictLookup R k) kv h1).2
      exact h.1 kv (by
        have h3 := dictLookup_mem R kv.1 kv.2 h2
        rw [show (kv.1, kv.2) = kv from rfl] at h3
        exact h3)
    · exact h.1 kv (List.mem_of_mem_filter h1)
  · rw [List.map_append, List.nodup_append]
    rw [keys_filterMap_names prio (fun k => dictLookup R k)]
    refine ⟨List.Nodup.filter _ hprio,
      List.Nodup.sublist (List.Sublist.map _ (List.filter_sublist _)) h.2, ?_⟩
    intro a ha hb
    rcases List.mem_map.mp hb with ⟨kv, hkv, hfst⟩
    have hnp := (List.mem_filter.mp hkv).2
    rw [decide_eq_true_eq] at hnp
    exact hnp (hfst ▸ List.mem_of_mem_filter ha)

theorem SecsOK_reorder (S : Sections) (h : SecsOK S) :
    SecsOK (reorderSecsPairs S) := by
  constructor
  · intro nd hm
    rw [reorderSecsPairs] at hm
    rcases List.mem_append.mp hm with h1 | h1
    · have h2 := (mem_filterMap_names section_order
        (fun n => dictLookup S n) nd h1).2
      exact h.1 nd (by
        have h3 := dictLookup_mem S nd.1 nd.2 h2
        rw [show (nd.1, nd.2) = nd from rfl] at h3
        exact h3)
    · have h2 := mem_filterMap_names_if (pySorted (S.map Prod.fst))
        (seen_sections section_order S) (fun n => dictLookup S n) nd h1
      exact h.1 nd (by
        have h3 := dictLookup_mem S nd.1 nd.2 h2
        rw [show (nd.1, nd.2) = nd from rfl] at h3
        exact h3)
  · exact (reorderSecsPairs_keys_perm S h.2).nodup_iff.mpr h.2

theorem stripVals_eq_self (d : KVList)
    (h : ∀ kv ∈ d, pyLstrip kv.2 = kv.2 ∧ pyRstrip kv.2 = kv.2) :
    stripVals d = d := by
  induction d with
  | nil => rfl
  | cons kv t ih =>
    rw [stripVals, List.map_cons]
    rw [show pyStrip kv.2 = kv.2 from
      pyStrip_of_both kv.2 (h kv (List.mem_cons_self _ _)).1
        (h kv (List.mem_cons_self _ _)).2]
    rw [show (kv.1, kv.2) = kv from rfl]
    rw [show List.map (fun kv => (kv.1, pyStrip kv.2)) t = stripVals t from rfl]
    rw [ih (fun kv2 hm => h kv2 (List.mem_cons_of_mem _ hm))]

theorem stripSecs_eq_self (s : Sections)
    (h : ∀ nd ∈ s, ∀ kv ∈ nd.2, pyLstrip kv.2 = kv.2 ∧ pyRstrip kv.2 = kv.2) :
    s.map (fun nd => (nd.1, stripVals nd.2)) = s := by
  induction s with
  | nil => rfl
  | cons nd t ih =>
    rw [List.map_cons]
    rw [stripVals_eq_self nd.2 (h nd (List.mem_cons_self _ _))]
    rw [show (nd.1, nd.2) = nd from rfl]
    rw [ih (fun nd2 hm => h nd2 (List.mem_cons_of_mem _ hm))]

theorem kvLine_noBreak (k v : Line) (hk : NoBreakL k) (hv : NoBreakL v) :
    NoBreakL (kvLine k v) := by
  rw [kvLine]
  constructor
  · intro hm
    rcases List.mem_append.mp hm with h1 | h1
    · rcases List.mem_append.mp h1 with h2 | h2
      · exact hk.1 h2
      · revert h2
        decide
    · exact hv.1 h1
  · intro hm
    rcases List.mem_append.mp hm with h1 | h1
    · rcases List.mem_append.mp h1 with h2 | h2
      · exact hk.2 h2
      · revert h2
        decide
    · exact hv.2 h1

theorem nil_noBreak : NoBreakL ([] : Line) :=
  ⟨List.not_mem_nil _, List.not_mem_nil _⟩

theorem emit_section_noBreak (n : Line) (d : KVList) (hn : NoBreakL n)
    (hd : ∀ kv ∈ d, NoBreakL kv.1 ∧ NoBreakL kv.2) :
    ∀ l ∈ emit_section n d, NoBreakL l := by
  intro l hl
  rw [emit_section] at hl
  rcases List.mem_cons.mp hl with h1 | h1
  · rw [h1]
    constructor
    · intro hm
      rcases List.mem_append.mp hm with h2 | h2
      · rcases List.mem_append.mp h2 with h3 | h3
        · revert h3
          decide
        · exact hn.1 h3
      · revert h2
        decide
    · intro hm
      rcases List.mem_append.mp hm with h2 | h2
      · rcases List.mem_append.mp h2 with h3 | h3
        · revert h3
          decide
        · exact hn.2 h3
      · revert h2
        decide
  · rcases List.mem_append.mp h1 with h2 | h2
    · rcases List.mem_flatMap.mp h2 with ⟨kv, hkv, hin⟩
      rcases List.mem_append.mp hin with h3 | h3
      · by_cases hb : kv.1 = "BlockIgnores".data
        · rw [if_pos hb] at h3
          rw [List.mem_singleton] at h3
          rw [h3]
          unfold NoBreakL
          decide
        · rw [if_neg hb] at h3
          cases h3
      · rw [List.mem_singleton] at h3
        rw [h3]
        exact kvLine_noBreak kv.1 kv.2 (hd kv hkv).1 (hd kv hkv).2
    · rw [List.mem_singleton] at h2
      rw [h2]
      exact nil_noBreak

theorem render_lines_noBreak (R : KVList) (S : Sections)
    (hR : DictOK R) (hS : SecsOK S) :
    ∀ l ∈ render_ini_lines R S, NoBreakL l := by
  have hsecEmit : ∀ (n : Line) (o : KVList), dictLookup S n = some o →
      ∀ l ∈ emit_section n o, NoBreakL l := by
    intro n o hlk
    have hmem : (n, o) ∈ S := dictLookup_mem S n o hlk
    obtain ⟨hname, hdict⟩ := hS.1 (n, o) hmem
    exact emit_section_noBreak n o hname.2.2
      (fun kv hkv => ⟨(hdict.1 kv hkv).1.1.2.2.1, (hdict.1 kv hkv).1.2.1⟩)
  intro l hl
  rw [render_ini_lines] at hl
  rcases List.mem_append.mp hl with h1 | h1
  · rcases List.mem_append.mp h1 with h2 | h2
    · rw [render_root_options_eq] at h2
      have hOK := DictOK_reorder R root_priority hR (by decide)
      have hmm : l ∈ (reorderRootPairs R root_priority).map
          (fun kv => kvLine kv.1 kv.2) ∨ l = [] := by
        by_cases he : ((reorderRootPairs R root_priority).map
            (fun kv => kvLine kv.1 kv.2)).isEmpty = true
        · rw [if_pos he] at h2
          exact Or.inl h2
        · rw [if_neg he] at h2
          rcases List.mem_append.mp h2 with h3 | h3
          · exact Or.inl h3
          · rw [List.mem_singleton] at h3
            exact Or.inr h3
      rcases hmm with h3 | h3
      · rcases List.mem_map.mp h3 with ⟨kv, hkv, hline⟩
        rw [← hline]
        have hpair := hOK.1 kv hkv
        exact kvLine_noBreak kv.1 kv.2 hpair.1.1.2.2.1 hpair.1.2.1
      · rw [h3]
        exact nil_noBreak
    · rw [emit_ordered_sections] at h2
      rcases List.mem_flatMap.mp h2 with ⟨n, hn, hin⟩
      cases hlk : dictLookup S n with
      | none =>
        rw [hlk] at hin
        cases hin
      | some o =>
        rw [hlk] at hin
        exact hsecEmit n o hlk l hin
  · rw [emit_remaining_sections] at h1
    rcases List.mem_flatMap.mp h1 with ⟨n, hn, hin⟩
    by_cases hseen : n ∈ seen_sections section_order S
    · rw [if_pos hseen] at hin
      cases hin
    · rw [if_neg hseen] at hin
      cases hlk : dictLookup S n with
      | none =>
        rw [hlk] at hin
        cases hin
      | some o =>
        rw [hlk] at hin
        exact hsecEmit n o hlk l hin

theorem parse_of_render (R : KVList) (S : Sections) (hR : DictOK R)
    (hS : SecsOK S) :
    parse_ini (some (render_ini R S)) =
      (stripVals (reorderRootPairs R root_priority),
        (reorderSecsPairs S).map (fun nd => (nd.1, stripVals nd.2))) := by
  have hRre := DictOK_reorder R root_priority hR (by decide)
  have hSre := SecsOK_reorder S hS
  rw [parse_ini, render_ini]
  have hround := foldl_parseLine_round (render_ini_lines R S)
    (render_lines_noBreak R S hR hS) ⟨[], [], none⟩
  have hstep : parseIniLines (pySplitlines
      (pyRstrip (List.intercalate ['\n'] (render_ini_lines R S)) ++ ['\n'])) =
        parseIniLines (render_ini_lines R S) := by
    simp only [parseIniLines]
    rw [hround]
  rw [hstep]
  exact parseIniLines_render R S
    (fun kv hm2 => (hRre.1 kv hm2).1) hRre.2
    (fun nd hm2 => ⟨(hSre.1 nd hm2).1,
      fun kv hkv => ((hSre.1 nd hm2).2.1 kv hkv).1,
      (hSre.1 nd hm2).2.2⟩) hSre.2

/-- C1: `_update_vale_ini` is idempotent: writing the updated
configuration once and running the update again over its own output
reproduces the same text, for any starting file state, provided the
packages URL, alert level, vocabulary and style names are single-line
trimmed strings and the style name (which also builds configuration
keys) contains no `=` and does not begin with `#`, `;` or `[`. -/
theorem c1_update_vale_ini_idempotent (file : Option Line)
    (packages_url : Line) (m : InstallManifest)
    (hm : ManifestOK packages_url m) :
    update_vale_ini (some (update_vale_ini file packages_url m))
        packages_url m =
      update_vale_ini file packages_url m := by
  obtain ⟨hd0, hs0⟩ := parse_ini_StOK file
  have hR1 := overlay_root_DictOK (parse_ini file).1 packages_url m hd0 hm
  have hS1 := SecsOK_overlay (parse_ini file).2 packages_url m hs0 hm
  have hRre := DictOK_reorder _ root_priority hR1 (by decide)
  have hSre := SecsOK_reorder _ hS1
  simp only [update_vale_ini]
  rw [parse_of_render _ _ hR1 hS1]
  dsimp only
  rw [stripVals_eq_self _ (fun kv hm2 => (hRre.1 kv hm2).2)]
  rw [stripSecs_eq_self _ (fun nd hm2 kv hkv =>
    ((hSre.1 nd hm2).2.1 kv hkv).2)]
  rw [overlay_root_absorb (parse_ini file).1 packages_url m]
  rw [overlay_sections_absorb (parse_ini file).2 m]
  rw [render_ini, render_ini, render_ini_lines_reorder _ _ hS1.2]

theorem c1_update_vale_ini_idempotent_witness :
    ManifestOK "https://example.com/pkg.zip".data
      ⟨"MyStyle".data, "MyVocab".data, "suggestion".data⟩ ∧
    update_vale_ini (some (update_vale_ini
        (some "StylesPath = styles\n[legacy]\nOld = 1\n".data)
        "https://example.com/pkg.zip".data
        ⟨"MyStyle".data, "MyVocab".data, "suggestion".data⟩))
      "https://example.com/pkg.zip".data
      ⟨"MyStyle".data, "MyVocab".data, "suggestion".data⟩ =
    update_vale_ini (some "StylesPath = styles\n[legacy]\nOld = 1\n".data)
      "https://example.com/pkg.zip".data
      ⟨"MyStyle".data, "MyVocab".data, "suggestion".data⟩ :=
  ⟨by unfold ManifestOK NameOK NoBreakL; decide,
    c1_update_vale_ini_idempotent
      (some "StylesPath = styles\n[legacy]\nOld = 1\n".data)
      "https://example.com/pkg.zip".data
      ⟨"MyStyle".data, "MyVocab".data, "suggestion".data⟩
      (by unfold ManifestOK NameOK NoBreakL; decide)⟩

set_option maxRecDepth 10000 in
theorem c1_style_equals_counterexample :
    update_vale_ini (some (update_vale_ini none "u".data
        ⟨"a=b".data, "v".data, "l".data⟩)) "u".data
      ⟨"a=b".data, "v".data, "l".data⟩ ≠
    update_vale_ini none "u".data ⟨"a=b".data, "v".data, "l".data⟩ := by
  decide

theorem required_names_eq (m : InstallManifest) :
    (required_sections m).map Prod.fst = section_order := rfl

theorem overlay_sections_lookup_not_required (S : Sections)
    (m : InstallManifest) (n : Line) (hn : n ∉ section_order) :
    dictLookup (overlay_sections S m) n = dictLookup S n := by
  rw [overlay_sections]
  exact foldl_overlay_lookup_not_mem (required_sections m) S n
    (by rw [required_names_eq]; exact hn)

theorem reorderSecsPairs_keys_eq (S : Sections) :
    (reorderSecsPairs S).map Prod.fst =
      seen_sections section_order S ++
        (pySorted (S.map Prod.fst)).filter
          (fun q => decide (q ∉ seen_sections section_order S)) := by
  rw [reorderSecsPairs, List.map_append]
  rw [keys_filterMap_names section_order (fun n => dictLookup S n)]
  rw [keys_filterMap_names_if (pySorted (S.map Prod.fst))
    (seen_sections section_order S) (fun n => dictLookup S n)]
  congr 1
  apply List.filter_congr
  intro q hq
  have hqK : q ∈ S.map Prod.fst := (List.perm_insertionSort _ _).mem_iff.mp hq
  rw [isSome_of_mem_keys S q hqK, Bool.and_true]

/-- C5: sections that are not part of the fixed catalogue survive
`_update_vale_ini` with all their key/value pairs, and they are emitted
after the fixed-priority sections, in dictionary order of their names
(for tame overlay parameters, and at the level of the parsed
key/value data, which the renderer writes back one pair per line). -/
theorem c5_unknown_sections_preserved (file : Option Line)
    (packages_url : Line) (m : InstallManifest)
    (hm : ManifestOK packages_url m) (n : Line) (d : KVList)
    (hn : n ∉ section_order)
    (hd : dictLookup (parse_ini file).2 n = some d) :
    dictLookup (parse_ini (some (update_vale_ini file packages_url m))).2 n =
        some d ∧
      (parse_ini (some (update_vale_ini file packages_url m))).2.map
          Prod.fst =
        seen_sections section_order
            (overlay_sections (parse_ini file).2 m) ++
          (pySorted ((overlay_sections (parse_ini file).2 m).map
              Prod.fst)).filter
            (fun q => decide (q ∉ seen_sections section_order
              (overlay_sections (parse_ini file).2 m))) ∧
      n ∈ (pySorted ((overlay_sections (parse_ini file).2 m).map
          Prod.fst)).filter
        (fun q => decide (q ∉ seen_sections section_order
          (overlay_sections (parse_ini file).2 m))) ∧
      List.Sorted (fun a b => lineLe a b = true)
        ((pySorted ((overlay_sections (parse_ini file).2 m).map
            Prod.fst)).filter
          (fun q => decide (q ∉ seen_sections section_order
            (overlay_sections (parse_ini file).2 m)))) := by
  obtain ⟨hd0, hs0⟩ := parse_ini_StOK file
  have hR1 := overlay_root_DictOK (parse_ini file).1 packages_url m hd0 hm
  have hS1 := SecsOK_overlay (parse_ini file).2 packages_url m hs0 hm
  have hSre := SecsOK_reorder _ hS1
  have hout : (parse_ini (some (update_vale_ini file packages_url m))).2 =
      reorderSecsPairs (overlay_sections (parse_ini file).2 m) := by
    simp only [update_vale_ini]
    rw [parse_of_render _ _ hR1 hS1]
    dsimp only
    exact stripSecs_eq_self _ (fun nd hm2 kv hkv =>
      ((hSre.1 nd hm2).2.1 kv hkv).2)
  have hlook1 : dictLookup (overlay_sections (parse_ini file).2 m) n =
      some d := by
    rw [overlay_sections_lookup_not_required _ _ _ hn]
    exact hd
  refine ⟨?_, ?_, ?_, ?_⟩
  · rw [hout, reorderSecsPairs_lookup]
    exact hlook1
  · rw [hout]
    exact reorderSecsPairs_keys_eq _
  · rw [List.mem_filter]
    refine ⟨?_, ?_⟩
    · exact (List.perm_insertionSort _ _).mem_iff.mpr
        (mem_keys_of_isSome _ n (by rw [hlook1]; rfl))
    · rw [decide_eq_true_eq]
      intro hc
      exact hn (List.mem_of_mem_filter hc)
  · exact List.Pairwise.sublist (List.filter_sublist _)
      (List.sorted_insertionSort _ _)

set_option maxRecDepth 10000 in
theorem c5_unknown_sections_preserved_witness :
    ("legacy".data ∉ section_order ∧
      dictLookup (parse_ini (some "[legacy]\nOld = 1\n".data)).2
        "legacy".data = some [("Old".data, "1".data)]) ∧
    dictLookup (parse_ini (some (update_vale_ini
        (some "[legacy]\nOld = 1\n".data)
        "https://example.com/pkg.zip".data
        ⟨"MyStyle".data, "MyVocab".data, "suggestion".data⟩))).2
      "legacy".data = some [("Old".data, "1".data)] :=
  ⟨⟨by decide, by decide⟩,
    (c5_unknown_sections_preserved (some "[legacy]\nOld = 1\n".data)
      "https://example.com/pkg.zip".data
      ⟨"MyStyle".data, "MyVocab".data, "suggestion".data⟩
      (by unfold ManifestOK NameOK NoBreakL; decide)
      "legacy".data [("Old".data, "1".data)]
      (by decide) (by decide)).1⟩
